import Mathlib

/-!
# ds-vault-go-sdk: the envelope-decryption client

A shallow embedding of the Go package `vault` (files `cache.go`, `crypto.go`,
`aad.go`, `kms.go`, `ssm.go`, `client.go`) and the properties of it that are
proved below.

Conventions of the embedding

* A Go `string` is a Lean `String` (valid UTF-8 text); `[]byte(s)` is the UTF-8
  encoding of `s` (`bytesOf`).
* A Go `[]byte` is a `List Nat` whose elements are byte values (`IsBytes`); the
  nil slice and the empty slice are both `[]`.
* A Go `error` is an `Option GoError`, `none` being the nil error, and a pair of
  results `(x, err)` is a Lean pair: nothing in a type prevents a function from
  returning a value together with an error.
* `time.Time` and `time.Duration` are integers counting nanoseconds (since the
  Unix epoch for an instant).  Every call of `time.Now()` made by the code is an
  explicit argument of the embedded function.
* The collaborators behind the interfaces `SecretRepository`, `KMSAPI` and
  `SSMAPI` are arbitrary state-transforming functions on an abstract state; the
  requests they receive are recorded in a log.
-/

namespace Vault

/-! ## Bytes, strings and time -/

/-- Go `[]byte`. -/
abbrev Bytes := List Nat

/-- Every element of the list is a byte value. -/
def IsBytes (bs : Bytes) : Prop := ∀ b ∈ bs, b < 256

instance (bs : Bytes) : Decidable (IsBytes bs) := by
  unfold IsBytes; infer_instance

/-- UTF-8 encoding of one character. -/
def utf8Bytes (c : Char) : Bytes :=
  let n := c.toNat
  if n < 0x80 then [n]
  else if n < 0x800 then [0xC0 + n / 64, 0x80 + n % 64]
  else if n < 0x10000 then [0xE0 + n / 4096, 0x80 + n / 64 % 64, 0x80 + n % 64]
  else [0xF0 + n / 262144, 0x80 + n / 4096 % 64, 0x80 + n / 64 % 64, 0x80 + n % 64]

/-- Go `[]byte(s)`: the bytes of a string. -/
def bytesOf (s : String) : Bytes := s.toList.flatMap utf8Bytes

/-- Go `Time.Unix()`: whole seconds since the epoch of an instant given in
nanoseconds (rounded towards minus infinity). -/
def unixSec (t : Int) : Int := t / 1000000000

/-- Go `time.Minute`, in nanoseconds. -/
def Minute : Int := 60 * 1000000000

/-! ## Go maps with string keys

A map is an association list in which no key occurs twice; `mapSet` and
`mapDelete` keep it so. -/

/-- Go `m[k]` with the comma-ok result. -/
def mapGet {β : Type} : List (String × β) → String → Option β
  | [], _ => none
  | (k', v) :: m, k => if k' = k then some v else mapGet m k

/-- Go `delete(m, k)`. -/
def mapDelete {β : Type} : List (String × β) → String → List (String × β)
  | [], _ => []
  | (k', v) :: m, k => if k' = k then mapDelete m k else (k', v) :: mapDelete m k

/-- Go `m[k] = v`. -/
def mapSet {β : Type} (m : List (String × β)) (k : String) (v : β) : List (String × β) :=
  mapDelete m k ++ [(k, v)]

/-! ## cache.go -/

/-- The struct `ttlItem`: a cached value and its expiry in Unix seconds. -/
structure ttlItem (T : Type) where
  v : T
  exp : Int

/-- The struct `TTLCache` (the mutex is not modelled: calls are sequential). -/
structure TTLCache (T : Type) where
  ttl : Int
  size : Int
  data : List (String × ttlItem T)
  keys : List String

/-- Go `NewTTLCache(size, ttl)`. -/
def NewTTLCache {T : Type} (size : Int) (ttl : Int) : TTLCache T :=
  { ttl := ttl, size := size, data := [], keys := [] }

/-- Go `(*TTLCache).Get(k)`, where `now` is the reading of `time.Now()`; the result is
the returned pair and the cache after the call. -/
def TTLCache.Get {T : Type} [Inhabited T] (c : TTLCache T) (now : Int) (k : String) :
    (T × Bool) × TTLCache T :=
  let now := unixSec now
  match mapGet c.data k with
  | none => ((default, false), c)
  | some it =>
    if it.exp < now then ((default, false), { c with data := mapDelete c.data k })
    else ((it.v, true), c)

/-- Go `(*TTLCache).Set(k, v)`, where `now` is the reading of `time.Now()`. -/
def TTLCache.Set {T : Type} (c : TTLCache T) (now : Int) (k : String) (v : T) : TTLCache T :=
  let now := unixSec (now + c.ttl)
  let c1 : TTLCache T :=
    if (c.data.length : Int) ≥ c.size then
      match c.keys with
      | old :: rest => { c with keys := rest, data := mapDelete c.data old }
      | [] => c
    else c
  { c1 with data := mapSet c1.data k { v := v, exp := now }, keys := c1.keys ++ [k] }

/-! ## encoding/base64: the standard encoding with padding

`decodeQuantum` reads up to four characters of the alphabet, skipping `\r` and
`\n`; the input may end only at a quantum boundary or after valid padding, and
the unused low bits of a padded quantum are not checked (the encoding is not
strict). -/

/-- The character of the standard alphabet for a 6-bit value. -/
def encChar (n : Nat) : Char :=
  "ABCDEFGHIJKLMNOPQRSTUVWXYZabcdefghijklmnopqrstuvwxyz0123456789+/".toList.getD n 'A'

/-- The entry of `decodeMap` for a character: its 6-bit value, or `none` (0xff). -/
def decChar (c : Char) : Option Nat :=
  let n := c.toNat
  if 65 ≤ n ∧ n ≤ 90 then some (n - 65)
  else if 97 ≤ n ∧ n ≤ 122 then some (n - 71)
  else if 48 ≤ n ∧ n ≤ 57 then some (n + 4)
  else if n = 43 then some 62
  else if n = 47 then some 63
  else none

/-- Go `base64.StdEncoding.EncodeToString` (as a list of characters). -/
def b64EncodeChars : Bytes → List Char
  | a :: b :: c :: rest =>
    encChar (a / 4) :: encChar (a % 4 * 16 + b / 16) :: encChar (b % 16 * 4 + c / 64) ::
      encChar (c % 64) :: b64EncodeChars rest
  | [a, b] => [encChar (a / 4), encChar (a % 4 * 16 + b / 16), encChar (b % 16 * 4), '=']
  | [a] => [encChar (a / 4), encChar (a % 4 * 16), '=', '=']
  | [] => []

/-- Go `base64.StdEncoding.EncodeToString`. -/
def b64Encode (bs : Bytes) : String := String.mk (b64EncodeChars bs)

/-- Skip over newlines. -/
def skipNL : List Char → List Char
  | c :: cs => if c = '\n' ∨ c = '\r' then skipNL cs else c :: cs
  | [] => []

/-- The decoding loop of `Encoding.Decode` with `decodeQuantum` inlined: `dbuf` holds
the 6-bit values read so far in the current quantum. -/
def b64DecodeChars : List Char → List Nat → Option Bytes
  | [], dbuf => if dbuf = [] then some [] else none
  | c :: cs, dbuf =>
    match decChar c with
    | some v =>
      match dbuf with
      | [s0, s1, s2] =>
        (b64DecodeChars cs []).map
          (fun out => (s0 * 4 + s1 / 16) :: (s1 % 16 * 16 + s2 / 4) :: (s2 % 4 * 64 + v) :: out)
      | _ => b64DecodeChars cs (dbuf ++ [v])
    | none =>
      if c = '\n' ∨ c = '\r' then b64DecodeChars cs dbuf
      else if c ≠ '=' then none
      else
        match dbuf with
        | [s0, s1] =>
          match skipNL cs with
          | [] => none
          | c2 :: r2 =>
            if c2 ≠ '=' then none
            else if skipNL r2 ≠ [] then none
            else some [s0 * 4 + s1 / 16]
        | [s0, s1, s2] =>
          if skipNL cs ≠ [] then none
          else some [s0 * 4 + s1 / 16, s1 % 16 * 16 + s2 / 4]
        | _ => none

/-- Go `base64.StdEncoding.DecodeString`: `none` stands for a `CorruptInputError` (the
bytes decoded before the error, which no caller reads, are dropped). -/
def b64Decode (s : String) : Option Bytes := b64DecodeChars s.toList []

/-! ## crypto/aes (FIPS 197) -/

/-- Multiplication by `x` in GF(2^8) modulo `x^8 + x^4 + x^3 + x + 1`. -/
def xtime (a : Nat) : Nat :=
  if a % 256 < 128 then a % 256 * 2 else (a % 256 * 2 - 256) ^^^ 0x1b

/-- Multiplication in GF(2^8): `n` is the number of bits of `b` still to use. -/
def gf8MulAux : Nat → Nat → Nat → Nat
  | 0, _, _ => 0
  | n + 1, a, b => (if b % 2 = 1 then a % 256 else 0) ^^^ gf8MulAux n (xtime a) (b / 2)

/-- Multiplication in GF(2^8). -/
def gf8Mul (a b : Nat) : Nat := gf8MulAux 8 a b

/-- The table `sbox0`: the AES S-box. -/
def sboxTable : List Nat :=
  [0x63,0x7c,0x77,0x7b,0xf2,0x6b,0x6f,0xc5,0x30,0x01,0x67,0x2b,0xfe,0xd7,0xab,0x76,
   0xca,0x82,0xc9,0x7d,0xfa,0x59,0x47,0xf0,0xad,0xd4,0xa2,0xaf,0x9c,0xa4,0x72,0xc0,
   0xb7,0xfd,0x93,0x26,0x36,0x3f,0xf7,0xcc,0x34,0xa5,0xe5,0xf1,0x71,0xd8,0x31,0x15,
   0x04,0xc7,0x23,0xc3,0x18,0x96,0x05,0x9a,0x07,0x12,0x80,0xe2,0xeb,0x27,0xb2,0x75,
   0x09,0x83,0x2c,0x1a,0x1b,0x6e,0x5a,0xa0,0x52,0x3b,0xd6,0xb3,0x29,0xe3,0x2f,0x84,
   0x53,0xd1,0x00,0xed,0x20,0xfc,0xb1,0x5b,0x6a,0xcb,0xbe,0x39,0x4a,0x4c,0x58,0xcf,
   0xd0,0xef,0xaa,0xfb,0x43,0x4d,0x33,0x85,0x45,0xf9,0x02,0x7f,0x50,0x3c,0x9f,0xa8,
   0x51,0xa3,0x40,0x8f,0x92,0x9d,0x38,0xf5,0xbc,0xb6,0xda,0x21,0x10,0xff,0xf3,0xd2,
   0xcd,0x0c,0x13,0xec,0x5f,0x97,0x44,0x17,0xc4,0xa7,0x7e,0x3d,0x64,0x5d,0x19,0x73,
   0x60,0x81,0x4f,0xdc,0x22,0x2a,0x90,0x88,0x46,0xee,0xb8,0x14,0xde,0x5e,0x0b,0xdb,
   0xe0,0x32,0x3a,0x0a,0x49,0x06,0x24,0x5c,0xc2,0xd3,0xac,0x62,0x91,0x95,0xe4,0x79,
   0xe7,0xc8,0x37,0x6d,0x8d,0xd5,0x4e,0xa9,0x6c,0x56,0xf4,0xea,0x65,0x7a,0xae,0x08,
   0xba,0x78,0x25,0x2e,0x1c,0xa6,0xb4,0xc6,0xe8,0xdd,0x74,0x1f,0x4b,0xbd,0x8b,0x8a,
   0x70,0x3e,0xb5,0x66,0x48,0x03,0xf6,0x0e,0x61,0x35,0x57,0xb9,0x86,0xc1,0x1d,0x9e,
   0xe1,0xf8,0x98,0x11,0x69,0xd9,0x8e,0x94,0x9b,0x1e,0x87,0xe9,0xce,0x55,0x28,0xdf,
   0x8c,0xa1,0x89,0x0d,0xbf,0xe6,0x42,0x68,0x41,0x99,0x2d,0x0f,0xb0,0x54,0xbb,0x16]

/-- The S-box applied to a byte. -/
def sbox (a : Nat) : Nat := sboxTable.getD a 0

/-- Bytewise exclusive or of two byte strings (as long as the shorter one). -/
def xorBytes (a b : Bytes) : Bytes := List.zipWith (fun x y => x ^^^ y) a b

/-- The word `Rcon[j]` of the key schedule. -/
def rcon (j : Nat) : Bytes := [(fun a => xtime a)^[j - 1] 1, 0, 0, 0]

/-- One step of the key expansion: `w` is the list of the bytes of the words made so
far, `nk` the number of words of the key. -/
def expandStep (nk : Nat) (w : Bytes) : Bytes :=
  let i := w.length / 4
  let prev := (w.drop (4 * (i - 1))).take 4
  let temp :=
    if i % nk = 0 then xorBytes ((prev.rotateLeft 1).map sbox) (rcon (i / nk))
    else if nk > 6 ∧ i % nk = 4 then prev.map sbox
    else prev
  w ++ xorBytes ((w.drop (4 * (i - nk))).take 4) temp

/-- The expanded key: `4 * (nr + 1)` words for a key of `nk` words. -/
def expandKey (key : Bytes) : Bytes :=
  let nk := key.length / 4
  (expandStep nk)^[4 * (nk + 7) - nk] key

/-- Go `SubBytes`. -/
def subBytes (s : Bytes) : Bytes := s.map sbox

/-- Go `ShiftRows`: byte `i` of the state is in row `i % 4` and column `i / 4`. -/
def shiftRows (s : Bytes) : Bytes :=
  (List.range 16).map (fun i => s.getD (i % 4 + 4 * ((i / 4 + i % 4) % 4)) 0)

/-- Go `MixColumns` on one column. -/
def mixColumn (c : Bytes) : Bytes :=
  let a0 := c.getD 0 0
  let a1 := c.getD 1 0
  let a2 := c.getD 2 0
  let a3 := c.getD 3 0
  [gf8Mul a0 2 ^^^ gf8Mul a1 3 ^^^ a2 ^^^ a3,
   a0 ^^^ gf8Mul a1 2 ^^^ gf8Mul a2 3 ^^^ a3,
   a0 ^^^ a1 ^^^ gf8Mul a2 2 ^^^ gf8Mul a3 3,
   gf8Mul a0 3 ^^^ a1 ^^^ a2 ^^^ gf8Mul a3 2]

/-- Go `MixColumns`. -/
def mixColumns (s : Bytes) : Bytes :=
  (List.range 4).flatMap (fun c => mixColumn ((s.drop (4 * c)).take 4))

/-- The round key number `r`. -/
def roundKey (w : Bytes) (r : Nat) : Bytes := (w.drop (16 * r)).take 16

/-- The rounds `r, r+1, ..., nr - 1` (`n` of them) of the cipher. -/
def aesRounds (w : Bytes) : Nat → Nat → Bytes → Bytes
  | 0, _, s => s
  | n + 1, r, s => aesRounds w n (r + 1) (xorBytes (mixColumns (shiftRows (subBytes s))) (roundKey w r))

/-- Go `Block.Encrypt` of the cipher made from `key` (16, 24 or 32 bytes). -/
def aesEncryptBlock (key : Bytes) (blk : Bytes) : Bytes :=
  let w := expandKey key
  let nr := key.length / 4 + 6
  let s := aesRounds w (nr - 1) 1 (xorBytes blk (roundKey w 0))
  xorBytes (shiftRows (subBytes s)) (roundKey w nr)

/-! ## crypto/cipher: GCM (NIST SP 800-38D) with a 12-byte nonce and a 16-byte tag -/

/-- The number a byte string denotes, first byte most significant. -/
def beNat (bs : Bytes) : Nat := bs.foldl (fun acc b => acc * 256 + b % 256) 0

/-- The `n` bytes of a number, most significant first. -/
def beBytes (n x : Nat) : Bytes := (List.range n).map (fun i => x / 256 ^ (n - 1 - i) % 256)

/-- Multiplication in GF(2^128) as GCM orders the bits: `n` bits of `x` remain. -/
def gf128MulAux : Nat → Nat → Nat → Nat → Nat
  | 0, z, _, _ => z
  | n + 1, z, v, x =>
    gf128MulAux n (if x / 2 ^ n % 2 = 1 then z ^^^ v else z)
      (if v % 2 = 1 then (v / 2) ^^^ (0xe1 * 2 ^ 120) else v / 2) x

/-- Multiplication in GF(2^128). -/
def gf128Mul (x y : Nat) : Nat := gf128MulAux 128 0 y x

/-- The 16-byte blocks of a byte string, the last one padded with zeros, as numbers. -/
def gcmBlocks (bs : Bytes) : List Nat :=
  (List.range ((bs.length + 15) / 16)).map
    (fun j => beNat (((bs.drop (16 * j)).take 16) ++ List.replicate (16 - (bs.length - 16 * j)) 0))

/-- Go `GHASH` of a list of blocks under the hash key `h`. -/
def ghash (h : Nat) (blocks : List Nat) : Nat :=
  blocks.foldl (fun y x => gf128Mul (y ^^^ x) h) 0

/-- The counter block number `i` of a nonce (`i = 1` is the block the tag is masked with). -/
def gcmCounter (nonce : Bytes) (i : Nat) : Bytes := nonce ++ beBytes 4 (i % 2 ^ 32)

/-- The authentication tag of a ciphertext and additional data: 16 bytes. -/
def gcmTag (key nonce ct aad : Bytes) : Bytes :=
  let h := beNat (aesEncryptBlock key (List.replicate 16 0))
  let lens := (aad.length * 8) % 2 ^ 64 * 2 ^ 64 + (ct.length * 8) % 2 ^ 64
  let s := ghash h (gcmBlocks aad ++ gcmBlocks ct ++ [lens])
  beBytes 16 (s ^^^ beNat (aesEncryptBlock key (gcmCounter nonce 1)))

/-- Byte number `j` of the key stream. -/
def keystreamByte (key nonce : Bytes) (j : Nat) : Nat :=
  (aesEncryptBlock key (gcmCounter nonce (j / 16 + 2))).getD (j % 16) 0 % 256

/-- Counter-mode encryption (`counterCrypt`), its own inverse. -/
def counterCrypt (key nonce data : Bytes) : Bytes :=
  List.zipWith (fun x y => x ^^^ y) data ((List.range data.length).map (keystreamByte key nonce))

/-! ## Errors -/

/-- Go `error` values met in the package. -/
inductive GoError where
  /-- Go `errors.New(text)`, or `fmt.Errorf` without a wrapped error. -/
  | msg (text : String)
  /-- Go `fmt.Errorf(text + "%w", cause)`. -/
  | wrapped (text : String) (cause : GoError)
  /-- Go `aes.KeySizeError(n)`. -/
  | keySizeError (n : Nat)
  /-- Go `base64.CorruptInputError` (the offset is not modelled). -/
  | corruptInputError
  deriving DecidableEq, Repr

/-- The `errOpen` of crypto/cipher. -/
def errOpen : GoError := .msg "cipher: message authentication failed"

/-- Go `aes.NewCipher(key)`: the block cipher is represented by its key. -/
def aesNewCipher (key : Bytes) : Except GoError Bytes :=
  if key.length = 16 ∨ key.length = 24 ∨ key.length = 32 then .ok key
  else .error (.keySizeError key.length)

/-- The block size of every AES cipher. -/
def aesBlockSize : Nat := 16

/-- Go `cipher.NewGCM(block)`: fails only for a block size other than 16. -/
def cipherNewGCM (block : Bytes) : Except GoError Bytes :=
  if aesBlockSize ≠ 16 then .error (.msg "cipher: NewGCM requires 128-bit block cipher")
  else .ok block

/-- Go `g.NonceSize()` of a GCM made by `cipher.NewGCM`. -/
def gcmNonceSize : Nat := 12

/-- Go `g.Overhead()`: the size of the tag. -/
def gcmTagSize : Nat := 16

/-- The longest plaintext GCM accepts, in bytes. -/
def gcmMaxPlaintext : Nat := (2 ^ 32 - 2) * 16

/-- Go `g.Seal(nil, nonce, plaintext, data)`: the ciphertext followed by the tag; `none`
is a panic (wrong nonce length, or message too large). -/
def gcmSeal (g nonce plaintext data : Bytes) : Option Bytes :=
  if nonce.length ≠ gcmNonceSize then none
  else if plaintext.length > gcmMaxPlaintext then none
  else
    let ct := counterCrypt g nonce plaintext
    some (ct ++ gcmTag g nonce ct data)

/-- Go `g.Open(nil, nonce, ciphertext, data)` for a nonce of `gcmNonceSize` bytes (for
any other nonce `Open` panics; `decryptAESGCM` checks the length before the
call). -/
def gcmOpen (g nonce ciphertext data : Bytes) : Except GoError Bytes :=
  if ciphertext.length < gcmTagSize then .error errOpen
  else if ciphertext.length > gcmMaxPlaintext + gcmTagSize then .error errOpen
  else
    let tag := ciphertext.drop (ciphertext.length - gcmTagSize)
    let ct := ciphertext.take (ciphertext.length - gcmTagSize)
    if gcmTag g nonce ct data ≠ tag then .error errOpen
    else .ok (counterCrypt g nonce ct)

/-! ## crypto.go -/

/-- Go `decryptAESGCM(dek, valueB64, ivB64, tagB64, aad)`. -/
def decryptAESGCM (dek : Bytes) (valueB64 ivB64 tagB64 : String) (aad : Bytes) :
    Bytes × Option GoError :=
  match b64Decode valueB64 with
  | none => ([], some (.wrapped "ciphertext base64: " .corruptInputError))
  | some ct =>
  match b64Decode ivB64 with
  | none => ([], some (.wrapped "iv base64: " .corruptInputError))
  | some iv =>
  match b64Decode tagB64 with
  | none => ([], some (.wrapped "tag base64: " .corruptInputError))
  | some tag =>
  match aesNewCipher dek with
  | .error err => ([], some err)
  | .ok block =>
  match cipherNewGCM block with
  | .error err => ([], some err)
  | .ok g =>
  if iv.length ≠ gcmNonceSize then ([], some (.msg ("bad iv size: " ++ toString iv.length)))
  else
    match gcmOpen g iv (ct ++ tag) aad with
    | .error err => ([], some (.wrapped "gcm open: " err))
    | .ok pt => (pt, none)

/-! ## github.com/google/uuid -/

/-- The type `uuid.UUID`, an array of 16 bytes. -/
abbrev UUID := Fin 16 → Fin 256

/-- A lower-case hexadecimal digit. -/
def hexDigit (n : Nat) : Char := "0123456789abcdef".toList.getD n '0'

/-- The two hexadecimal digits of the bytes `i, i+1, ..., i+n-1` of a UUID. -/
def UUID.hex (u : UUID) (i n : Nat) : List Char :=
  (List.range n).flatMap
    (fun j => [hexDigit ((u (Fin.ofNat (i + j))).val / 16), hexDigit ((u (Fin.ofNat (i + j))).val % 16)])

/-- Go `UUID.String()`: the form `xxxxxxxx-xxxx-xxxx-xxxx-xxxxxxxxxxxx`. -/
def UUID.String (u : UUID) : String :=
  String.mk (u.hex 0 4 ++ '-' :: u.hex 4 2 ++ '-' :: u.hex 6 2 ++ '-' :: u.hex 8 2 ++ '-' :: u.hex 10 6)

/-! ## aad.go, keys.go, secret.go -/

/-- Go `map[string]string`: `none` is the nil map. -/
abbrev StringMap := Option (List (String × String))

/-- Go `MakeAADAndEncCtx(tenantID, key)`. -/
def MakeAADAndEncCtx (tenantID : UUID) (key : String) : Bytes × StringMap :=
  let aad := bytesOf ("tenant:" ++ tenantID.String ++ "|key:" ++ key)
  let encCtx : StringMap := some [("tenant_id", tenantID.String), ("key", key)]
  (aad, encCtx)

/-- Go `MakeKey(secretID, tenantID, store, env, domain, service)`. -/
def MakeKey (secretID tenantID : UUID) (store env : String) (domain service : String) : String :=
  let domain := if domain = "" then "ds" else domain
  let service := if service = "" then "vault" else service
  "/" ++ domain ++ "/" ++ service ++ "/" ++ store ++ "/" ++ secretID.String ++ "/" ++
    tenantID.String ++ "/" ++ env

/-- The constant `StoreAWSSSM`. -/
def StoreAWSSSM : String := "aws_ssm"

/-- The constant `StoreDSVault`. -/
def StoreDSVault : String := "ds_vault"

/-- The struct `SecretRecord`: the identity and the vault-specific fields (the
remaining fields are metadata that the package stores and never reads). -/
structure SecretRecord where
  ID : UUID
  TenantID : UUID
  Key : String
  Store : String
  Value : String
  IV : String
  Tag : String
  WrappedDEK : String
  KEKKeyID : String
  DEKAlg : String
  KEKAlg : String
  deriving DecidableEq

/-! ## The collaborators and the standard-library quoting functions -/

/-- The two quoting functions of the standard library that the package calls; their
tables are not part of the repository, so they are parameters. -/
structure Quoting where
  /-- The verb `%q` of `fmt` on a string (`strconv.Quote`). -/
  quote : String → String
  /-- The text `string(b)` for `b, _ := json.Marshal(s)` on a string `s`. -/
  jsonMarshal : String → String

/-- The fields of `kms.DecryptInput` that the package sets. -/
structure DecryptInput where
  CiphertextBlob : Bytes
  EncryptionContext : StringMap
  KeyId : Option String
  deriving DecidableEq, Repr

/-- The fields of `ssm.GetParameterInput` that the package sets. -/
structure GetParameterInput where
  Name : String
  WithDecryption : Bool
  deriving DecidableEq, Repr

/-- The collaborators of a client, each a function of an external state `σ`:
`SecretRepository.GetSecret` returns a record pointer and an error, either of which
may be nil; `KMSAPI.Decrypt` returns an error or the `Plaintext` of its output;
`SSMAPI.GetParameter` returns an error or the `Parameter.Value` of its output. -/
structure Env (σ : Type) extends Quoting where
  repoGetSecret : σ → String → (Option SecretRecord × Option GoError) × σ
  kmsDecrypt : σ → DecryptInput → Except GoError Bytes × σ
  ssmGetParameter : σ → GetParameterInput → Except GoError String × σ

/-- The state of the world outside the client: the external state and the requests
each collaborator has received so far, oldest first. -/
structure World (σ : Type) where
  ext : σ
  repoCalls : List String
  kmsCalls : List DecryptInput
  ssmCalls : List GetParameterInput

/-! ## kms.go -/

/-- The struct `KMSProvider` (its field `kms` is the collaborator `Env.kmsDecrypt`). -/
structure KMSProvider where
  cache : TTLCache Bytes

/-- Go `NewKMSProvider(k, cacheSize, ttl)`. -/
def NewKMSProvider (cacheSize : Int) (ttl : Int) : KMSProvider :=
  { cache := NewTTLCache cacheSize ttl }

/-- Go `sort.Strings(keys)`. -/
def sortStrings (keys : List String) : List String := keys.insertionSort (fun a b => a ≤ b)

/-- The loop of `encCtxJSON` over the sorted keys from index `i` on, appending to `sb`. -/
def encCtxLoop (q : Quoting) (m : List (String × String)) : Nat → List String → String → String
  | _, [], sb => sb
  | i, k :: keys, sb =>
    let sb := if i > 0 then sb ++ "," else sb
    encCtxLoop q m (i + 1) keys (sb ++ (q.quote k ++ ":" ++ q.jsonMarshal ((mapGet m k).getD "")))

/-- Go `encCtxJSON(ctx)`; the keys are collected in the order of the association list
and then sorted. -/
def encCtxJSON (q : Quoting) (ctx : StringMap) : String :=
  match ctx with
  | none => "\x7b\x7d"
  | some m =>
    let keys := sortStrings (m.map Prod.fst)
    encCtxLoop q m 0 keys "\x7b" ++ "\x7d"

/-- Go `(*KMSProvider).cacheKey(wrappedB64, encCtx, keyID)` (the receiver is not used). -/
def cacheKey (q : Quoting) (wrappedB64 : String) (encCtx : StringMap) (keyID : String) : String :=
  wrappedB64 ++ "|" ++ encCtxJSON q encCtx ++ "|" ++ keyID

/-- Go `(*KMSProvider).DecryptDEK(ctx, wrappedB64, encCtx, keyID)`; `tGet` and `tSet` are
the readings of `time.Now()` in the cache's `Get` and `Set`. -/
def KMSProvider.DecryptDEK {σ : Type} (E : Env σ) (p : KMSProvider) (w : World σ)
    (tGet tSet : Int) (wrappedB64 : String) (encCtx : StringMap) (keyID : String) :
    (Bytes × Option GoError) × KMSProvider × World σ :=
  let ck := cacheKey E.toQuoting wrappedB64 encCtx keyID
  match p.cache.Get tGet ck with
  | ((dek, true), cache) => ((dek, none), { p with cache := cache }, w)
  | ((_, false), cache) =>
    let p := { p with cache := cache }
    match b64Decode wrappedB64 with
    | none => (([], some (.wrapped "wrapped_dek base64: " .corruptInputError)), p, w)
    | some blob =>
      let input : DecryptInput :=
        { CiphertextBlob := blob
          EncryptionContext := (match encCtx with
            | none => none
            | some m => some m)
          KeyId := if keyID ≠ "" then some keyID else none }
      let (out, ext) := E.kmsDecrypt w.ext input
      let w := { w with ext := ext, kmsCalls := w.kmsCalls ++ [input] }
      match out with
      | .error err => (([], some (.wrapped "KMS Decrypt: " err)), p, w)
      | .ok plaintext => ((plaintext, none), { p with cache := p.cache.Set tSet ck plaintext }, w)

/-! ## ssm.go -/

/-- The struct `SSMProvider` (its field `ssm` is the collaborator `Env.ssmGetParameter`). -/
structure SSMProvider where
  cache : TTLCache String

/-- Go `NewSSMProvider(c, cacheSize, ttl)`. -/
def NewSSMProvider (cacheSize : Int) (ttl : Int) : SSMProvider :=
  { cache := NewTTLCache cacheSize ttl }

/-- Go `(*SSMProvider).Get(ctx, name)`. -/
def SSMProvider.Get {σ : Type} (E : Env σ) (p : SSMProvider) (w : World σ)
    (tGet tSet : Int) (name : String) : (String × Option GoError) × SSMProvider × World σ :=
  match p.cache.Get tGet name with
  | ((v, true), cache) => ((v, none), { p with cache := cache }, w)
  | ((_, false), cache) =>
    let p := { p with cache := cache }
    let input : GetParameterInput := { Name := name, WithDecryption := true }
    let (out, ext) := E.ssmGetParameter w.ext input
    let w := { w with ext := ext, ssmCalls := w.ssmCalls ++ [input] }
    match out with
    | .error err => (("", some (.wrapped "SSM GetParameter: " err)), p, w)
    | .ok val => ((val, none), { p with cache := p.cache.Set tSet name val }, w)

/-! ## client.go -/

/-- The struct `Client` (its field `repo` is the collaborator `Env.repoGetSecret`). -/
structure Client where
  kms : KMSProvider
  ssm : SSMProvider
  plaintextCache : TTLCache Bytes

/-- Go `NewClient(repo, kms, ssm, ptCacheTTL)`; a nil provider is `none`, and so is the
panic it causes. -/
def NewClient (kms : Option KMSProvider) (ssm : Option SSMProvider) (ptCacheTTL : Int) :
    Option Client :=
  match kms with
  | none => none
  | some kms =>
    match ssm with
    | none => none
    | some ssm =>
      let ptCacheTTL := if ptCacheTTL ≤ 0 then Minute else ptCacheTTL
      some { kms := kms, ssm := ssm, plaintextCache := NewTTLCache 4096 ptCacheTTL }

/-- The readings of `time.Now()` that one call of `GetSecret` may take, in program
order: in `Get` of the plaintext cache, in `Get` and `Set` of the unwrap cache, in
`Get` and `Set` of the fetch cache, and in `Set` of the plaintext cache. -/
structure Clock where
  ptGet : Int
  kmsGet : Int
  kmsSet : Int
  ssmGet : Int
  ssmSet : Int
  ptSet : Int

/-- Go `(*Client).GetSecret(ctx, key)`: the returned pair, the client and the world after
the call. -/
def Client.GetSecret {σ : Type} (E : Env σ) (c : Client) (w : World σ) (t : Clock)
    (key : String) : (Bytes × Option GoError) × Client × World σ :=
  match c.plaintextCache.Get t.ptGet key with
  | ((pt, true), cache) => ((pt, none), { c with plaintextCache := cache }, w)
  | ((_, false), cache) =>
    let c := { c with plaintextCache := cache }
    let (res, ext) := E.repoGetSecret w.ext key
    let w := { w with ext := ext, repoCalls := w.repoCalls ++ [key] }
    match res with
    | (_, some err) => (([], some err), c, w)
    | (none, none) => (([], some (.msg ("secret not found for key " ++ E.quote key))), c, w)
    | (some rec, none) =>
      let (aad, encCtx) := MakeAADAndEncCtx rec.TenantID rec.Key
      match c.kms.DecryptDEK E w t.kmsGet t.kmsSet rec.WrappedDEK encCtx rec.KEKKeyID with
      | ((_, some err), kms, w) => (([], some err), { c with kms := kms }, w)
      | ((dek, none), kms, w) =>
        let c := { c with kms := kms }
        let fetched : (String × Option GoError) × SSMProvider × World σ :=
          if rec.Store = StoreAWSSSM then c.ssm.Get E w t.ssmGet t.ssmSet rec.Key
          else ((rec.Value, none), c.ssm, w)
        match fetched with
        | ((_, some err), ssm, w) => (([], some err), { c with ssm := ssm }, w)
        | ((valueB64, none), ssm, w) =>
          let c := { c with ssm := ssm }
          match decryptAESGCM dek valueB64 rec.IV rec.Tag aad with
          | (_, some err) => (([], some err), c, w)
          | (pt, none) =>
            ((pt, none), { c with plaintextCache := c.plaintextCache.Set t.ptSet key pt }, w)

/-! ## The test doubles of `internal/fakes` and of the tests -/

/-- Go `fakes.EncryptWithDEK(dek, plaintext, aad)`, the nonce `iv` being the 12 bytes that
`rand.Read` produced: the base64 forms of the nonce, the ciphertext and the tag;
`none` is a panic of `Seal`. -/
def EncryptWithDEK (dek plaintext aad iv : Bytes) :
    Option ((String × String × String) × Option GoError) :=
  if dek.length ≠ 32 then some (("", "", ""), some (.msg "DEK must be 32 bytes (AES-256)"))
  else
    match aesNewCipher dek with
    | .error err => some (("", "", ""), some err)
    | .ok block =>
      match cipherNewGCM block with
      | .error err => some (("", "", ""), some err)
      | .ok gcm =>
        match gcmSeal gcm iv plaintext aad with
        | none => none
        | some ctWithTag =>
          let tagSize := gcmTagSize
          let ct := ctWithTag.take (ctWithTag.length - tagSize)
          let tag := ctWithTag.drop (ctWithTag.length - tagSize)
          some ((b64Encode iv, b64Encode ct, b64Encode tag), none)

/-- The sealing of `TestGetSecret_AWSSSM_Envelope`: `aes.NewCipher`, `cipher.NewGCM` and
`gcm.Seal(nil, iv, plaintext, aad)`, the errors ignored as the test does; `none` is a
panic. -/
def sealAESGCM (dek iv plaintext aad : Bytes) : Option Bytes :=
  match aesNewCipher dek with
  | .error _ => none
  | .ok block =>
    match cipherNewGCM block with
    | .error _ => none
    | .ok gcm => gcmSeal gcm iv plaintext aad

/-- The byte string with bit `j` of its byte `i` flipped. -/
def flipBit (bs : Bytes) (i j : Nat) : Bytes := bs.set i (bs.getD i 0 ^^^ 2 ^ j)

/-- The settings of the test doubles: the record and error of `stubRepo`, the fields
`Plaintext`, `ExpectEncCtx`, `ExpectKeyID`, `Err` of `fakes.KMS`, and the fields `Values`
and `Err` of `fakes.SSM`. -/
structure Fakes where
  record : Option SecretRecord
  repoErr : Option GoError
  Plaintext : Bytes
  ExpectEncCtx : StringMap
  ExpectKeyID : String
  kmsErr : Option GoError
  Values : List (String × String)
  ssmErr : Option GoError

/-- The counters `calls` of `stubRepo` and `Calls` of `fakes.KMS` and `fakes.SSM`. -/
structure FakeCalls where
  repo : Nat
  kms : Nat
  ssm : Nat
  deriving DecidableEq, Repr

/-- Go `reflect.DeepEqual` on two values of type `map[string]string`. -/
def mapDeepEqual (a b : StringMap) : Bool :=
  match a, b with
  | none, none => true
  | some m, some n =>
    m.length == n.length && m.all (fun e => mapGet n e.1 == some e.2)
  | _, _ => false

/-- Go `(*stubRepo).GetSecret`. -/
def stubRepoGetSecret (f : Fakes) (s : FakeCalls) (key : String) :
    (Option SecretRecord × Option GoError) × FakeCalls :=
  let s := { s with repo := s.repo + 1 }
  match f.repoErr with
  | some err => ((none, some err), s)
  | none =>
    match f.record with
    | some rec => if rec.Key = key then ((some rec, none), s) else ((none, none), s)
    | none => ((none, none), s)

/-- Go `(*fakes.KMS).Decrypt`. -/
def fakeKMSDecrypt (f : Fakes) (s : FakeCalls) (input : DecryptInput) :
    Except GoError Bytes × FakeCalls :=
  let s := { s with kms := s.kms + 1 }
  match f.kmsErr with
  | some err => (.error err, s)
  | none =>
    if f.ExpectKeyID ≠ "" ∧ input.KeyId ≠ some f.ExpectKeyID then
      (.error (.msg "unexpected KeyId"), s)
    else if f.ExpectEncCtx ≠ none ∧ mapDeepEqual f.ExpectEncCtx input.EncryptionContext = false then
      (.error (.msg "unexpected EncryptionContext"), s)
    else (.ok f.Plaintext, s)

/-- Go `(*fakes.SSM).GetParameter`. -/
def fakeSSMGetParameter (f : Fakes) (s : FakeCalls) (input : GetParameterInput) :
    Except GoError String × FakeCalls :=
  match f.ssmErr with
  | some err => (.error err, s)
  | none =>
    let s := { s with ssm := s.ssm + 1 }
    match mapGet f.Values input.Name with
    | none => (.error (.msg "parameter not found"), s)
    | some val => (.ok val, s)

/-- Quoting of a text of printable ASCII characters other than `"`, `\`, `<`, `>` and
`&`, on which `strconv.Quote` and `json.Marshal` both put the text between double
quotes unchanged; the tests use such texts only. -/
def plainQuoting : Quoting :=
  { quote := fun s => "\"" ++ s ++ "\"", jsonMarshal := fun s => "\"" ++ s ++ "\"" }

/-- The collaborators of a client made of the test doubles. -/
def fakeEnv (f : Fakes) : Env FakeCalls :=
  { plainQuoting with
    repoGetSecret := stubRepoGetSecret f
    kmsDecrypt := fakeKMSDecrypt f
    ssmGetParameter := fakeSSMGetParameter f }

/-- The world before any call. -/
def World.start {σ : Type} (ext : σ) : World σ :=
  { ext := ext, repoCalls := [], kmsCalls := [], ssmCalls := [] }

/-- A clock that reads `now` every time. -/
def Clock.at (now : Int) : Clock :=
  { ptGet := now, kmsGet := now, kmsSet := now, ssmGet := now, ssmSet := now, ptSet := now }

/-! ## The scenario of `TestClient_GetSecret_FromDB_AndCache` -/

/-- The UUID whose bytes are `b, b+1, ..., b+15`, standing for a `uuid.New()`. -/
def testUUID (b : Nat) : UUID := fun i => Fin.ofNat (b + i.val)

/-- The key of the tests: `MakeKey(secretID, tenantID, store, "dev", "ds", "vault")`. -/
def testKey (store : String) : String :=
  MakeKey (testUUID 16) (testUUID 0) store "dev" "ds" "vault"

/-- The key id of the test. -/
def dbKeyID : String := "arn:aws:kms:eu-north-1:111122223333:key/efgh"

/-- The record of the test: the plaintext `db-secret` sealed under the key
`0, 1, ..., 31` (standing for the random key) with the nonce `0, 1, ..., 11`
(standing for the random nonce), the ciphertext stored in the record. -/
def dbRecord : SecretRecord :=
  let key := testKey StoreDSVault
  let enc := ((EncryptWithDEK (List.range 32) (bytesOf "db-secret")
    (MakeAADAndEncCtx (testUUID 0) key).1 (List.range 12)).getD (("", "", ""), none)).1
  { ID := testUUID 16, TenantID := testUUID 0, Key := key, Store := StoreDSVault,
    Value := enc.2.1, IV := enc.1, Tag := enc.2.2, WrappedDEK := "V1JBUFBFRA==",
    KEKKeyID := dbKeyID, DEKAlg := "AES-256-GCM", KEKAlg := "AWS-KMS" }

/-- The test doubles of the test. -/
def dbTest : Fakes :=
  { record := some dbRecord
    repoErr := none
    Plaintext := List.range 32
    ExpectEncCtx := (MakeAADAndEncCtx (testUUID 0) (testKey StoreDSVault)).2
    ExpectKeyID := dbKeyID
    kmsErr := none
    Values := []
    ssmErr := none }

/-- The client of the tests: `NewClient(repo, kmsProv, ssmProv, time.Minute)` with
providers of capacity 1024 and a TTL of five minutes. -/
def testClient : Client :=
  (NewClient (some (NewKMSProvider 1024 (5 * Minute))) (some (NewSSMProvider 1024 (5 * Minute)))
    Minute).getD ⟨NewKMSProvider 0 0, NewSSMProvider 0 0, NewTTLCache 0 0⟩

/-- The first call of the test, at time 0. -/
def dbCall1 : (Bytes × Option GoError) × Client × World FakeCalls :=
  testClient.GetSecret (fakeEnv dbTest) (World.start ⟨0, 0, 0⟩) (Clock.at 0) (testKey StoreDSVault)

/-- A second call for the same key, 60 seconds later. -/
def dbCall2 : (Bytes × Option GoError) × Client × World FakeCalls :=
  dbCall1.2.1.GetSecret (fakeEnv dbTest) dbCall1.2.2 (Clock.at 60000000000) (testKey StoreDSVault)

/-- A third call for the same key, 61 seconds after the first. -/
def dbCall3 : (Bytes × Option GoError) × Client × World FakeCalls :=
  dbCall2.2.1.GetSecret (fakeEnv dbTest) dbCall2.2.2 (Clock.at 61000000000) (testKey StoreDSVault)

/-! ## Parts of `GetSecret`, for stating what it does on a miss -/

/-- The world after the repository was asked for `key`. -/
def afterRepo {σ : Type} (E : Env σ) (w : World σ) (key : String) : World σ :=
  { w with ext := (E.repoGetSecret w.ext key).2, repoCalls := w.repoCalls ++ [key] }

/-- The client after a miss of the plaintext cache under `key`. -/
def afterMiss (c : Client) (t : Clock) (key : String) : Client :=
  { c with plaintextCache := (c.plaintextCache.Get t.ptGet key).2 }

/-- The steps of `GetSecret` that follow the loading of the record `rec`: `c` and `w`
are the client and the world at that point. -/
def afterLoad {σ : Type} (E : Env σ) (c : Client) (w : World σ) (t : Clock) (key : String)
    (rec : SecretRecord) : (Bytes × Option GoError) × Client × World σ :=
  match c.kms.DecryptDEK E w t.kmsGet t.kmsSet rec.WrappedDEK
      (MakeAADAndEncCtx rec.TenantID rec.Key).2 rec.KEKKeyID with
  | ((_, some err), kms, w) => (([], some err), { c with kms := kms }, w)
  | ((dek, none), kms, w) =>
    match (if rec.Store = StoreAWSSSM then c.ssm.Get E w t.ssmGet t.ssmSet rec.Key
        else ((rec.Value, none), c.ssm, w)) with
    | ((_, some err), ssm, w) => (([], some err), { c with kms := kms, ssm := ssm }, w)
    | ((valueB64, none), ssm, w) =>
      match decryptAESGCM dek valueB64 rec.IV rec.Tag (MakeAADAndEncCtx rec.TenantID rec.Key).1 with
      | (_, some err) => (([], some err), { c with kms := kms, ssm := ssm }, w)
      | (pt, none) =>
        ((pt, none),
          { kms := kms, ssm := ssm, plaintextCache := c.plaintextCache.Set t.ptSet key pt }, w)

/-! ## Sequences of calls on a cache -/

/-- A call on a cache, `Get(k)` or `Set(k, v)`, with the reading of `time.Now()` that
it takes. -/
inductive CacheOp (T : Type) where
  | get (now : Int) (k : String)
  | set (now : Int) (k : String) (v : T)

/-- Whether a call is a `Set` of the key `k`. -/
def CacheOp.isSetOf {T : Type} : CacheOp T → String → Bool
  | .get _ _, _ => false
  | .set _ k' _, k => decide (k' = k)

/-- The cache after one call. -/
def TTLCache.step {T : Type} [Inhabited T] (c : TTLCache T) : CacheOp T → TTLCache T
  | .get now k => (c.Get now k).2
  | .set now k v => c.Set now k v

/-- The cache after a sequence of calls, made one after the other. -/
def TTLCache.run {T : Type} [Inhabited T] (c : TTLCache T) (ops : List (CacheOp T)) :
    TTLCache T :=
  ops.foldl TTLCache.step c

/-- The cache after `Set(k, v)` at the time `now` for each triple `(now, k, v)` of a
list, in the order of the list. -/
def TTLCache.setAll {T : Type} (c : TTLCache T) (l : List (Int × String × T)) : TTLCache T :=
  l.foldl (fun c x => c.Set x.1 x.2.1 x.2.2) c

/-- The entry that `Set(k, v)` at the time `now` stores in a cache of the given TTL. -/
def entryOf {T : Type} (ttl : Int) (x : Int × String × T) : String × ttlItem T :=
  (x.2.1, { v := x.2.2, exp := unixSec (x.1 + ttl) })

/-! ## A provider with a test double behind it -/

/-- Test doubles with nothing configured but the plaintext that `fakes.KMS` returns. -/
def kmsOnly : Fakes :=
  { record := none
    repoErr := none
    Plaintext := [1, 2, 3]
    ExpectEncCtx := none
    ExpectKeyID := ""
    kmsErr := none
    Values := []
    ssmErr := none }

/-- The provider of the tests: `NewKMSProvider(kmsFake, 1024, 5*time.Minute)`. -/
def testKMS : KMSProvider := NewKMSProvider 1024 (5 * Minute)

/-! ## Context maps as sets of pairs -/

/-- Go `ctx[k]` with the comma-ok result, on a map that may be nil. -/
def ctxGet (ctx : StringMap) (k : String) : Option String :=
  match ctx with
  | none => none
  | some m => mapGet m k

/-- The association list stands for a map: no key occurs twice. -/
def ctxValid (ctx : StringMap) : Prop :=
  match ctx with
  | none => True
  | some m => (m.map Prod.fst).Nodup

instance (ctx : StringMap) : Decidable (ctxValid ctx) := by
  unfold ctxValid; split <;> infer_instance

/-- The entry that `encCtxJSON` writes for the key `k` of the map `m`. -/
def ctxItem (q : Quoting) (m : List (String × String)) (k : String) : String :=
  q.quote k ++ ":" ++ q.jsonMarshal ((mapGet m k).getD "")

/-! ## Quoting that can be read back -/

/-- The quoting can be read back: a quoted key starts with a double quote, and a quoted
key or value followed by any text determines the key or value and the text.  Both
`strconv.Quote` and `json.Marshal` on valid UTF-8 text are of this kind: they put the
text between double quotes and escape the double quotes inside. -/
structure Quoting.Decodable (q : Quoting) : Prop where
  quote_head : ∀ a, ∃ r, (q.quote a).data = '"' :: r
  quote_split : ∀ (a b : String) (s t : List Char),
    (q.quote a).data ++ s = (q.quote b).data ++ t → a = b ∧ s = t
  json_split : ∀ (a b : String) (s t : List Char),
    (q.jsonMarshal a).data ++ s = (q.jsonMarshal b).data ++ t → a = b ∧ s = t

/-- Escaping of the double quote and of the backslash by a backslash. -/
def escapeChars : List Char → List Char
  | [] => []
  | c :: cs =>
    if c = '"' ∨ c = '\\' then '\\' :: c :: escapeChars cs else c :: escapeChars cs

/-- Quoting of a text of printable ASCII characters other than `<`, `>` and `&`, on
which `strconv.Quote` and `json.Marshal` both put the text between double quotes
with `"` and `\` escaped by a backslash. -/
def escQuoting : Quoting :=
  { quote := fun s => String.mk ('"' :: (escapeChars s.data ++ ['"']))
    jsonMarshal := fun s => String.mk ('"' :: (escapeChars s.data ++ ['"'])) }

/-- The pairs of a context in the ascending order of the keys (none for a nil map). -/
def ctxPairs (ctx : StringMap) : List (String × String) :=
  match ctx with
  | none => []
  | some m => (sortStrings (m.map Prod.fst)).map (fun k => (k, (mapGet m k).getD ""))

/-- The characters that `encCtxJSON` writes after an entry: the entries that follow,
each after a comma, and the closing brace. -/
def tailChars (q : Quoting) : List (String × String) → List Char
  | [] => ['\x7d']
  | (k, v) :: r => ',' :: ((q.quote k).data ++ ':' :: ((q.jsonMarshal v).data ++ tailChars q r))

/-- The characters that `encCtxJSON` writes after the opening brace. -/
def bodyChars (q : Quoting) : List (String × String) → List Char
  | [] => ['\x7d']
  | (k, v) :: r => (q.quote k).data ++ ':' :: ((q.jsonMarshal v).data ++ tailChars q r)

/-! ## What a sequence of calls on a cache did, and sequences of calls on a client -/

/-- The reading of the clock that a call on a cache takes. -/
def CacheOp.time {T : Type} : CacheOp T → Int
  | .get now _ => now
  | .set now _ _ => now

/-- The position, in a sequence of calls, of the last `Set` of the key `k`, if there
is one. -/
def lastSetOf {T : Type} (ops : List (CacheOp T)) (k : String) : Option Nat :=
  ((ops.enum.filter (fun p => p.2.isSetOf k)).map Prod.fst).getLast?

/-- The keys of the store are all in the queue. -/
def TTLCache.Covered {T : Type} (c : TTLCache T) : Prop := ∀ p ∈ c.data, p.1 ∈ c.keys

/-- The client after a sequence of calls of `GetSecret`, each with the world it finds,
the clock readings it takes and its key. -/
def Client.after {σ : Type} (E : Env σ) (c : Client)
    (calls : List (World σ × Clock × String)) : Client :=
  calls.foldl (fun c x => (c.GetSecret E x.1 x.2.1 x.2.2).2.1) c

/-- The UUID whose 16 bytes are all `b`. -/
def constUUID (b : Fin 256) : UUID := fun _ => b

/-! # Lemmas -/

set_option maxRecDepth 100000

/-! ## Lemmas on base64 -/

theorem decChar_encChar : ∀ n < 64, decChar (encChar n) = some n := by decide

theorem decChar_pad : decChar '=' = none := by decide

theorem b64DecodeChars_quantum (a b c : Nat) (ha : a < 256) (hb : b < 256) (hc : c < 256)
    (rest : List Char) :
    b64DecodeChars (encChar (a / 4) :: encChar (a % 4 * 16 + b / 16) ::
      encChar (b % 16 * 4 + c / 64) :: encChar (c % 64) :: rest) [] =
    (b64DecodeChars rest []).map (fun out => a :: b :: c :: out) := by
  have h0 := decChar_encChar (a / 4) (by omega)
  have h1 := decChar_encChar (a % 4 * 16 + b / 16) (by omega)
  have h2 := decChar_encChar (b % 16 * 4 + c / 64) (by omega)
  have h3 := decChar_encChar (c % 64) (by omega)
  simp only [b64DecodeChars, h0, h1, h2, h3, List.nil_append, List.cons_append]
  have e0 : a / 4 * 4 + (a % 4 * 16 + b / 16) / 16 = a := by omega
  have e1 : (a % 4 * 16 + b / 16) % 16 * 16 + (b % 16 * 4 + c / 64) / 4 = b := by omega
  have e2 : (b % 16 * 4 + c / 64) % 4 * 64 + c % 64 = c := by omega
  rw [e0, e1, e2]

theorem b64Decode_encode_chars : ∀ bs : Bytes, IsBytes bs →
    b64DecodeChars (b64EncodeChars bs) [] = some bs
  | a :: b :: c :: rest, h => by
    have ha : a < 256 := h a (by simp)
    have hb : b < 256 := h b (by simp)
    have hc : c < 256 := h c (by simp)
    have hr : IsBytes rest := fun x hx => h x (by simp [hx])
    rw [b64EncodeChars, b64DecodeChars_quantum a b c ha hb hc, b64Decode_encode_chars rest hr]
    rfl
  | [a, b], h => by
    have ha : a < 256 := h a (by simp)
    have hb : b < 256 := h b (by simp)
    have h0 := decChar_encChar (a / 4) (by omega)
    have h1 := decChar_encChar (a % 4 * 16 + b / 16) (by omega)
    have h2 := decChar_encChar (b % 16 * 4) (by omega)
    have e0 : a / 4 * 4 + (a % 4 * 16 + b / 16) / 16 = a := by omega
    have e1 : (a % 4 * 16 + b / 16) % 16 * 16 + (b % 16 * 4) / 4 = b := by omega
    simp [b64EncodeChars, b64DecodeChars, h0, h1, h2, decChar_pad, skipNL, e0]
    omega
  | [a], h => by
    have ha : a < 256 := h a (by simp)
    have h0 := decChar_encChar (a / 4) (by omega)
    have h1 := decChar_encChar (a % 4 * 16) (by omega)
    have e0 : a / 4 * 4 + (a % 4 * 16) / 16 = a := by omega
    simp [b64EncodeChars, b64DecodeChars, h0, h1, decChar_pad, skipNL]
    omega
  | [], _ => by simp [b64EncodeChars, b64DecodeChars]

theorem b64Decode_encode (bs : Bytes) (h : IsBytes bs) : b64Decode (b64Encode bs) = some bs := by
  simp [b64Decode, b64Encode, b64Decode_encode_chars bs h]

/-! ## Lemmas on lists of bytes -/

theorem xor_xor_self_right (a b : Nat) : (a ^^^ b) ^^^ b = a := by
  rw [Nat.xor_assoc, Nat.xor_self, Nat.xor_zero]

theorem zipWith_xor_cancel : ∀ (a b : List Nat), a.length ≤ b.length →
    List.zipWith (fun x y => x ^^^ y) (List.zipWith (fun x y => x ^^^ y) a b) b = a
  | [], _, _ => by simp
  | x :: a, [], h => by simp at h
  | x :: a, y :: b, h => by
    simp only [List.zipWith_cons_cons, xor_xor_self_right, List.cons.injEq, true_and]
    exact zipWith_xor_cancel a b (by simpa using h)

theorem counterCrypt_length (key nonce data : Bytes) :
    (counterCrypt key nonce data).length = data.length := by
  simp [counterCrypt]

theorem counterCrypt_counterCrypt (key nonce data : Bytes) :
    counterCrypt key nonce (counterCrypt key nonce data) = data := by
  have h := counterCrypt_length key nonce data
  unfold counterCrypt at h ⊢
  rw [h]
  exact zipWith_xor_cancel _ _ (by simp)

theorem keystreamByte_lt (key nonce : Bytes) (j : Nat) : keystreamByte key nonce j < 256 :=
  Nat.mod_lt _ (by decide)

theorem isBytes_zipWith_xor : ∀ (a b : List Nat), IsBytes a → IsBytes b →
    IsBytes (List.zipWith (fun x y => x ^^^ y) a b)
  | [], _, _, _ => by simp [IsBytes]
  | _ :: _, [], _, _ => by simp [IsBytes]
  | x :: a, y :: b, ha, hb => by
    have hx : x < 2 ^ 8 := ha x (by simp)
    have hy : y < 2 ^ 8 := hb y (by simp)
    have ih := isBytes_zipWith_xor a b (fun z hz => ha z (by simp [hz]))
      (fun z hz => hb z (by simp [hz]))
    intro z hz
    simp only [List.zipWith_cons_cons, List.mem_cons] at hz
    rcases hz with rfl | hz
    · exact Nat.xor_lt_two_pow hx hy
    · exact ih z hz

theorem isBytes_counterCrypt (key nonce data : Bytes) (h : IsBytes data) :
    IsBytes (counterCrypt key nonce data) := by
  apply isBytes_zipWith_xor _ _ h
  intro b hb
  simp only [List.mem_map] at hb
  obtain ⟨j, _, rfl⟩ := hb
  exact keystreamByte_lt key nonce j

theorem beBytes_length (n x : Nat) : (beBytes n x).length = n := by simp [beBytes]

theorem isBytes_beBytes (n x : Nat) : IsBytes (beBytes n x) := by
  intro b hb
  simp only [beBytes, List.mem_map] at hb
  obtain ⟨j, _, rfl⟩ := hb
  exact Nat.mod_lt _ (by decide)

theorem gcmTag_length (key nonce ct aad : Bytes) : (gcmTag key nonce ct aad).length = 16 := by
  simp [gcmTag, beBytes_length]

theorem isBytes_gcmTag (key nonce ct aad : Bytes) : IsBytes (gcmTag key nonce ct aad) := by
  simp only [gcmTag]; exact isBytes_beBytes _ _

/-! ## Lemmas on GCM and on `decryptAESGCM` -/

theorem aesNewCipher_ok (key : Bytes) (h : key.length = 16 ∨ key.length = 24 ∨ key.length = 32) :
    aesNewCipher key = .ok key := by
  simp [aesNewCipher, h]

theorem aesNewCipher_error (key : Bytes)
    (h : ¬ (key.length = 16 ∨ key.length = 24 ∨ key.length = 32)) :
    aesNewCipher key = .error (.keySizeError key.length) := by
  simp only [aesNewCipher, h, if_false]

theorem cipherNewGCM_ok (block : Bytes) : cipherNewGCM block = .ok block := by
  simp [cipherNewGCM, aesBlockSize]

/-- Lemma: `Open` on a ciphertext followed by a 16-byte tag. -/
theorem gcmOpen_append (g nonce ct tag aad : Bytes) (htag : tag.length = 16) :
    gcmOpen g nonce (ct ++ tag) aad =
      if ct.length ≤ gcmMaxPlaintext ∧ gcmTag g nonce ct aad = tag
      then .ok (counterCrypt g nonce ct) else .error errOpen := by
  have h1 : (ct ++ tag).length - gcmTagSize = ct.length := by
    simp [gcmTagSize, htag]
  have h2 : ¬ (ct ++ tag).length < gcmTagSize := by
    simp [gcmTagSize, htag]
  unfold gcmOpen
  simp only [h2, if_false, h1, List.take_left', List.drop_left']
  by_cases hlen : ct.length ≤ gcmMaxPlaintext
  · have h3 : ¬ (ct ++ tag).length > gcmMaxPlaintext + gcmTagSize := by
      simp only [List.length_append, htag, gcmTagSize]; omega
    simp only [h3, if_false, hlen, true_and]
    by_cases ht : gcmTag g nonce ct aad = tag <;> simp [ht]
  · have h3 : (ct ++ tag).length > gcmMaxPlaintext + gcmTagSize := by
      simp only [List.length_append, htag, gcmTagSize]; omega
    simp only [h3, if_true, hlen, false_and, if_false]

/-- What `decryptAESGCM` returns once the three fields decode, the key is an AES key,
the nonce has 12 bytes and the tag 16. -/
theorem decryptAESGCM_decoded (dek : Bytes) (valueB64 ivB64 tagB64 : String) (aad ct iv tag : Bytes)
    (hct : b64Decode valueB64 = some ct) (hiv : b64Decode ivB64 = some iv)
    (htag : b64Decode tagB64 = some tag)
    (hk : dek.length = 16 ∨ dek.length = 24 ∨ dek.length = 32)
    (hivlen : iv.length = 12) (htaglen : tag.length = 16) :
    decryptAESGCM dek valueB64 ivB64 tagB64 aad =
      if ct.length ≤ gcmMaxPlaintext ∧ gcmTag dek iv ct aad = tag
      then (counterCrypt dek iv ct, none)
      else ([], some (.wrapped "gcm open: " errOpen)) := by
  unfold decryptAESGCM
  simp only [hct, hiv, htag, aesNewCipher_ok dek hk, cipherNewGCM_ok, hivlen, gcmNonceSize,
    ne_eq, not_true_eq_false, if_false, gcmOpen_append dek iv ct tag aad htaglen]
  split_ifs <;> rfl

/-- An error of `decryptAESGCM` comes with no plaintext. -/
theorem decryptAESGCM_error_nil (dek : Bytes) (valueB64 ivB64 tagB64 : String) (aad : Bytes)
    (h : (decryptAESGCM dek valueB64 ivB64 tagB64 aad).2 ≠ none) :
    (decryptAESGCM dek valueB64 ivB64 tagB64 aad).1 = [] := by
  unfold decryptAESGCM at h ⊢
  repeat' split
  all_goals first | rfl | (exfalso; simp_all)

theorem flipBit_ne (tag : Bytes) (i j : Nat) (hi : i < tag.length) :
    flipBit tag i j ≠ tag := by
  intro h
  have h1 : (flipBit tag i j)[i]? = tag[i]? := by rw [h]
  simp only [flipBit, List.getD_eq_getElem?_getD, List.getElem?_set_self hi,
    List.getElem?_eq_getElem hi, Option.getD_some, Option.some.injEq] at h1
  have h2 : (tag[i] ^^^ 2 ^ j) ^^^ tag[i] = tag[i] ^^^ tag[i] := by rw [h1]
  rw [Nat.xor_comm, ← Nat.xor_assoc, Nat.xor_self, Nat.zero_xor] at h2
  exact absurd h2 (by positivity)


/-- Sealing under an AES key and decrypting the parts gives the plaintext back. -/
theorem decryptAESGCM_seal (dek iv pt aad : Bytes)
    (hdek : dek.length = 16 ∨ dek.length = 24 ∨ dek.length = 32) (hiv : iv.length = 12)
    (hivb : IsBytes iv) (hptb : IsBytes pt) (hpt : pt.length ≤ gcmMaxPlaintext) :
    sealAESGCM dek iv pt aad =
        some (counterCrypt dek iv pt ++ gcmTag dek iv (counterCrypt dek iv pt) aad) ∧
      decryptAESGCM dek (b64Encode (counterCrypt dek iv pt)) (b64Encode iv)
        (b64Encode (gcmTag dek iv (counterCrypt dek iv pt) aad)) aad = (pt, none) := by
  constructor
  · have h2 : ¬ pt.length > gcmMaxPlaintext := by omega
    simp [sealAESGCM, aesNewCipher_ok dek hdek, cipherNewGCM_ok, gcmSeal, hiv, gcmNonceSize, h2]
  · rw [decryptAESGCM_decoded dek _ _ _ aad (counterCrypt dek iv pt) iv
      (gcmTag dek iv (counterCrypt dek iv pt) aad)
      (b64Decode_encode _ (isBytes_counterCrypt dek iv pt hptb))
      (b64Decode_encode _ hivb)
      (b64Decode_encode _ (isBytes_gcmTag _ _ _ _)) hdek hiv (gcmTag_length _ _ _ _)]
    simp [counterCrypt_length, hpt, counterCrypt_counterCrypt]

/-! ## Lemmas on maps and on the cache -/

theorem mapGet_mapDelete_self {β : Type} (m : List (String × β)) (k : String) :
    mapGet (mapDelete m k) k = none := by
  induction m with
  | nil => rfl
  | cons e m ih =>
    obtain ⟨k', v⟩ := e
    by_cases h : k' = k <;> simp [mapDelete, mapGet, h, ih]

theorem mapGet_mapDelete_ne {β : Type} (m : List (String × β)) (k k' : String) (hne : k' ≠ k) :
    mapGet (mapDelete m k) k' = mapGet m k' := by
  induction m with
  | nil => rfl
  | cons e m ih =>
    obtain ⟨k0, v⟩ := e
    by_cases h : k0 = k
    · have h2 : ¬ k0 = k' := fun h3 => hne (h3.symm.trans h)
      simp only [mapDelete, mapGet, h, if_true, ih]
      rw [if_neg (h ▸ h2)]
    · by_cases h2 : k0 = k'
      · subst h2
        simp only [mapDelete, mapGet, h, if_false, if_true]
      · simp only [mapDelete, mapGet, h, if_false, h2, ih]

theorem mapGet_append {β : Type} (m n : List (String × β)) (k : String) :
    mapGet (m ++ n) k = match mapGet m k with
      | some v => some v
      | none => mapGet n k := by
  induction m with
  | nil => rfl
  | cons e m ih =>
    obtain ⟨k0, v⟩ := e
    by_cases h : k0 = k <;> simp [mapGet, h, ih]

theorem mapGet_mapSet_self {β : Type} (m : List (String × β)) (k : String) (v : β) :
    mapGet (mapSet m k v) k = some v := by
  simp [mapSet, mapGet_append, mapGet_mapDelete_self, mapGet]

theorem mapGet_mapSet_ne {β : Type} (m : List (String × β)) (k k' : String) (v : β)
    (hne : k' ≠ k) : mapGet (mapSet m k v) k' = mapGet m k' := by
  have h : ¬ k = k' := fun h => hne h.symm
  simp only [mapSet, mapGet_append, mapGet_mapDelete_ne m k k' hne, mapGet, h, if_false]
  cases mapGet m k' <;> rfl

/-- A miss leaves no entry under the key. -/
theorem TTLCache.Get_miss {T : Type} [Inhabited T] (c : TTLCache T) (now : Int) (k : String)
    (h : (c.Get now k).1.2 = false) : mapGet (c.Get now k).2.data k = none := by
  unfold TTLCache.Get at h ⊢
  cases hg : mapGet c.data k with
  | none => simp [hg]
  | some it =>
    simp only [hg] at h ⊢
    by_cases he : it.exp < unixSec now
    · simp [he, mapGet_mapDelete_self]
    · simp [he] at h

/-- A hit leaves the cache as it was. -/
theorem TTLCache.Get_hit {T : Type} [Inhabited T] (c : TTLCache T) (now : Int) (k : String)
    (h : (c.Get now k).1.2 = true) : (c.Get now k).2 = c := by
  unfold TTLCache.Get at h ⊢
  cases hg : mapGet c.data k with
  | none => simp [hg]
  | some it =>
    simp only [hg] at h ⊢
    by_cases he : it.exp < unixSec now
    · simp [he] at h
    · simp [he]

/-- Lemma: `Get` stores nothing: an entry of the cache after the call was there before. -/
theorem TTLCache.Get_data_sub {T : Type} [Inhabited T] (c : TTLCache T) (now : Int)
    (k k' : String) (it : ttlItem T) (h : mapGet (c.Get now k).2.data k' = some it) :
    mapGet c.data k' = some it := by
  unfold TTLCache.Get at h
  cases hg : mapGet c.data k with
  | none => simpa [hg] using h
  | some it0 =>
    simp only [hg] at h
    by_cases he : it0.exp < unixSec now
    · simp only [he, if_true] at h
      by_cases hk : k' = k
      · subst hk; rw [mapGet_mapDelete_self] at h; exact absurd h (by simp)
      · rwa [mapGet_mapDelete_ne _ _ _ hk] at h
    · simpa [he] using h

theorem TTLCache.Get_keys {T : Type} [Inhabited T] (c : TTLCache T) (now : Int) (k : String) :
    (c.Get now k).2.keys = c.keys ∧ (c.Get now k).2.ttl = c.ttl ∧ (c.Get now k).2.size = c.size := by
  unfold TTLCache.Get
  cases hg : mapGet c.data k with
  | none => simp
  | some it => by_cases he : it.exp < unixSec now <;> simp [he]

/-- A live entry is returned. -/
theorem TTLCache.Get_live {T : Type} [Inhabited T] (c : TTLCache T) (now : Int) (k : String)
    (it : ttlItem T) (hg : mapGet c.data k = some it) (he : unixSec now ≤ it.exp) :
    c.Get now k = ((it.v, true), c) := by
  have h : ¬ it.exp < unixSec now := by omega
  simp [TTLCache.Get, hg, h]

/-- Lemma: `Set` stores the value with the expiry `now + ttl`. -/
theorem TTLCache.Set_data {T : Type} (c : TTLCache T) (now : Int) (k : String) (v : T) :
    mapGet (c.Set now k v).data k = some { v := v, exp := unixSec (now + c.ttl) } := by
  unfold TTLCache.Set
  simp only [mapGet_mapSet_self]

/-! ## Lemmas on the providers and on `GetSecret` -/

theorem Client.GetSecret_hit {σ : Type} (E : Env σ) (c : Client) (w : World σ) (t : Clock)
    (key : String) (h : (c.plaintextCache.Get t.ptGet key).1.2 = true) :
    c.GetSecret E w t key = (((c.plaintextCache.Get t.ptGet key).1.1, none), c, w) := by
  have h2 := TTLCache.Get_hit c.plaintextCache t.ptGet key h
  unfold Client.GetSecret
  rcases hG : c.plaintextCache.Get t.ptGet key with ⟨⟨pt, b⟩, cache⟩
  rw [hG] at h h2
  simp only at h h2
  subst h h2
  rfl

/-- Lemma: `GetSecret` on a miss of the plaintext cache, by what the repository returns. -/
theorem Client.GetSecret_miss {σ : Type} (E : Env σ) (c : Client) (w : World σ) (t : Clock)
    (key : String) (h : (c.plaintextCache.Get t.ptGet key).1.2 = false) :
    c.GetSecret E w t key =
      match (E.repoGetSecret w.ext key).1 with
      | (_, some err) => (([], some err), afterMiss c t key, afterRepo E w key)
      | (none, none) =>
        (([], some (.msg ("secret not found for key " ++ E.quote key))),
          afterMiss c t key, afterRepo E w key)
      | (some rec, none) => afterLoad E (afterMiss c t key) (afterRepo E w key) t key rec := by
  unfold Client.GetSecret afterLoad afterMiss afterRepo
  rcases hG : c.plaintextCache.Get t.ptGet key with ⟨⟨pt, b⟩, cache⟩
  rw [hG] at h
  simp only at h
  subst h
  rfl

/-- Lemma: `DecryptDEK` leaves the logs of the repository and of the fetch service alone. -/
theorem KMSProvider.DecryptDEK_frame {σ : Type} (E : Env σ) (p : KMSProvider) (w : World σ)
    (tGet tSet : Int) (wrappedB64 : String) (encCtx : StringMap) (keyID : String) :
    (p.DecryptDEK E w tGet tSet wrappedB64 encCtx keyID).2.2.repoCalls = w.repoCalls ∧
    (p.DecryptDEK E w tGet tSet wrappedB64 encCtx keyID).2.2.ssmCalls = w.ssmCalls := by
  unfold KMSProvider.DecryptDEK
  simp only
  repeat' split
  all_goals exact ⟨rfl, rfl⟩

/-- Lemma: `SSMProvider.Get` leaves the logs of the repository and of the unwrap service alone. -/
theorem SSMProvider.Get_frame {σ : Type} (E : Env σ) (p : SSMProvider) (w : World σ)
    (tGet tSet : Int) (name : String) :
    (p.Get E w tGet tSet name).2.2.repoCalls = w.repoCalls ∧
    (p.Get E w tGet tSet name).2.2.kmsCalls = w.kmsCalls := by
  unfold SSMProvider.Get
  simp only
  repeat' split
  all_goals exact ⟨rfl, rfl⟩

/-- The steps after the loading of the record: the plaintext cache changes only by the
final `Set`, which happens exactly when no error is returned; an error comes with
no plaintext; the repository is not asked again. -/
theorem afterLoad_spec {σ : Type} (E : Env σ) (c : Client) (w : World σ) (t : Clock)
    (key : String) (rec : SecretRecord) :
    ((afterLoad E c w t key rec).1.2 ≠ none →
      (afterLoad E c w t key rec).1.1 = [] ∧
      (afterLoad E c w t key rec).2.1.plaintextCache = c.plaintextCache) ∧
    ((afterLoad E c w t key rec).1.2 = none →
      (afterLoad E c w t key rec).2.1.plaintextCache =
        c.plaintextCache.Set t.ptSet key (afterLoad E c w t key rec).1.1) ∧
    (afterLoad E c w t key rec).2.2.repoCalls = w.repoCalls := by
  unfold afterLoad
  have hk := KMSProvider.DecryptDEK_frame E c.kms w t.kmsGet t.kmsSet rec.WrappedDEK
    (MakeAADAndEncCtx rec.TenantID rec.Key).2 rec.KEKKeyID
  generalize c.kms.DecryptDEK E w t.kmsGet t.kmsSet rec.WrappedDEK
    (MakeAADAndEncCtx rec.TenantID rec.Key).2 rec.KEKKeyID = U at hk ⊢
  obtain ⟨⟨dek, e1⟩, kms, w1⟩ := U
  simp only at hk
  cases e1 with
  | some err => simp [hk.1]
  | none =>
    simp only
    have hs : (if rec.Store = StoreAWSSSM then c.ssm.Get E w1 t.ssmGet t.ssmSet rec.Key
        else ((rec.Value, none), c.ssm, w1)).2.2.repoCalls = w1.repoCalls := by
      split_ifs
      · exact (SSMProvider.Get_frame E c.ssm w1 t.ssmGet t.ssmSet rec.Key).1
      · rfl
    generalize (if rec.Store = StoreAWSSSM then c.ssm.Get E w1 t.ssmGet t.ssmSet rec.Key
        else ((rec.Value, none), c.ssm, w1)) = F at hs ⊢
    obtain ⟨⟨v, e2⟩, ssm, w2⟩ := F
    simp only at hs
    cases e2 with
    | some err => simp [hs, hk.1]
    | none =>
      simp only
      generalize decryptAESGCM dek v rec.IV rec.Tag (MakeAADAndEncCtx rec.TenantID rec.Key).1 = D
      obtain ⟨pt, e3⟩ := D
      cases e3 with
      | some err => simp [hs, hk.1]
      | none => simp [hs, hk.1]

theorem Client.eta (c : Client) :
    ({ c with plaintextCache := c.plaintextCache } : Client) = c := rfl

/-- A miss of the plaintext cache: the repository is asked exactly once. -/
theorem Client.GetSecret_miss_repoCalls {σ : Type} (E : Env σ) (c : Client) (w : World σ)
    (t : Clock) (key : String) (h : (c.plaintextCache.Get t.ptGet key).1.2 = false) :
    (c.GetSecret E w t key).2.2.repoCalls = w.repoCalls ++ [key] := by
  rw [Client.GetSecret_miss E c w t key h]
  split
  · rfl
  · rfl
  · exact (afterLoad_spec E _ _ t key _).2.2

/-- A miss of the plaintext cache: the plaintext cache after the call is the cache
after the failed lookup, with the plaintext stored by `Set` when there is no error. -/
theorem Client.GetSecret_miss_cache {σ : Type} (E : Env σ) (c : Client) (w : World σ)
    (t : Clock) (key : String) (h : (c.plaintextCache.Get t.ptGet key).1.2 = false) :
    ((c.GetSecret E w t key).1.2 ≠ none →
      (c.GetSecret E w t key).1.1 = [] ∧
      (c.GetSecret E w t key).2.1.plaintextCache = (c.plaintextCache.Get t.ptGet key).2) ∧
    ((c.GetSecret E w t key).1.2 = none →
      (c.GetSecret E w t key).2.1.plaintextCache =
        (c.plaintextCache.Get t.ptGet key).2.Set t.ptSet key (c.GetSecret E w t key).1.1) := by
  rw [Client.GetSecret_miss E c w t key h]
  split
  · simp [afterMiss]
  · simp [afterMiss]
  · have h2 := afterLoad_spec E (afterMiss c t key) (afterRepo E w key) t key ‹_›
    exact ⟨h2.1, h2.2.1⟩

/-- What `GetSecret` returns once the record is loaded and the key unwrapped: the
result of `decryptAESGCM` on the fetched value or on the value of the record. -/
theorem Client.GetSecret_loaded {σ : Type} (E : Env σ) (c : Client) (w : World σ)
    (t : Clock) (key : String) (rec : SecretRecord)
    (hmiss : (c.plaintextCache.Get t.ptGet key).1.2 = false)
    (hrepo : (E.repoGetSecret w.ext key).1 = (some rec, none))
    (hkms : (c.kms.DecryptDEK E (afterRepo E w key) t.kmsGet t.kmsSet rec.WrappedDEK
      (MakeAADAndEncCtx rec.TenantID rec.Key).2 rec.KEKKeyID).1.2 = none) :
    let unwrap := c.kms.DecryptDEK E (afterRepo E w key) t.kmsGet t.kmsSet rec.WrappedDEK
      (MakeAADAndEncCtx rec.TenantID rec.Key).2 rec.KEKKeyID
    let fetch := c.ssm.Get E unwrap.2.2 t.ssmGet t.ssmSet rec.Key
    (rec.Store = StoreAWSSSM → fetch.1.2 = none →
      (c.GetSecret E w t key).1 =
        decryptAESGCM unwrap.1.1 fetch.1.1 rec.IV rec.Tag
          (MakeAADAndEncCtx rec.TenantID rec.Key).1) ∧
    (rec.Store ≠ StoreAWSSSM →
      (c.GetSecret E w t key).1 =
        decryptAESGCM unwrap.1.1 rec.Value rec.IV rec.Tag
          (MakeAADAndEncCtx rec.TenantID rec.Key).1 ∧
      (c.GetSecret E w t key).2.1.ssm = c.ssm ∧
      (c.GetSecret E w t key).2.2.ssmCalls = w.ssmCalls ∧
      (c.GetSecret E w t key).2.2 = unwrap.2.2) := by
  intro unwrap fetch
  have hfr := (KMSProvider.DecryptDEK_frame E c.kms (afterRepo E w key) t.kmsGet t.kmsSet
    rec.WrappedDEK (MakeAADAndEncCtx rec.TenantID rec.Key).2 rec.KEKKeyID).2
  have hU : (afterMiss c t key).kms.DecryptDEK E (afterRepo E w key) t.kmsGet t.kmsSet
      rec.WrappedDEK (MakeAADAndEncCtx rec.TenantID rec.Key).2 rec.KEKKeyID =
      ((unwrap.1.1, none), unwrap.2.1, unwrap.2.2) := by
    show unwrap = _
    rw [← hkms]
  rw [Client.GetSecret_miss E c w t key hmiss, hrepo]
  simp only [afterLoad, hU]
  constructor
  · intro hs hf
    have hF : (afterMiss c t key).ssm.Get E unwrap.2.2 t.ssmGet t.ssmSet rec.Key =
        ((fetch.1.1, none), fetch.2.1, fetch.2.2) := by
      show fetch = _
      rw [← hf]
    simp only [hs, if_true, hF]
    have hD := decryptAESGCM_error_nil unwrap.1.1 fetch.1.1 rec.IV rec.Tag
      (MakeAADAndEncCtx rec.TenantID rec.Key).1
    generalize decryptAESGCM unwrap.1.1 fetch.1.1 rec.IV rec.Tag
      (MakeAADAndEncCtx rec.TenantID rec.Key).1 = D at hD ⊢
    obtain ⟨pt, e⟩ := D
    cases e with
    | none => rfl
    | some err =>
      have hpt : pt = [] := hD (by simp)
      subst hpt
      rfl
  · intro hs
    simp only [hs, if_false]
    have hD := decryptAESGCM_error_nil unwrap.1.1 rec.Value rec.IV rec.Tag
      (MakeAADAndEncCtx rec.TenantID rec.Key).1
    generalize decryptAESGCM unwrap.1.1 rec.Value rec.IV rec.Tag
      (MakeAADAndEncCtx rec.TenantID rec.Key).1 = D at hD ⊢
    obtain ⟨pt, e⟩ := D
    cases e with
    | none => exact ⟨rfl, rfl, hfr, rfl⟩
    | some err =>
      have hpt : pt = [] := hD (by simp)
      subst hpt
      exact ⟨rfl, rfl, hfr, rfl⟩

theorem bytesOf_append (a b : String) : bytesOf (a ++ b) = bytesOf a ++ bytesOf b := by
  simp [bytesOf, String.data_append]

/-- An expired entry is a miss. -/
theorem TTLCache.Get_expired {T : Type} [Inhabited T] (c : TTLCache T) (now : Int) (k : String)
    (it : ttlItem T) (hg : mapGet c.data k = some it) (he : it.exp < unixSec now) :
    (c.Get now k).1.2 = false := by
  simp [TTLCache.Get, hg, he]

theorem dbTest_miss :
    (testClient.plaintextCache.Get (Clock.at 0).ptGet (testKey StoreDSVault)).1.2 = false := by
  decide

theorem dbCall1_result : dbCall1.1 = (bytesOf "db-secret", none) := by decide!

theorem dbCall1_entry :
    mapGet dbCall1.2.1.plaintextCache.data (testKey StoreDSVault) =
      some { v := bytesOf "db-secret", exp := 60 } := by
  have hr := dbCall1_result
  unfold dbCall1 at hr ⊢
  have hc := (Client.GetSecret_miss_cache (fakeEnv dbTest) testClient (World.start ⟨0, 0, 0⟩)
    (Clock.at 0) (testKey StoreDSVault) dbTest_miss).2 (by rw [hr])
  rw [hc, TTLCache.Set_data, hr]
  rfl

theorem dbCall2_eq : dbCall2 = ((bytesOf "db-secret", none), dbCall1.2.1, dbCall1.2.2) := by
  have hg := TTLCache.Get_live dbCall1.2.1.plaintextCache (Clock.at 60000000000).ptGet
    (testKey StoreDSVault) _ dbCall1_entry (by decide)
  have hhit : (dbCall1.2.1.plaintextCache.Get (Clock.at 60000000000).ptGet
      (testKey StoreDSVault)).1.2 = true := by rw [hg]
  rw [dbCall2, Client.GetSecret_hit _ _ _ _ _ hhit, hg]

theorem dbTest_repo (s : FakeCalls) :
    ((fakeEnv dbTest).repoGetSecret s (testKey StoreDSVault)).1 = (some dbRecord, none) := by
  have h : dbRecord.Key = testKey StoreDSVault := rfl
  simp [fakeEnv, stubRepoGetSecret, dbTest, h]

theorem dbTest_unwrap :
    (testClient.kms.DecryptDEK (fakeEnv dbTest)
      (afterRepo (fakeEnv dbTest) (World.start ⟨0, 0, 0⟩) (testKey StoreDSVault))
      (Clock.at 0).kmsGet (Clock.at 0).kmsSet dbRecord.WrappedDEK
      (MakeAADAndEncCtx dbRecord.TenantID dbRecord.Key).2 dbRecord.KEKKeyID).1.2 = none := by
  decide!

theorem dbTest_missing_miss :
    (testClient.plaintextCache.Get (Clock.at 0).ptGet "missing/key").1.2 = false := by
  decide

theorem dbTest_missing_repo (s : FakeCalls) :
    ((fakeEnv dbTest).repoGetSecret s "missing/key").1 = (none, none) := by
  have h : ¬ dbRecord.Key = "missing/key" := by decide!
  simp [fakeEnv, stubRepoGetSecret, dbTest, h]

/-! ## Lemmas on the cache, continued -/

theorem unixSec_mono {a b : Int} (h : a ≤ b) : unixSec a ≤ unixSec b :=
  Int.ediv_le_ediv (by decide) h

theorem unixSec_add_second (a : Int) : unixSec (a + 1000000000) = unixSec a + 1 := by
  unfold unixSec
  omega

theorem mapGet_mapDelete_sub {β : Type} (m : List (String × β)) (k k' : String) (x : β)
    (h : mapGet (mapDelete m k') k = some x) : mapGet m k = some x := by
  by_cases hk : k = k'
  · subst hk
    rw [mapGet_mapDelete_self] at h
    exact absurd h (by simp)
  · rwa [mapGet_mapDelete_ne _ _ _ hk] at h

theorem mapGet_eq_none_of_not_mem {β : Type} (m : List (String × β)) (k : String)
    (h : k ∉ m.map Prod.fst) : mapGet m k = none := by
  induction m with
  | nil => rfl
  | cons e m ih =>
    obtain ⟨k0, v⟩ := e
    simp only [List.map_cons, List.mem_cons, not_or] at h
    have h0 : ¬ k0 = k := fun h' => h.1 h'.symm
    simp only [mapGet, h0, if_false]
    exact ih h.2

theorem mapGet_of_mem {β : Type} (m : List (String × β)) (k : String) (v : β)
    (hnd : (m.map Prod.fst).Nodup) (h : (k, v) ∈ m) : mapGet m k = some v := by
  induction m with
  | nil => simp at h
  | cons e m ih =>
    obtain ⟨k0, v0⟩ := e
    simp only [List.map_cons, List.nodup_cons] at hnd
    simp only [List.mem_cons, Prod.mk.injEq] at h
    rcases h with ⟨rfl, rfl⟩ | h
    · simp [mapGet]
    · have h0 : ¬ k0 = k := by
        rintro rfl
        exact hnd.1 (List.mem_map.mpr ⟨(k0, v), h, rfl⟩)
      simp only [mapGet, h0, if_false]
      exact ih hnd.2 h

theorem mapDelete_of_not_mem {β : Type} (m : List (String × β)) (k : String)
    (h : k ∉ m.map Prod.fst) : mapDelete m k = m := by
  induction m with
  | nil => rfl
  | cons e m ih =>
    obtain ⟨k0, v⟩ := e
    simp only [List.map_cons, List.mem_cons, not_or] at h
    have h0 : ¬ k0 = k := fun h' => h.1 h'.symm
    simp only [mapDelete, h0, if_false, ih h.2]

theorem mem_keys_of_mapGet {β : Type} (m : List (String × β)) (k : String) (v : β)
    (h : mapGet m k = some v) : (k, v) ∈ m := by
  induction m with
  | nil => simp [mapGet] at h
  | cons e m ih =>
    obtain ⟨k0, v0⟩ := e
    by_cases h0 : k0 = k
    · subst h0
      simp only [mapGet, if_true, Option.some.injEq] at h
      subst h
      exact List.mem_cons_self _ _
    · simp only [mapGet, h0, if_false] at h
      exact List.mem_cons_of_mem _ (ih h)

/-- Lemma: `Set` of another key stores nothing under `k`. -/
theorem TTLCache.Set_data_sub {T : Type} (c : TTLCache T) (now : Int) (k k' : String) (v : T)
    (it : ttlItem T) (hne : k ≠ k') (h : mapGet (c.Set now k' v).data k = some it) :
    mapGet c.data k = some it := by
  unfold TTLCache.Set at h
  simp only [mapGet_mapSet_ne _ _ _ _ hne] at h
  split_ifs at h
  · split at h
    · exact mapGet_mapDelete_sub _ _ _ _ h
    · exact h
  · exact h

theorem TTLCache.Set_ttl {T : Type} (c : TTLCache T) (now : Int) (k : String) (v : T) :
    (c.Set now k v).ttl = c.ttl ∧ (c.Set now k v).size = c.size := by
  unfold TTLCache.Set
  simp only
  split_ifs
  · split <;> exact ⟨rfl, rfl⟩
  · exact ⟨rfl, rfl⟩

/-- The entry under `k`, if there is one, keeps the expiry `e` through calls none of
which is a `Set` of `k`. -/
theorem TTLCache.run_keeps_expiry {T : Type} [Inhabited T] (k : String) (e : Int)
    (ops : List (CacheOp T)) (hops : ∀ op ∈ ops, op.isSetOf k = false) :
    ∀ c : TTLCache T, (∀ it, mapGet c.data k = some it → it.exp = e) →
      ∀ it, mapGet (c.run ops).data k = some it → it.exp = e := by
  induction ops with
  | nil => intro c h; exact h
  | cons op ops ih =>
    intro c h
    have hops' : ∀ op ∈ ops, op.isSetOf k = false :=
      fun o ho => hops o (List.mem_cons_of_mem _ ho)
    have hstep : ∀ it, mapGet (c.step op).data k = some it → it.exp = e := by
      intro it hit
      cases op with
      | get now k' => exact h it (TTLCache.Get_data_sub c now k' k it hit)
      | set now k' v =>
        have hne : k ≠ k' := by
          rintro rfl
          have h0 := hops (CacheOp.set now k v) (List.mem_cons_self _ _)
          simp [CacheOp.isSetOf] at h0
        exact h it (TTLCache.Set_data_sub c now k k' v it hne hit)
    exact ih hops' (c.step op) hstep

theorem TTLCache.setAll_append {T : Type} (c : TTLCache T) (l : List (Int × String × T))
    (x : Int × String × T) : c.setAll (l ++ [x]) = (c.setAll l).Set x.1 x.2.1 x.2.2 := by
  simp [TTLCache.setAll, List.foldl_append]

/-- Lemma: `Set` below capacity of a key that is not stored appends the entry to the
store and the key to the queue. -/
theorem TTLCache.Set_below {T : Type} (c : TTLCache T) (x : Int × String × T)
    (hlen : (c.data.length : Int) < c.size) (hk : x.2.1 ∉ c.data.map Prod.fst) :
    (c.Set x.1 x.2.1 x.2.2).data = c.data ++ [entryOf c.ttl x] ∧
    (c.Set x.1 x.2.1 x.2.2).keys = c.keys ++ [x.2.1] := by
  have h : ¬ ((c.data.length : Int) ≥ c.size) := by omega
  simp only [TTLCache.Set, h, if_false, mapSet, mapDelete_of_not_mem _ _ hk, entryOf, and_self]

/-- Filling a cache below its capacity with keys that are new and pairwise distinct:
the store and the queue grow by the entries and the keys in the order of the calls. -/
theorem TTLCache.setAll_fill {T : Type} (l : List (Int × String × T)) :
    ∀ c : TTLCache T, (c.data.length : Int) + l.length ≤ c.size →
      (c.data.map Prod.fst ++ l.map (fun x => x.2.1)).Nodup →
      (c.setAll l).data = c.data ++ l.map (entryOf c.ttl) ∧
      (c.setAll l).keys = c.keys ++ l.map (fun x => x.2.1) ∧
      (c.setAll l).ttl = c.ttl ∧ (c.setAll l).size = c.size := by
  induction l with
  | nil => intro c _ _; simp [TTLCache.setAll]
  | cons x l ih =>
    intro c hlen hnd
    have hk : x.2.1 ∉ c.data.map Prod.fst := by
      intro hmem
      rw [List.nodup_append] at hnd
      exact hnd.2.2 hmem (by simp)
    have hlen0 : (c.data.length : Int) < c.size := by
      simp only [List.length_cons, Nat.cast_add, Nat.cast_one] at hlen
      omega
    obtain ⟨hd, hq⟩ := TTLCache.Set_below c x hlen0 hk
    obtain ⟨ht, hs⟩ := TTLCache.Set_ttl c x.1 x.2.1 x.2.2
    have hlen1 : ((c.Set x.1 x.2.1 x.2.2).data.length : Int) + l.length ≤
        (c.Set x.1 x.2.1 x.2.2).size := by
      rw [hd, hs]
      simp only [List.length_cons, Nat.cast_add, Nat.cast_one, List.length_append,
        List.length_singleton, List.length_nil] at hlen ⊢
      omega
    have hnd1 : ((c.Set x.1 x.2.1 x.2.2).data.map Prod.fst ++ l.map (fun x => x.2.1)).Nodup := by
      rw [hd]
      simpa [entryOf] using hnd
    obtain ⟨h1, h2, h3, h4⟩ := ih (c.Set x.1 x.2.1 x.2.2) hlen1 hnd1
    have hfold : c.setAll (x :: l) = (c.Set x.1 x.2.1 x.2.2).setAll l := rfl
    rw [hfold, h1, h2, h3, h4, hd, hq, ht, hs]
    simp

/-- The store after `N + 1` calls of `Set` with pairwise distinct keys on a fresh cache
of capacity `N ≥ 1`: the entries of all the calls but the first. -/
theorem TTLCache.setAll_overflow {T : Type} (N : Nat) (hN : 1 ≤ N) (ttl : Int)
    (first : Int × String × T) (rest : List (Int × String × T)) (hlen : rest.length = N)
    (hnd : ((first :: rest).map (fun x => x.2.1)).Nodup) :
    ((NewTTLCache (N : Int) ttl : TTLCache T).setAll (first :: rest)).data =
      rest.map (entryOf ttl) := by
  rcases List.eq_nil_or_concat rest with rfl | ⟨init, last, rfl⟩
  · simp at hlen; omega
  · simp only [List.concat_eq_append] at hlen hnd ⊢
    have hlen' : init.length + 1 = N := by simpa using hlen
    have hnd' : ((first :: init).map (fun x => x.2.1)).Nodup := by
      have := hnd
      simp only [List.map_cons, List.map_append, List.nodup_cons, List.mem_append,
        List.nodup_append] at this ⊢
      exact ⟨fun h => this.1 (Or.inl h), this.2.1⟩
    obtain ⟨hd, hq, ht, hs⟩ := TTLCache.setAll_fill (first :: init)
      (NewTTLCache (N : Int) ttl : TTLCache T)
      (by simp [NewTTLCache]; omega) (by simpa [NewTTLCache] using hnd')
    have hfl : first.2.1 ∉ (init.map (entryOf ttl)).map Prod.fst := by
      simp only [List.map_cons, List.nodup_cons] at hnd'
      simpa [entryOf, Function.comp_def] using hnd'.1
    have hll : last.2.1 ∉ (init.map (entryOf ttl)).map Prod.fst := by
      have := hnd
      simp only [List.map_cons, List.map_append, List.nodup_cons, List.nodup_append,
        List.map_nil, List.mem_singleton, List.not_mem_nil, not_false_eq_true,
        List.nodup_nil, and_true, true_and] at this
      intro h
      have h' : last.2.1 ∈ init.map (fun x => x.2.1) := by
        simpa [entryOf, Function.comp_def] using h
      exact this.2.2 h' (by simp)
    have hcons : first :: (init ++ [last]) = (first :: init) ++ [last] := rfl
    rw [hcons, TTLCache.setAll_append]
    simp only [NewTTLCache, List.nil_append, List.map_cons] at hd hq ht hs ⊢
    generalize ({ ttl := ttl, size := (N : Int), data := [], keys := [] } : TTLCache T).setAll
      (first :: init) = c1 at hd hq ht hs ⊢
    have hfull : (c1.data.length : Int) ≥ c1.size := by
      rw [hd, hs]
      simp only [List.length_cons, List.length_map, Nat.cast_add, Nat.cast_one]
      omega
    have h1 : mapDelete (entryOf ttl first :: init.map (entryOf ttl)) first.2.1 =
        init.map (entryOf ttl) := by
      simp only [mapDelete, entryOf, if_true]
      exact mapDelete_of_not_mem _ _ hfl
    simp only [TTLCache.Set, hfull, if_true, hq, ht, hd, mapSet, h1,
      mapDelete_of_not_mem _ _ hll]
    simp only [entryOf, List.map_append, List.map_cons, List.map_nil, List.length_cons,
      List.length_map, Nat.cast_add, Nat.cast_one, List.append_cancel_right_eq]
    have h2 : c1.size ≤ (init.length : Int) + 1 := by rw [hs]; omega
    simp only [h2, if_true]
    exact mapDelete_of_not_mem _ _ hll

/-! ## Lemmas on `DecryptDEK` -/

theorem KMSProvider.DecryptDEK_hit {σ : Type} (E : Env σ) (p : KMSProvider) (w : World σ)
    (tGet tSet : Int) (wrappedB64 : String) (encCtx : StringMap) (keyID : String)
    (h : (p.cache.Get tGet (cacheKey E.toQuoting wrappedB64 encCtx keyID)).1.2 = true) :
    p.DecryptDEK E w tGet tSet wrappedB64 encCtx keyID =
      (((p.cache.Get tGet (cacheKey E.toQuoting wrappedB64 encCtx keyID)).1.1, none), p, w) := by
  have h2 := TTLCache.Get_hit p.cache tGet _ h
  unfold KMSProvider.DecryptDEK
  simp only
  rcases hG : p.cache.Get tGet (cacheKey E.toQuoting wrappedB64 encCtx keyID) with
    ⟨⟨dek, b⟩, cache⟩
  rw [hG] at h h2
  simp only at h h2
  subst h h2
  rfl

/-- Lemma: `DecryptDEK` on a miss of its cache, by what the decoding and the unwrap
service return. -/
theorem KMSProvider.DecryptDEK_miss {σ : Type} (E : Env σ) (p : KMSProvider) (w : World σ)
    (tGet tSet : Int) (wrappedB64 : String) (encCtx : StringMap) (keyID : String)
    (h : (p.cache.Get tGet (cacheKey E.toQuoting wrappedB64 encCtx keyID)).1.2 = false) :
    p.DecryptDEK E w tGet tSet wrappedB64 encCtx keyID =
      match b64Decode wrappedB64 with
      | none =>
        (([], some (.wrapped "wrapped_dek base64: " .corruptInputError)),
          { cache := (p.cache.Get tGet (cacheKey E.toQuoting wrappedB64 encCtx keyID)).2 }, w)
      | some blob =>
        match (E.kmsDecrypt w.ext
            { CiphertextBlob := blob, EncryptionContext := encCtx,
              KeyId := if keyID = "" then none else some keyID }).1 with
        | .error err =>
          (([], some (.wrapped "KMS Decrypt: " err)),
            { cache := (p.cache.Get tGet (cacheKey E.toQuoting wrappedB64 encCtx keyID)).2 },
            { w with
              ext := (E.kmsDecrypt w.ext
                { CiphertextBlob := blob, EncryptionContext := encCtx,
                  KeyId := if keyID = "" then none else some keyID }).2
              kmsCalls := w.kmsCalls ++
                [{ CiphertextBlob := blob, EncryptionContext := encCtx,
                   KeyId := if keyID = "" then none else some keyID }] })
        | .ok plaintext =>
          ((plaintext, none),
            { cache := (p.cache.Get tGet (cacheKey E.toQuoting wrappedB64 encCtx keyID)).2.Set
                tSet (cacheKey E.toQuoting wrappedB64 encCtx keyID) plaintext },
            { w with
              ext := (E.kmsDecrypt w.ext
                { CiphertextBlob := blob, EncryptionContext := encCtx,
                  KeyId := if keyID = "" then none else some keyID }).2
              kmsCalls := w.kmsCalls ++
                [{ CiphertextBlob := blob, EncryptionContext := encCtx,
                   KeyId := if keyID = "" then none else some keyID }] }) := by
  have hkid : (if keyID ≠ "" then some keyID else none) =
      (if keyID = "" then none else some keyID) := by
    by_cases hk : keyID = "" <;> simp [hk]
  unfold KMSProvider.DecryptDEK
  simp only [hkid]
  rcases hG : p.cache.Get tGet (cacheKey E.toQuoting wrappedB64 encCtx keyID) with
    ⟨⟨dek, b⟩, cache⟩
  rw [hG] at h
  simp only at h
  subst h
  simp only
  cases b64Decode wrappedB64 with
  | none => rfl
  | some blob =>
    cases encCtx with
    | none => simp only
    | some m => simp only

/-- A hit returns the value of an entry that has not expired. -/
theorem TTLCache.Get_hit_entry {T : Type} [Inhabited T] (c : TTLCache T) (now : Int)
    (k : String) (h : (c.Get now k).1.2 = true) :
    ∃ e, mapGet c.data k = some { v := (c.Get now k).1.1, exp := e } ∧ unixSec now ≤ e := by
  unfold TTLCache.Get at h ⊢
  cases hg : mapGet c.data k with
  | none => simp [hg] at h
  | some it =>
    simp only [hg] at h ⊢
    by_cases he : it.exp < unixSec now
    · simp [he] at h
    · simp only [he, if_false]
      exact ⟨it.exp, rfl, by omega⟩

/-- After a call of `DecryptDEK` that returns no error, the cache holds the returned
key under the cache key of the inputs. -/
theorem KMSProvider.DecryptDEK_ok_entry {σ : Type} (E : Env σ) (p : KMSProvider) (w : World σ)
    (tGet tSet : Int) (wrappedB64 : String) (encCtx : StringMap) (keyID : String)
    (hok : (p.DecryptDEK E w tGet tSet wrappedB64 encCtx keyID).1.2 = none) :
    ∃ e : Int,
      mapGet (p.DecryptDEK E w tGet tSet wrappedB64 encCtx keyID).2.1.cache.data
        (cacheKey E.toQuoting wrappedB64 encCtx keyID) =
        some { v := (p.DecryptDEK E w tGet tSet wrappedB64 encCtx keyID).1.1, exp := e } ∧
      ((p.cache.Get tGet (cacheKey E.toQuoting wrappedB64 encCtx keyID)).1.2 = false →
        e = unixSec (tSet + p.cache.ttl)) ∧
      ((p.cache.Get tGet (cacheKey E.toQuoting wrappedB64 encCtx keyID)).1.2 = true →
        unixSec tGet ≤ e) := by
  cases hb : (p.cache.Get tGet (cacheKey E.toQuoting wrappedB64 encCtx keyID)).1.2 with
  | true =>
    obtain ⟨e, he, hle⟩ := TTLCache.Get_hit_entry p.cache tGet _ hb
    rw [KMSProvider.DecryptDEK_hit E p w tGet tSet wrappedB64 encCtx keyID hb]
    exact ⟨e, he, by simp, fun _ => hle⟩
  | false =>
    rw [KMSProvider.DecryptDEK_miss E p w tGet tSet wrappedB64 encCtx keyID hb] at hok ⊢
    cases hd : b64Decode wrappedB64 with
    | none => simp [hd] at hok
    | some blob =>
      simp only [hd] at hok ⊢
      cases hk : (E.kmsDecrypt w.ext
        { CiphertextBlob := blob, EncryptionContext := encCtx,
          KeyId := if keyID = "" then none else some keyID }).1 with
      | error err => simp [hk] at hok
      | ok plaintext =>
        simp only [hk]
        refine ⟨unixSec (tSet + p.cache.ttl), ?_, fun _ => rfl, by simp⟩
        rw [TTLCache.Set_data, (TTLCache.Get_keys p.cache tGet _).2.1]

/-! ## Lemmas on `encCtxJSON` -/

theorem mapGet_isSome_of_mem {β : Type} (m : List (String × β)) (k : String)
    (h : k ∈ m.map Prod.fst) : ∃ v, mapGet m k = some v := by
  induction m with
  | nil => simp at h
  | cons e m ih =>
    obtain ⟨k0, v0⟩ := e
    by_cases h0 : k0 = k
    · exact ⟨v0, by simp [mapGet, h0]⟩
    · simp only [List.map_cons, List.mem_cons] at h
      rcases h with h | h
      · exact absurd h.symm h0
      · obtain ⟨v, hv⟩ := ih h
        exact ⟨v, by simp [mapGet, h0, hv]⟩

theorem mem_keys_iff {β : Type} (m : List (String × β)) (k : String) :
    k ∈ m.map Prod.fst ↔ mapGet m k ≠ none := by
  constructor
  · intro h
    obtain ⟨v, hv⟩ := mapGet_isSome_of_mem m k h
    simp [hv]
  · intro h
    by_contra hn
    exact h (mapGet_eq_none_of_not_mem m k hn)

theorem sortStrings_sorted (l : List String) : (sortStrings l).Sorted (fun a b => a ≤ b) :=
  List.sorted_insertionSort _ l

theorem sortStrings_perm (l : List String) : (sortStrings l).Perm l :=
  List.perm_insertionSort _ l

/-- Two maps with the same pairs have the same sorted list of keys. -/
theorem sortStrings_keys_eq (m1 m2 : List (String × String))
    (h1 : (m1.map Prod.fst).Nodup) (h2 : (m2.map Prod.fst).Nodup)
    (hsame : ∀ k, mapGet m1 k = mapGet m2 k) :
    sortStrings (m1.map Prod.fst) = sortStrings (m2.map Prod.fst) := by
  have hperm : (m1.map Prod.fst).Perm (m2.map Prod.fst) := by
    rw [List.perm_ext_iff_of_nodup h1 h2]
    intro k
    rw [mem_keys_iff, mem_keys_iff, hsame]
  exact List.eq_of_perm_of_sorted
    (((sortStrings_perm _).trans hperm).trans (sortStrings_perm _).symm)
    (sortStrings_sorted _) (sortStrings_sorted _)

theorem encCtxLoop_congr (q : Quoting) (m1 m2 : List (String × String))
    (hsame : ∀ k, mapGet m1 k = mapGet m2 k) (keys : List String) :
    ∀ (i : Nat) (sb : String), encCtxLoop q m1 i keys sb = encCtxLoop q m2 i keys sb := by
  induction keys with
  | nil => intro i sb; rfl
  | cons k keys ih =>
    intro i sb
    simp only [encCtxLoop, hsame, ih]

theorem intercalate_go_append (a b s : String) (l : List String) :
    String.intercalate.go (a ++ b) s l = a ++ String.intercalate.go b s l := by
  induction l generalizing b with
  | nil => rfl
  | cons x l ih =>
    simp only [String.intercalate.go]
    rw [String.append_assoc, String.append_assoc, ih, String.append_assoc]

theorem encCtxLoop_pos (q : Quoting) (m : List (String × String)) (keys : List String) :
    ∀ (i : Nat) (sb : String), 0 < i →
      encCtxLoop q m i keys sb = String.intercalate.go sb "," (keys.map (ctxItem q m)) := by
  induction keys with
  | nil => intro i sb _; rfl
  | cons k keys ih =>
    intro i sb hi
    simp only [encCtxLoop, hi, if_true, List.map_cons, String.intercalate.go]
    rw [ih (i + 1) _ (by omega)]
    rfl

/-- The serialisation of a map: its entries in the ascending order of the keys,
separated by commas, between braces. -/
theorem encCtxJSON_some (q : Quoting) (m : List (String × String)) :
    encCtxJSON q (some m) =
      "\x7b" ++ String.intercalate "," ((sortStrings (m.map Prod.fst)).map (ctxItem q m)) ++
        "\x7d" := by
  unfold encCtxJSON
  simp only
  cases hk : sortStrings (m.map Prod.fst) with
  | nil => rfl
  | cons k keys =>
    simp only [encCtxLoop, Nat.lt_irrefl, if_false, List.map_cons, String.intercalate]
    rw [encCtxLoop_pos q m keys 1 _ (by omega), ← intercalate_go_append]
    rfl

theorem eq_nil_of_mapGet_none {β : Type} (m : List (String × β))
    (h : ∀ k, mapGet m k = none) : m = [] := by
  cases m with
  | nil => rfl
  | cons e m =>
    obtain ⟨k0, v0⟩ := e
    have := h k0
    simp [mapGet] at this

/-- Contexts with the same pairs are serialised alike. -/
theorem encCtxJSON_congr (q : Quoting) (c1 c2 : StringMap) (h1 : ctxValid c1) (h2 : ctxValid c2)
    (hsame : ∀ k, ctxGet c1 k = ctxGet c2 k) : encCtxJSON q c1 = encCtxJSON q c2 := by
  cases c1 with
  | none =>
    cases c2 with
    | none => rfl
    | some m2 =>
      have : m2 = [] := eq_nil_of_mapGet_none m2 (fun k => (hsame k).symm)
      subst this
      rfl
  | some m1 =>
    cases c2 with
    | none =>
      have : m1 = [] := eq_nil_of_mapGet_none m1 (fun k => hsame k)
      subst this
      rfl
    | some m2 =>
      have hs : ∀ k, mapGet m1 k = mapGet m2 k := hsame
      unfold encCtxJSON
      simp only
      rw [sortStrings_keys_eq m1 m2 h1 h2 hs, encCtxLoop_congr q m1 m2 hs]

/-! ## Lemmas on the cache key -/

theorem split_first {α : Type} (x : α) : ∀ (a b r s : List α), x ∉ a → x ∉ b →
    a ++ x :: r = b ++ x :: s → a = b ∧ r = s
  | [], [], r, s, _, _, h => by simpa using h
  | [], y :: b, r, s, _, hb, h => by
    simp only [List.nil_append, List.cons_append, List.cons.injEq] at h
    exact absurd h.1 (fun hxy => hb (by simp [hxy]))
  | y :: a, [], r, s, ha, _, h => by
    simp only [List.nil_append, List.cons_append, List.cons.injEq] at h
    exact absurd h.1.symm (fun hxy => ha (by simp [hxy]))
  | y :: a, z :: b, r, s, ha, hb, h => by
    simp only [List.cons_append, List.cons.injEq] at h
    obtain ⟨h1, h2⟩ := split_first x a b r s (fun hm => ha (List.mem_cons_of_mem _ hm))
      (fun hm => hb (List.mem_cons_of_mem _ hm)) h.2
    exact ⟨by rw [h.1, h1], h2⟩

theorem tailChars_split (q : Quoting) (hq : q.Decodable) :
    ∀ (l1 l2 : List (String × String)) (s t : List Char),
      tailChars q l1 ++ s = tailChars q l2 ++ t → l1 = l2 ∧ s = t
  | [], [], s, t, h => by simpa [tailChars] using h
  | [], (k, v) :: r, s, t, h => by
    simp only [tailChars, List.cons_append, List.cons.injEq] at h
    exact absurd h.1 (by decide)
  | (k, v) :: r, [], s, t, h => by
    simp only [tailChars, List.cons_append, List.cons.injEq] at h
    exact absurd h.1 (by decide)
  | (k1, v1) :: r1, (k2, v2) :: r2, s, t, h => by
    simp only [tailChars, List.cons_append, List.cons.injEq, true_and, List.append_assoc] at h
    obtain ⟨hk, h⟩ := hq.quote_split _ _ _ _ h
    simp only [List.cons.injEq, true_and] at h
    obtain ⟨hv, h⟩ := hq.json_split _ _ _ _ h
    obtain ⟨hr, hst⟩ := tailChars_split q hq r1 r2 s t h
    exact ⟨by rw [hk, hv, hr], hst⟩

theorem bodyChars_split (q : Quoting) (hq : q.Decodable) :
    ∀ (l1 l2 : List (String × String)) (s t : List Char),
      bodyChars q l1 ++ s = bodyChars q l2 ++ t → l1 = l2 ∧ s = t
  | [], [], s, t, h => by simpa [bodyChars] using h
  | [], (k, v) :: r, s, t, h => by
    obtain ⟨x, hx⟩ := hq.quote_head k
    simp only [bodyChars, hx, List.cons_append, List.cons.injEq] at h
    exact absurd h.1 (by decide)
  | (k, v) :: r, [], s, t, h => by
    obtain ⟨x, hx⟩ := hq.quote_head k
    simp only [bodyChars, hx, List.cons_append, List.cons.injEq] at h
    exact absurd h.1 (by decide)
  | (k1, v1) :: r1, (k2, v2) :: r2, s, t, h => by
    simp only [bodyChars, List.cons_append, List.append_assoc] at h
    obtain ⟨hk, h⟩ := hq.quote_split _ _ _ _ h
    simp only [List.cons.injEq, true_and] at h
    obtain ⟨hv, h⟩ := hq.json_split _ _ _ _ h
    obtain ⟨hr, hst⟩ := tailChars_split q hq r1 r2 s t h
    exact ⟨by rw [hk, hv, hr], hst⟩

theorem encCtxLoop_data (q : Quoting) (m : List (String × String)) (keys : List String) :
    ∀ (i : Nat) (sb : String), 0 < i →
      (encCtxLoop q m i keys sb).data ++ ['\x7d'] =
        sb.data ++ tailChars q (keys.map (fun k => (k, (mapGet m k).getD ""))) := by
  induction keys with
  | nil => intro i sb _; rfl
  | cons k keys ih =>
    intro i sb hi
    simp only [encCtxLoop, hi, if_true, List.map_cons, tailChars]
    rw [ih (i + 1) _ (by omega)]
    simp only [String.data_append, List.append_assoc]
    rfl

/-- The characters of the serialisation of a context. -/
theorem encCtxJSON_data (q : Quoting) (ctx : StringMap) :
    (encCtxJSON q ctx).data = '\x7b' :: bodyChars q (ctxPairs ctx) := by
  cases ctx with
  | none => rfl
  | some m =>
    unfold encCtxJSON ctxPairs
    simp only [String.data_append]
    cases hk : sortStrings (m.map Prod.fst) with
    | nil => rfl
    | cons k keys =>
      simp only [encCtxLoop, Nat.lt_irrefl, if_false, List.map_cons, bodyChars]
      have h := encCtxLoop_data q m keys 1
        ("\x7b" ++ (q.quote k ++ ":" ++ q.jsonMarshal ((mapGet m k).getD ""))) (by omega)
      rw [show 0 + 1 = 1 from rfl, h]
      simp only [String.data_append, List.append_assoc]
      rfl

theorem ctxPairs_keys (m : List (String × String)) :
    (ctxPairs (some m)).map Prod.fst = sortStrings (m.map Prod.fst) := by
  simp [ctxPairs, Function.comp_def]

theorem ctxGet_of_ctxPairs (m : List (String × String)) (x : String) :
    mapGet m x = if x ∈ (ctxPairs (some m)).map Prod.fst
      then (ctxPairs (some m)).lookup x else none := by
  rw [ctxPairs_keys]
  by_cases hx : x ∈ m.map Prod.fst
  · have hx' : x ∈ sortStrings (m.map Prod.fst) := (sortStrings_perm _).mem_iff.mpr hx
    obtain ⟨v, hv⟩ := mapGet_isSome_of_mem m x hx
    simp only [hx', if_true, hv]
    have hnd : ∀ l : List String, x ∈ l →
        (l.map (fun k => (k, (mapGet m k).getD ""))).lookup x = some v := by
      intro l hl
      induction l with
      | nil => simp at hl
      | cons k l ih =>
        by_cases hk : x = k
        · subst hk
          simp [List.lookup, hv]
        · have hl' : x ∈ l := by
            simp only [List.mem_cons] at hl
            rcases hl with h | h
            · exact absurd h hk
            · exact h
          simp only [List.map_cons, List.lookup]
          have : (x == k) = false := by simpa using hk
          rw [this]
          exact ih hl'
    exact (hnd _ hx').symm
  · have hx' : x ∉ sortStrings (m.map Prod.fst) := fun h => hx ((sortStrings_perm _).mem_iff.mp h)
    simp only [hx', if_false]
    exact mapGet_eq_none_of_not_mem m x hx

/-- Contexts with the same sorted pairs have the same entries. -/
theorem ctxGet_eq_of_ctxPairs_eq (c1 c2 : StringMap) (h : ctxPairs c1 = ctxPairs c2) :
    ∀ x, ctxGet c1 x = ctxGet c2 x := by
  have key : ∀ c : StringMap, ∃ m, ctxPairs c = ctxPairs (some m) ∧
      ∀ x, ctxGet c x = mapGet m x := by
    intro c
    cases c with
    | none => exact ⟨[], rfl, fun _ => rfl⟩
    | some m => exact ⟨m, rfl, fun _ => rfl⟩
  obtain ⟨m1, hp1, hg1⟩ := key c1
  obtain ⟨m2, hp2, hg2⟩ := key c2
  intro x
  rw [hg1, hg2, ctxGet_of_ctxPairs m1, ctxGet_of_ctxPairs m2, ← hp1, ← hp2, h]

theorem cacheKey_data (q : Quoting) (w : String) (c : StringMap) (k : String) :
    (cacheKey q w c k).data =
      w.data ++ '|' :: ('\x7b' :: (bodyChars q (ctxPairs c) ++ '|' :: k.data)) := by
  simp only [cacheKey, String.data_append, encCtxJSON_data, List.append_assoc]
  rfl

/-- The cache key determines the inputs when the wrapped keys contain no `|` and the
quoting can be read back. -/
theorem cacheKey_inj (q : Quoting) (hq : q.Decodable) (w1 w2 k1 k2 : String)
    (c1 c2 : StringMap) (hw1 : '|' ∉ w1.data) (hw2 : '|' ∉ w2.data)
    (h : cacheKey q w1 c1 k1 = cacheKey q w2 c2 k2) :
    w1 = w2 ∧ k1 = k2 ∧ ctxPairs c1 = ctxPairs c2 := by
  have hd := congrArg String.data h
  rw [cacheKey_data, cacheKey_data] at hd
  obtain ⟨hw, hrest⟩ := split_first '|' _ _ _ _ hw1 hw2 hd
  simp only [List.cons.injEq, true_and] at hrest
  obtain ⟨hp, hk⟩ := bodyChars_split q hq _ _ _ _ hrest
  simp only [List.cons.injEq, true_and] at hk
  exact ⟨String.ext hw, String.ext hk, hp⟩

theorem escapeChars_split : ∀ (a b s t : List Char),
    escapeChars a ++ '"' :: s = escapeChars b ++ '"' :: t → a = b ∧ s = t
  | [], [], s, t, h => by simpa [escapeChars] using h
  | [], c :: b, s, t, h => by
    simp only [escapeChars, List.nil_append] at h
    split_ifs at h with hc
    · simp only [List.cons_append, List.cons.injEq] at h
      exact absurd h.1 (by decide)
    · simp only [List.cons_append, List.cons.injEq] at h
      exact absurd (Or.inl h.1.symm) hc
  | c :: a, [], s, t, h => by
    simp only [escapeChars, List.nil_append] at h
    split_ifs at h with hc
    · simp only [List.cons_append, List.cons.injEq] at h
      exact absurd h.1 (by decide)
    · simp only [List.cons_append, List.cons.injEq] at h
      exact absurd (Or.inl h.1) hc
  | c :: a, d :: b, s, t, h => by
    simp only [escapeChars] at h
    split_ifs at h with hc hd hd
    · simp only [List.cons_append, List.cons.injEq, true_and] at h
      obtain ⟨h1, h2⟩ := escapeChars_split a b s t h.2
      exact ⟨by rw [h.1, h1], h2⟩
    · simp only [List.cons_append, List.cons.injEq] at h
      exact absurd (Or.inr h.1.symm) hd
    · simp only [List.cons_append, List.cons.injEq] at h
      exact absurd (Or.inr h.1) hc
    · simp only [List.cons_append, List.cons.injEq] at h
      obtain ⟨h1, h2⟩ := escapeChars_split a b s t h.2
      exact ⟨by rw [h.1, h1], h2⟩

theorem escQuoting_decodable : escQuoting.Decodable := by
  have hsplit : ∀ (a b : String) (s t : List Char),
      ('"' :: (escapeChars a.data ++ ['"'])) ++ s = ('"' :: (escapeChars b.data ++ ['"'])) ++ t →
      a = b ∧ s = t := by
    intro a b s t h
    simp only [List.cons_append, List.cons.injEq, true_and, List.append_assoc,
      List.singleton_append] at h
    obtain ⟨h1, h2⟩ := escapeChars_split _ _ _ _ h
    exact ⟨String.ext h1, h2⟩
  exact ⟨fun a => ⟨_, rfl⟩, hsplit, hsplit⟩

theorem skipNL_nil_no_bar : ∀ l : List Char, skipNL l = [] → '|' ∉ l
  | [], _ => by simp
  | c :: cs, h => by
    simp only [skipNL] at h
    split_ifs at h with hc
    have ih := skipNL_nil_no_bar cs h
    simp only [List.mem_cons, not_or]
    refine ⟨?_, ih⟩
    rcases hc with hc | hc <;> (rw [hc]; decide)

theorem skipNL_cons_no_bar : ∀ (l : List Char) (c2 : Char) (r2 : List Char),
    skipNL l = c2 :: r2 → c2 ≠ '|' → '|' ∉ r2 → '|' ∉ l
  | [], c2, r2, h, _, _ => by simp [skipNL] at h
  | c :: cs, c2, r2, h, h2, hr => by
    simp only [skipNL] at h
    split_ifs at h with hc
    · have ih := skipNL_cons_no_bar cs c2 r2 h h2 hr
      simp only [List.mem_cons, not_or]
      refine ⟨?_, ih⟩
      rcases hc with hc | hc <;> (rw [hc]; decide)
    · simp only [List.cons.injEq] at h
      rw [h.1, h.2]
      simp only [List.mem_cons, not_or]
      exact ⟨fun h' => h2 h'.symm, hr⟩

theorem newline_ne_bar (c : Char) (h : c = '\n' ∨ c = '\r') : ¬ '|' = c := by
  rcases h with h | h <;> (rw [h]; decide)

theorem decChar_ne_bar (c : Char) (v : Nat) (h : decChar c = some v) : ¬ '|' = c := by
  rintro rfl
  have hbar : decChar '|' = none := by decide
  rw [hbar] at h
  exact absurd h (by simp)

/-- A well-formed base64 text contains no `|`. -/
theorem b64DecodeChars_no_bar : ∀ (cs : List Char) (dbuf : List Nat) (out : Bytes),
    b64DecodeChars cs dbuf = some out → '|' ∉ cs
  | [], _, _, _ => by simp
  | c :: cs, dbuf, out, h => by
    simp only [List.mem_cons, not_or]
    have other : ∀ x : List Nat, (∀ s0 s1 : Nat, x = [s0, s1] → False) →
        (∀ s0 s1 s2 : Nat, x = [s0, s1, s2] → False) →
        b64DecodeChars (c :: cs) x = some out → ¬ '|' = c ∧ '|' ∉ cs := by
      intro x h1 h2 hx
      rw [b64DecodeChars.eq_4 x c cs h1 h2] at hx
      split at hx
      · rename_i v hv
        refine ⟨decChar_ne_bar c v hv, ?_⟩
        split at hx
        · rename_i s0 s1 s2
          exact absurd rfl (fun e => h2 s0 s1 s2 e)
        · exact b64DecodeChars_no_bar cs _ out hx
      · split_ifs at hx with hnl
        exact ⟨newline_ne_bar c hnl, b64DecodeChars_no_bar cs x out hx⟩
    rcases dbuf with _ | ⟨a0, _ | ⟨a1, _ | ⟨a2, _ | ⟨a3, r⟩⟩⟩⟩
    · exact other [] (by simp) (by simp) h
    · exact other [a0] (by simp) (by simp) h
    · rw [b64DecodeChars.eq_2] at h
      split at h
      · rename_i v hv
        exact ⟨decChar_ne_bar c v hv, b64DecodeChars_no_bar cs _ out h⟩
      · split_ifs at h with hnl hpad
        · exact ⟨newline_ne_bar c hnl, b64DecodeChars_no_bar cs _ out h⟩
        · have hc : c = '=' := by simpa using hpad
          refine ⟨by rw [hc]; decide, ?_⟩
          split at h
          · exact absurd h (by simp)
          · rename_i c2 r2 hs
            split_ifs at h with h1 h2
            have hc2 : c2 = '=' := by simpa using h1
            have hr2 : skipNL r2 = [] := by simpa using h2
            exact skipNL_cons_no_bar cs c2 r2 hs (by rw [hc2]; decide)
              (skipNL_nil_no_bar r2 hr2)
    · rw [b64DecodeChars.eq_3] at h
      split at h
      · rename_i v hv
        refine ⟨decChar_ne_bar c v hv, ?_⟩
        cases hr : b64DecodeChars cs [] with
        | none => simp [hr] at h
        | some o => exact b64DecodeChars_no_bar cs [] o hr
      · split_ifs at h with hnl hpad h1
        · exact ⟨newline_ne_bar c hnl, b64DecodeChars_no_bar cs _ out h⟩
        · have hc : c = '=' := by simpa using hpad
          have hr : skipNL cs = [] := by simpa using h1
          exact ⟨by rw [hc]; decide, skipNL_nil_no_bar cs hr⟩
    · exact other (a0 :: a1 :: a2 :: a3 :: r) (by simp) (by simp) h

theorem b64Decode_no_bar (s : String) (h : b64Decode s ≠ none) : '|' ∉ s.data := by
  cases hd : b64Decode s with
  | none => exact absurd hd h
  | some out => exact b64DecodeChars_no_bar s.data [] out hd

/-! ## Lemmas on UTF-8 and on the text of a UUID -/

theorem utf8Bytes_split (c1 c2 : Char) (r1 r2 : Bytes)
    (h : utf8Bytes c1 ++ r1 = utf8Bytes c2 ++ r2) : c1 = c2 ∧ r1 = r2 := by
  have v1 : c1.toNat < 0x110000 := by
    have := c1.valid
    simp only [UInt32.isValidChar, Nat.isValidChar] at this
    show c1.val.toNat < _
    omega
  have v2 : c2.toNat < 0x110000 := by
    have := c2.valid
    simp only [UInt32.isValidChar, Nat.isValidChar] at this
    show c2.val.toNat < _
    omega
  have key : c1.toNat = c2.toNat ∧ r1 = r2 := by
    unfold utf8Bytes at h
    simp only at h
    split_ifs at h <;> simp only [List.cons_append, List.nil_append, List.cons.injEq] at h <;>
      first
      | exact absurd h.1 (by omega)
      | exact ⟨by omega, by tauto⟩
  refine ⟨?_, key.2⟩
  apply Char.ext
  apply UInt32.ext
  exact key.1

theorem utf8Bytes_ne_nil (c : Char) : utf8Bytes c ≠ [] := by
  unfold utf8Bytes
  simp only
  split_ifs <;> simp

theorem flatMap_utf8_inj : ∀ l1 l2 : List Char,
    l1.flatMap utf8Bytes = l2.flatMap utf8Bytes → l1 = l2
  | [], [], _ => rfl
  | [], c :: l, h => by
    simp only [List.flatMap_nil, List.flatMap_cons] at h
    exact absurd (List.append_eq_nil.1 h.symm).1 (utf8Bytes_ne_nil c)
  | c :: l, [], h => by
    simp only [List.flatMap_nil, List.flatMap_cons] at h
    exact absurd (List.append_eq_nil.1 h).1 (utf8Bytes_ne_nil c)
  | c1 :: l1, c2 :: l2, h => by
    simp only [List.flatMap_cons] at h
    obtain ⟨hc, hr⟩ := utf8Bytes_split c1 c2 _ _ h
    rw [hc, flatMap_utf8_inj l1 l2 hr]

/-- Go `[]byte(s)` loses nothing: strings with the same bytes are equal. -/
theorem bytesOf_inj (a b : String) (h : bytesOf a = bytesOf b) : a = b := by
  unfold bytesOf at h
  have := flatMap_utf8_inj _ _ h
  exact String.ext this

/-- Distinct values below 16 have distinct hexadecimal digits. -/
theorem hexDigit_inj : ∀ a b : Fin 16, hexDigit a.val = hexDigit b.val → a = b := by decide

theorem hexPair_inj (x y : Fin 256) (h1 : hexDigit (x.val / 16) = hexDigit (y.val / 16))
    (h2 : hexDigit (x.val % 16) = hexDigit (y.val % 16)) : x = y := by
  have a := hexDigit_inj ⟨x.val / 16, by omega⟩ ⟨y.val / 16, by omega⟩ h1
  have b := hexDigit_inj ⟨x.val % 16, by omega⟩ ⟨y.val % 16, by omega⟩ h2
  simp only [Fin.mk.injEq] at a b
  apply Fin.ext
  omega

/-- The 36 characters of the text of a UUID. -/
theorem UUID.String_data (u : UUID) : u.String.data =
    [hexDigit ((u 0).val / 16), hexDigit ((u 0).val % 16),
     hexDigit ((u 1).val / 16), hexDigit ((u 1).val % 16),
     hexDigit ((u 2).val / 16), hexDigit ((u 2).val % 16),
     hexDigit ((u 3).val / 16), hexDigit ((u 3).val % 16), '-',
     hexDigit ((u 4).val / 16), hexDigit ((u 4).val % 16),
     hexDigit ((u 5).val / 16), hexDigit ((u 5).val % 16), '-',
     hexDigit ((u 6).val / 16), hexDigit ((u 6).val % 16),
     hexDigit ((u 7).val / 16), hexDigit ((u 7).val % 16), '-',
     hexDigit ((u 8).val / 16), hexDigit ((u 8).val % 16),
     hexDigit ((u 9).val / 16), hexDigit ((u 9).val % 16), '-',
     hexDigit ((u 10).val / 16), hexDigit ((u 10).val % 16),
     hexDigit ((u 11).val / 16), hexDigit ((u 11).val % 16),
     hexDigit ((u 12).val / 16), hexDigit ((u 12).val % 16),
     hexDigit ((u 13).val / 16), hexDigit ((u 13).val % 16),
     hexDigit ((u 14).val / 16), hexDigit ((u 14).val % 16),
     hexDigit ((u 15).val / 16), hexDigit ((u 15).val % 16)] := rfl

/-- The text of a UUID has 36 characters. -/
theorem UUID.String_length (u : UUID) : u.String.data.length = 36 := by
  rw [UUID.String_data]; rfl

/-- The text of a UUID determines the UUID. -/
theorem UUID.String_inj (u v : UUID) (h : u.String = v.String) : u = v := by
  have hd : u.String.data = v.String.data := by rw [h]
  rw [UUID.String_data, UUID.String_data] at hd
  simp only [List.cons.injEq, and_true, true_and] at hd
  obtain ⟨a0, b0, a1, b1, a2, b2, a3, b3, a4, b4, a5, b5, a6, b6, a7, b7, a8, b8, a9, b9,
    a10, b10, a11, b11, a12, b12, a13, b13, a14, b14, a15, b15⟩ := hd
  funext i
  fin_cases i
  · exact hexPair_inj _ _ a0 b0
  · exact hexPair_inj _ _ a1 b1
  · exact hexPair_inj _ _ a2 b2
  · exact hexPair_inj _ _ a3 b3
  · exact hexPair_inj _ _ a4 b4
  · exact hexPair_inj _ _ a5 b5
  · exact hexPair_inj _ _ a6 b6
  · exact hexPair_inj _ _ a7 b7
  · exact hexPair_inj _ _ a8 b8
  · exact hexPair_inj _ _ a9 b9
  · exact hexPair_inj _ _ a10 b10
  · exact hexPair_inj _ _ a11 b11
  · exact hexPair_inj _ _ a12 b12
  · exact hexPair_inj _ _ a13 b13
  · exact hexPair_inj _ _ a14 b14
  · exact hexPair_inj _ _ a15 b15

/-! ## Lemmas on the queue of the cache and on the TTL of the client -/

theorem mem_mapDelete {β : Type} (m : List (String × β)) (k : String) (p : String × β)
    (h : p ∈ mapDelete m k) : p ∈ m ∧ p.1 ≠ k := by
  induction m with
  | nil => simp [mapDelete] at h
  | cons x m ih =>
    obtain ⟨k', v⟩ := x
    unfold mapDelete at h
    by_cases hk : k' = k
    · simp only [hk, if_true] at h
      exact ⟨List.mem_cons_of_mem _ (ih h).1, (ih h).2⟩
    · simp only [hk, if_false, List.mem_cons] at h
      rcases h with h | h
      · subst h
        exact ⟨List.mem_cons_self _ _, hk⟩
      · exact ⟨List.mem_cons_of_mem _ (ih h).1, (ih h).2⟩

theorem TTLCache.Get_covered {T : Type} [Inhabited T] (c : TTLCache T) (now : Int) (k : String)
    (h : c.Covered) : (c.Get now k).2.Covered := by
  unfold TTLCache.Get
  cases hg : mapGet c.data k with
  | none => exact h
  | some it =>
    by_cases he : it.exp < unixSec now
    · simp only [he, if_true]
      intro p hp
      exact h p (mem_mapDelete _ _ _ hp).1
    · simp only [he, if_false]
      exact h

theorem TTLCache.Set_covered {T : Type} (c : TTLCache T) (now : Int) (k : String) (v : T)
    (h : c.Covered) : (c.Set now k v).Covered := by
  unfold TTLCache.Set
  intro p hp
  simp only [mapSet, List.mem_append, List.mem_singleton] at hp ⊢
  rcases hp with hp | hp
  · left
    have hp' := mem_mapDelete _ _ _ hp
    by_cases hs : (c.data.length : Int) ≥ c.size
    · simp only [hs, if_true] at hp' ⊢
      cases hq : c.keys with
      | nil =>
        simp only [hq] at hp' ⊢
        have := h p hp'.1
        rwa [hq] at this
      | cons old rest =>
        simp only [hq] at hp' ⊢
        have hm := mem_mapDelete _ _ _ hp'.1
        have := h p hm.1
        rw [hq, List.mem_cons] at this
        rcases this with this | this
        · exact absurd this hm.2
        · exact this
    · simp only [hs, if_false] at hp' ⊢
      exact h p hp'.1
  · right
    rw [hp]

theorem TTLCache.run_covered {T : Type} [Inhabited T] (ops : List (CacheOp T)) :
    ∀ c : TTLCache T, c.Covered → (c.run ops).Covered := by
  induction ops with
  | nil => intro c h; exact h
  | cons op ops ih =>
    intro c h
    show (TTLCache.run (c.step op) ops).Covered
    apply ih
    cases op with
    | get now k => exact TTLCache.Get_covered c now k h
    | set now k v => exact TTLCache.Set_covered c now k v h

theorem TTLCache.run_size {T : Type} [Inhabited T] (ops : List (CacheOp T)) :
    ∀ c : TTLCache T, (c.run ops).size = c.size ∧ (c.run ops).ttl = c.ttl := by
  induction ops with
  | nil => intro c; exact ⟨rfl, rfl⟩
  | cons op ops ih =>
    intro c
    show (TTLCache.run (c.step op) ops).size = _ ∧ (TTLCache.run (c.step op) ops).ttl = _
    rw [(ih _).1, (ih _).2]
    cases op with
    | get now k => exact ⟨(TTLCache.Get_keys c now k).2.2, (TTLCache.Get_keys c now k).2.1⟩
    | set now k v => exact ⟨(TTLCache.Set_ttl c now k v).2, (TTLCache.Set_ttl c now k v).1⟩

/-- Lemma: `GetSecret` keeps the TTL and the capacity of the plaintext cache. -/
theorem Client.GetSecret_ttl {σ : Type} (E : Env σ) (c : Client) (w : World σ) (t : Clock)
    (key : String) :
    (c.GetSecret E w t key).2.1.plaintextCache.ttl = c.plaintextCache.ttl ∧
    (c.GetSecret E w t key).2.1.plaintextCache.size = c.plaintextCache.size := by
  have hk := TTLCache.Get_keys c.plaintextCache t.ptGet key
  cases h : (c.plaintextCache.Get t.ptGet key).1.2 with
  | true => rw [Client.GetSecret_hit E c w t key h]; exact ⟨rfl, rfl⟩
  | false =>
    have hc := Client.GetSecret_miss_cache E c w t key h
    by_cases he : (c.GetSecret E w t key).1.2 = none
    · rw [hc.2 he]
      have hs := TTLCache.Set_ttl (c.plaintextCache.Get t.ptGet key).2 t.ptSet key
        (c.GetSecret E w t key).1.1
      exact ⟨hs.1.trans hk.2.1, hs.2.trans hk.2.2⟩
    · rw [(hc.1 he).2]
      exact ⟨hk.2.1, hk.2.2⟩

theorem Client.after_ttl {σ : Type} (E : Env σ) (calls : List (World σ × Clock × String)) :
    ∀ c : Client, (c.after E calls).plaintextCache.ttl = c.plaintextCache.ttl ∧
      (c.after E calls).plaintextCache.size = c.plaintextCache.size := by
  induction calls with
  | nil => intro c; exact ⟨rfl, rfl⟩
  | cons x calls ih =>
    intro c
    show (Client.after E (c.GetSecret E x.1 x.2.1 x.2.2).2.1 calls).plaintextCache.ttl = _ ∧
      (Client.after E (c.GetSecret E x.1 x.2.1 x.2.2).2.1 calls).plaintextCache.size = _
    rw [(ih _).1, (ih _).2]
    exact Client.GetSecret_ttl E c x.1 x.2.1 x.2.2

/-- A plaintext stored by a call that missed the cache is served by the next call for
the same key until the second of its expiry has passed. -/
theorem Client.GetSecret_served {σ : Type} (E : Env σ) (c : Client) (w : World σ)
    (t : Clock) (key : String)
    (hmiss : (c.plaintextCache.Get t.ptGet key).1.2 = false)
    (hok : (c.GetSecret E w t key).1.2 = none)
    (w2 : World σ) (t2 : Clock)
    (hexp : unixSec t2.ptGet ≤ unixSec (t.ptSet + c.plaintextCache.ttl)) :
    (c.GetSecret E w t key).2.1.GetSecret E w2 t2 key =
      (((c.GetSecret E w t key).1.1, none), (c.GetSecret E w t key).2.1, w2) := by
  have hc := (Client.GetSecret_miss_cache E c w t key hmiss).2 hok
  have hd := TTLCache.Set_data (c.plaintextCache.Get t.ptGet key).2 t.ptSet key
    (c.GetSecret E w t key).1.1
  rw [← hc, (TTLCache.Get_keys c.plaintextCache t.ptGet key).2.1] at hd
  have hg := TTLCache.Get_live _ t2.ptGet key _ hd hexp
  have hhit : ((c.GetSecret E w t key).2.1.plaintextCache.Get t2.ptGet key).1.2 = true := by
    rw [hg]
  rw [Client.GetSecret_hit E _ w2 t2 key hhit, hg]

/-! # The claims -/

/-- C1, counterexample: on the client of the tests (plaintext TTL one minute) the
secret is stored by the call at 0 s and expires after second 60.  The call at
`t1` = 60 s is served from the cache and returns the plaintext with no error; the
next call, at `t2` = 61 s, has `t2 ≥ t1` and a Unix second not after that of
`t1` + TTL, and yet it asks the repository again: a hit does not renew the expiry. -/
theorem getSecret_hit_keeps_expiry :
    dbCall2.1 = (bytesOf "db-secret", none) ∧
    (Clock.at 60000000000).ptGet ≤ (Clock.at 61000000000).ptGet ∧
    unixSec (Clock.at 61000000000).ptGet ≤
      unixSec ((Clock.at 60000000000).ptGet + testClient.plaintextCache.ttl) ∧
    dbCall3.2.2.repoCalls = dbCall2.2.2.repoCalls ++ [testKey StoreDSVault] ∧
    dbCall3.2.2.repoCalls ≠ dbCall2.2.2.repoCalls := by
  have hmiss3 : (dbCall2.2.1.plaintextCache.Get (Clock.at 61000000000).ptGet
      (testKey StoreDSVault)).1.2 = false := by
    rw [dbCall2_eq]
    exact TTLCache.Get_expired _ _ _ _ dbCall1_entry (by decide)
  have h3 : dbCall3.2.2.repoCalls = dbCall2.2.2.repoCalls ++ [testKey StoreDSVault] := by
    rw [dbCall3]
    exact Client.GetSecret_miss_repoCalls _ dbCall2.2.1 dbCall2.2.2 (Clock.at 61000000000) _ hmiss3
  refine ⟨by rw [dbCall2_eq], by decide, by decide, h3, ?_⟩
  rw [h3]
  intro h
  have hl := congrArg List.length h
  simp at hl

/-- C1, as amended: if `GetSecret(key)` missed the plaintext cache and returned a
plaintext with no error, the cache's `Set` reading the clock at `t.ptSet`, then a
following `GetSecret(key)` (no other client call in between, whatever happened to
the world) at a time whose Unix second is not after the Unix second of
`t.ptSet` + plaintext TTL returns the same plaintext with no error, leaves the
client as it is and leaves the world, the logs of the repository, of the unwrap
service and of the fetch service included, untouched. -/
theorem getSecret_cached_after_miss {σ : Type} (E : Env σ) (c : Client) (w : World σ)
    (t : Clock) (key : String)
    (hmiss : (c.plaintextCache.Get t.ptGet key).1.2 = false)
    (hok : (c.GetSecret E w t key).1.2 = none)
    (w2 : World σ) (t2 : Clock)
    (hexp : unixSec t2.ptGet ≤ unixSec (t.ptSet + c.plaintextCache.ttl)) :
    (c.GetSecret E w t key).2.1.GetSecret E w2 t2 key =
      (((c.GetSecret E w t key).1.1, none), (c.GetSecret E w t key).2.1, w2) := by
  have hc := (Client.GetSecret_miss_cache E c w t key hmiss).2 hok
  have hd := TTLCache.Set_data (c.plaintextCache.Get t.ptGet key).2 t.ptSet key
    (c.GetSecret E w t key).1.1
  rw [← hc, (TTLCache.Get_keys c.plaintextCache t.ptGet key).2.1] at hd
  have hg := TTLCache.Get_live _ t2.ptGet key _ hd hexp
  have hhit : ((c.GetSecret E w t key).2.1.plaintextCache.Get t2.ptGet key).1.2 = true := by
    rw [hg]
  rw [Client.GetSecret_hit E _ w2 t2 key hhit, hg]

/-- C1, witness: the two calls of `TestClient_GetSecret_FromDB_AndCache`, the second
one 59 seconds after the first. -/
theorem getSecret_cached_after_miss_witness :
    dbCall1.2.1.GetSecret (fakeEnv dbTest) dbCall1.2.2 (Clock.at 59000000000)
      (testKey StoreDSVault) = ((dbCall1.1.1, none), dbCall1.2.1, dbCall1.2.2) := by
  have hr := dbCall1_result
  unfold dbCall1 at hr ⊢
  exact getSecret_cached_after_miss (fakeEnv dbTest) testClient (World.start ⟨0, 0, 0⟩)
    (Clock.at 0) (testKey StoreDSVault) dbTest_miss (by rw [hr]) _ (Clock.at 59000000000)
    (by decide)

/-- C2: for a 32-byte key, a 12-byte nonce, a plaintext that GCM accepts and any
additional data, `Seal` returns a byte string, and `decryptAESGCM` on the base64
forms of all but its last 16 bytes (ciphertext), of the nonce and of its last 16
bytes (tag) returns the plaintext with no error. -/
theorem decryptAESGCM_roundtrip (dek iv pt aad : Bytes)
    (hdek : dek.length = 32) (hiv : iv.length = 12)
    (hivb : IsBytes iv) (hptb : IsBytes pt) (hpt : pt.length ≤ gcmMaxPlaintext) :
    ∃ ctWithTag, sealAESGCM dek iv pt aad = some ctWithTag ∧
      decryptAESGCM dek (b64Encode (ctWithTag.take (ctWithTag.length - 16))) (b64Encode iv)
        (b64Encode (ctWithTag.drop (ctWithTag.length - 16))) aad = (pt, none) := by
  obtain ⟨hs, hd⟩ := decryptAESGCM_seal dek iv pt aad (Or.inr (Or.inr hdek)) hiv hivb hptb hpt
  refine ⟨_, hs, ?_⟩
  have hl : (counterCrypt dek iv pt ++ gcmTag dek iv (counterCrypt dek iv pt) aad).length - 16
      = (counterCrypt dek iv pt).length := by
    simp [gcmTag_length]
  rw [hl, List.take_left' rfl, List.drop_left' rfl]
  exact hd

/-- C2, witness: the plaintext `p@ssw0rd` under the key `0, ..., 31`. -/
theorem decryptAESGCM_roundtrip_witness :
    ∃ ctWithTag,
      sealAESGCM (List.range 32) (List.range 12) (bytesOf "p@ssw0rd") (bytesOf "tenant:t|key:k") =
        some ctWithTag ∧
      decryptAESGCM (List.range 32) (b64Encode (ctWithTag.take (ctWithTag.length - 16)))
        (b64Encode (List.range 12)) (b64Encode (ctWithTag.drop (ctWithTag.length - 16)))
        (bytesOf "tenant:t|key:k") = (bytesOf "p@ssw0rd", none) :=
  decryptAESGCM_roundtrip (List.range 32) (List.range 12) (bytesOf "p@ssw0rd")
    (bytesOf "tenant:t|key:k") (by decide) (by decide) (by decide) (by decide) (by decide)

/-- C3: if `decryptAESGCM` succeeds on a record whose stored tag decodes to 16 bytes,
then with any one bit of the decoded tag flipped (key, nonce, ciphertext and
additional data unchanged) it returns the authentication error of `Open` and no
plaintext; and so does `GetSecret` when it misses the plaintext cache, loads a
record with that tag and nonce, unwraps that key and gets that ciphertext from the
fetch provider or from the record. -/
theorem decryptAESGCM_tampered_tag (dek : Bytes) (valueB64 ivB64 tagB64 tagB64' : String)
    (aad tag : Bytes) (i j : Nat)
    (hok : (decryptAESGCM dek valueB64 ivB64 tagB64 aad).2 = none)
    (htag : b64Decode tagB64 = some tag) (hlen : tag.length = 16) (hi : i < 16)
    (htag' : b64Decode tagB64' = some (flipBit tag i j)) :
    decryptAESGCM dek valueB64 ivB64 tagB64' aad =
      ([], some (.wrapped "gcm open: " errOpen)) ∧
    ∀ {σ : Type} (E : Env σ) (c : Client) (w : World σ) (t : Clock) (key : String)
      (rec : SecretRecord),
      (c.plaintextCache.Get t.ptGet key).1.2 = false →
      (E.repoGetSecret w.ext key).1 = (some rec, none) →
      (c.kms.DecryptDEK E (afterRepo E w key) t.kmsGet t.kmsSet rec.WrappedDEK
        (MakeAADAndEncCtx rec.TenantID rec.Key).2 rec.KEKKeyID).1 = (dek, none) →
      rec.IV = ivB64 → rec.Tag = tagB64' → (MakeAADAndEncCtx rec.TenantID rec.Key).1 = aad →
      ((rec.Store = StoreAWSSSM ∧
          (c.ssm.Get E (c.kms.DecryptDEK E (afterRepo E w key) t.kmsGet t.kmsSet rec.WrappedDEK
            (MakeAADAndEncCtx rec.TenantID rec.Key).2 rec.KEKKeyID).2.2
            t.ssmGet t.ssmSet rec.Key).1 = (valueB64, none)) ∨
        (rec.Store ≠ StoreAWSSSM ∧ rec.Value = valueB64)) →
      (c.GetSecret E w t key).1 = ([], some (.wrapped "gcm open: " errOpen)) := by
  have hne : flipBit tag i j ≠ tag := flipBit_ne tag i j (by omega)
  have hlen' : (flipBit tag i j).length = 16 := by simp [flipBit, hlen]
  have main : decryptAESGCM dek valueB64 ivB64 tagB64' aad =
      ([], some (.wrapped "gcm open: " errOpen)) := by
    cases hct : b64Decode valueB64 with
    | none => simp [decryptAESGCM, hct] at hok
    | some ct =>
      cases hiv : b64Decode ivB64 with
      | none => simp [decryptAESGCM, hct, hiv] at hok
      | some iv =>
        by_cases hk : dek.length = 16 ∨ dek.length = 24 ∨ dek.length = 32
        · by_cases hivlen : iv.length = 12
          · rw [decryptAESGCM_decoded dek _ _ _ aad ct iv tag hct hiv htag hk hivlen hlen] at hok
            rw [decryptAESGCM_decoded dek _ _ _ aad ct iv _ hct hiv htag' hk hivlen hlen']
            split_ifs at hok with h1
            have h2 : ¬ (ct.length ≤ gcmMaxPlaintext ∧
                gcmTag dek iv ct aad = flipBit tag i j) := by
              rintro ⟨_, h3⟩
              exact hne (h3.symm.trans h1.2)
            simp only [h2, if_false]
          · simp [decryptAESGCM, hct, hiv, htag, aesNewCipher_ok dek hk, cipherNewGCM_ok,
              gcmNonceSize, hivlen] at hok
        · simp [decryptAESGCM, hct, hiv, htag, aesNewCipher_error dek hk] at hok
  refine ⟨main, ?_⟩
  intro σ E c w t key rec hmiss hrepo hkms hiv htg haad hsrc
  have hL := Client.GetSecret_loaded E c w t key rec hmiss hrepo (by rw [hkms])
  dsimp only at hL
  rw [hkms] at hL
  dsimp only at hL
  rcases hsrc with ⟨hs, hf⟩ | ⟨hs, hv⟩
  · have h := hL.1 hs (by rw [hf])
    rw [hf, hiv, htg, haad] at h
    rw [h, main]
  · have h := (hL.2 hs).1
    rw [hv, hiv, htg, haad] at h
    rw [h, main]

/-- C3, witness: the ciphertext and tag of the all-zero block under the all-zero
256-bit key and nonce, and the tag with the lowest bit of its last byte flipped. -/
theorem decryptAESGCM_tampered_tag_witness :
    (decryptAESGCM (List.replicate 32 0) "zqdAPU1ga24HTsXTuvOdGA==" "AAAAAAAAAAAAAAAA"
      "0NHIp5mZa/AmW5i11Iq5GQ==" []).2 = none ∧
    decryptAESGCM (List.replicate 32 0) "zqdAPU1ga24HTsXTuvOdGA==" "AAAAAAAAAAAAAAAA"
      "0NHIp5mZa/AmW5i11Iq5GA==" [] = ([], some (.wrapped "gcm open: " errOpen)) := by
  have hok : (decryptAESGCM (List.replicate 32 0) "zqdAPU1ga24HTsXTuvOdGA==" "AAAAAAAAAAAAAAAA"
      "0NHIp5mZa/AmW5i11Iq5GQ==" []).2 = none := by decide!
  exact ⟨hok, (decryptAESGCM_tampered_tag (List.replicate 32 0) "zqdAPU1ga24HTsXTuvOdGA=="
    "AAAAAAAAAAAAAAAA" "0NHIp5mZa/AmW5i11Iq5GQ==" "0NHIp5mZa/AmW5i11Iq5GA==" []
    [208, 209, 200, 167, 153, 153, 107, 240, 38, 91, 152, 181, 212, 138, 185, 25] 15 0
    hok (by decide) (by decide) (by decide) (by decide)).1⟩

/-- C4: when `GetSecret(key)` misses the plaintext cache and the repository returns
a nil record with a nil error, it returns no plaintext and the not-found error; the
unwrap and the fetch services receive no request, both providers are left as they
were, and nothing is stored in the plaintext cache: its queue is unchanged, it has
no entry under `key`, and every entry it holds was there before the call. -/
theorem getSecret_not_found {σ : Type} (E : Env σ) (c : Client) (w : World σ)
    (t : Clock) (key : String)
    (hmiss : (c.plaintextCache.Get t.ptGet key).1.2 = false)
    (hrepo : (E.repoGetSecret w.ext key).1 = (none, none)) :
    (c.GetSecret E w t key).1 = ([], some (.msg ("secret not found for key " ++ E.quote key))) ∧
    (c.GetSecret E w t key).2.2.kmsCalls = w.kmsCalls ∧
    (c.GetSecret E w t key).2.2.ssmCalls = w.ssmCalls ∧
    (c.GetSecret E w t key).2.2.repoCalls = w.repoCalls ++ [key] ∧
    (c.GetSecret E w t key).2.2.ext = (E.repoGetSecret w.ext key).2 ∧
    (c.GetSecret E w t key).2.1.kms = c.kms ∧
    (c.GetSecret E w t key).2.1.ssm = c.ssm ∧
    (c.GetSecret E w t key).2.1.plaintextCache.keys = c.plaintextCache.keys ∧
    mapGet (c.GetSecret E w t key).2.1.plaintextCache.data key = none ∧
    (∀ k it, mapGet (c.GetSecret E w t key).2.1.plaintextCache.data k = some it →
      mapGet c.plaintextCache.data k = some it) := by
  rw [Client.GetSecret_miss E c w t key hmiss, hrepo]
  refine ⟨rfl, rfl, rfl, rfl, rfl, rfl, rfl, ?_, ?_, ?_⟩
  · exact (TTLCache.Get_keys c.plaintextCache t.ptGet key).1
  · exact TTLCache.Get_miss _ _ _ hmiss
  · intro k it h
    exact TTLCache.Get_data_sub c.plaintextCache t.ptGet key k it h

/-- C4, witness: the key `missing/key` on the client and the test doubles of the tests. -/
theorem getSecret_not_found_witness :
    (testClient.GetSecret (fakeEnv dbTest) (World.start ⟨0, 0, 0⟩) (Clock.at 0) "missing/key").1 =
      ([], some (.msg ("secret not found for key " ++ (fakeEnv dbTest).quote "missing/key"))) :=
  (getSecret_not_found (fakeEnv dbTest) testClient (World.start ⟨0, 0, 0⟩) (Clock.at 0)
    "missing/key" dbTest_missing_miss (dbTest_missing_repo _)).1

/-- C5: on a miss of the plaintext cache with a loaded record `rec` and a successful
unwrap, `GetSecret` returns what `decryptAESGCM` returns on the unwrapped key, the
nonce, tag and additional data of the record, and as base64 ciphertext the value
the fetch provider returns for the name `rec.Key` when `rec.Store` is `aws_ssm`, and
`rec.Value` otherwise; in the latter case the fetch provider is not called: it is
left as it was, the fetch service receives no request and the world after the
call is the world after the unwrap. -/
theorem getSecret_ciphertext_source {σ : Type} (E : Env σ) (c : Client) (w : World σ)
    (t : Clock) (key : String) (rec : SecretRecord)
    (hmiss : (c.plaintextCache.Get t.ptGet key).1.2 = false)
    (hrepo : (E.repoGetSecret w.ext key).1 = (some rec, none))
    (hkms : (c.kms.DecryptDEK E (afterRepo E w key) t.kmsGet t.kmsSet rec.WrappedDEK
      (MakeAADAndEncCtx rec.TenantID rec.Key).2 rec.KEKKeyID).1.2 = none) :
    let unwrap := c.kms.DecryptDEK E (afterRepo E w key) t.kmsGet t.kmsSet rec.WrappedDEK
      (MakeAADAndEncCtx rec.TenantID rec.Key).2 rec.KEKKeyID
    let fetch := c.ssm.Get E unwrap.2.2 t.ssmGet t.ssmSet rec.Key
    (rec.Store = StoreAWSSSM → fetch.1.2 = none →
      (c.GetSecret E w t key).1 =
        decryptAESGCM unwrap.1.1 fetch.1.1 rec.IV rec.Tag
          (MakeAADAndEncCtx rec.TenantID rec.Key).1) ∧
    (rec.Store ≠ StoreAWSSSM →
      (c.GetSecret E w t key).1 =
        decryptAESGCM unwrap.1.1 rec.Value rec.IV rec.Tag
          (MakeAADAndEncCtx rec.TenantID rec.Key).1 ∧
      (c.GetSecret E w t key).2.1.ssm = c.ssm ∧
      (c.GetSecret E w t key).2.2.ssmCalls = w.ssmCalls ∧
      (c.GetSecret E w t key).2.2 = unwrap.2.2) :=
  Client.GetSecret_loaded E c w t key rec hmiss hrepo hkms

/-- C5, witness: the first call of `TestClient_GetSecret_FromDB_AndCache`, whose record
has the store `ds_vault`: the fetch service receives no request. -/
theorem getSecret_ciphertext_source_witness :
    dbRecord.Store ≠ StoreAWSSSM ∧
    (testClient.GetSecret (fakeEnv dbTest) (World.start ⟨0, 0, 0⟩) (Clock.at 0)
      (testKey StoreDSVault)).2.2.ssmCalls = [] := by
  have h := getSecret_ciphertext_source (fakeEnv dbTest) testClient (World.start ⟨0, 0, 0⟩)
    (Clock.at 0) (testKey StoreDSVault) dbRecord dbTest_miss (dbTest_repo _) dbTest_unwrap
  exact ⟨by decide, (h.2 (by decide)).2.2.1⟩

/-- C6: whenever `GetSecret(key)` returns an error (from the repository, not found, from
the unwrap, from the fetch or from the decryption), it returns no plaintext and the
plaintext cache holds no entry under `key` after the call. -/
theorem getSecret_error_not_cached {σ : Type} (E : Env σ) (c : Client) (w : World σ)
    (t : Clock) (key : String) (herr : (c.GetSecret E w t key).1.2 ≠ none) :
    (c.GetSecret E w t key).1.1 = [] ∧
    mapGet (c.GetSecret E w t key).2.1.plaintextCache.data key = none := by
  cases hb : (c.plaintextCache.Get t.ptGet key).1.2 with
  | true =>
    rw [Client.GetSecret_hit E c w t key hb] at herr
    exact absurd rfl herr
  | false =>
    obtain ⟨h1, h2⟩ := (Client.GetSecret_miss_cache E c w t key hb).1 herr
    exact ⟨h1, by rw [h2]; exact TTLCache.Get_miss _ _ _ hb⟩

/-- C6, witness: the key `missing/key` on the client and the test doubles of the tests. -/
theorem getSecret_error_not_cached_witness :
    (testClient.GetSecret (fakeEnv dbTest) (World.start ⟨0, 0, 0⟩) (Clock.at 0)
      "missing/key").1.1 = [] ∧
    mapGet (testClient.GetSecret (fakeEnv dbTest) (World.start ⟨0, 0, 0⟩) (Clock.at 0)
      "missing/key").2.1.plaintextCache.data "missing/key" = none :=
  getSecret_error_not_cached (fakeEnv dbTest) testClient (World.start ⟨0, 0, 0⟩) (Clock.at 0)
    "missing/key" (by decide!)

/-- C7, counterexample: a key of 16 bytes, which is not 32 bytes long, is accepted:
with the all-zero 128-bit key and nonce, `decryptAESGCM` returns the all-zero block
and no error on its AES-128-GCM ciphertext and tag. -/
theorem decryptAESGCM_key16_accepted :
    (List.replicate 16 0 : Bytes).length ≠ 32 ∧
    decryptAESGCM (List.replicate 16 0) "A4jazmC2o5LzKMK5cbL+eA==" "AAAAAAAAAAAAAAAA"
      "q25H1CzsE731OmeyEle93w==" [] = (List.replicate 16 0, none) := by
  decide!

/-- C7, as amended: for a key whose length is none of 16, 24 and 32 bytes, and every
ciphertext, nonce, tag and additional data, `decryptAESGCM` returns an error and no
plaintext; when the three base64 fields are well formed the error is the
`KeySizeError` of the cipher construction.  (Keys of 16 and 24 bytes are AES keys.) -/
theorem decryptAESGCM_bad_key_size (dek : Bytes) (valueB64 ivB64 tagB64 : String) (aad : Bytes)
    (hk : dek.length ≠ 16 ∧ dek.length ≠ 24 ∧ dek.length ≠ 32) :
    (decryptAESGCM dek valueB64 ivB64 tagB64 aad).1 = [] ∧
    (decryptAESGCM dek valueB64 ivB64 tagB64 aad).2 ≠ none ∧
    (b64Decode valueB64 ≠ none → b64Decode ivB64 ≠ none → b64Decode tagB64 ≠ none →
      decryptAESGCM dek valueB64 ivB64 tagB64 aad = ([], some (.keySizeError dek.length))) := by
  have hk' : ¬ (dek.length = 16 ∨ dek.length = 24 ∨ dek.length = 32) := by omega
  have herr := aesNewCipher_error dek hk'
  unfold decryptAESGCM
  cases hct : b64Decode valueB64 with
  | none => simp
  | some ct =>
    cases hiv : b64Decode ivB64 with
    | none => simp
    | some iv =>
      cases htag : b64Decode tagB64 with
      | none => simp
      | some tag => simp [herr]

/-- C7, witness: a key of 31 bytes. -/
theorem decryptAESGCM_bad_key_size_witness :
    (decryptAESGCM (List.replicate 31 0) "AA==" "AAAAAAAAAAAAAAAA" "AAAAAAAAAAAAAAAAAAAAAA==" []).1 = [] ∧
    (decryptAESGCM (List.replicate 31 0) "AA==" "AAAAAAAAAAAAAAAA" "AAAAAAAAAAAAAAAAAAAAAA==" []).2 ≠ none ∧
    (b64Decode "AA==" ≠ none → b64Decode "AAAAAAAAAAAAAAAA" ≠ none →
      b64Decode "AAAAAAAAAAAAAAAAAAAAAA==" ≠ none →
      decryptAESGCM (List.replicate 31 0) "AA==" "AAAAAAAAAAAAAAAA" "AAAAAAAAAAAAAAAAAAAAAA==" [] =
        ([], some (.keySizeError (List.replicate 31 0).length))) :=
  decryptAESGCM_bad_key_size (List.replicate 31 0) "AA==" "AAAAAAAAAAAAAAAA"
    "AAAAAAAAAAAAAAAAAAAAAA==" [] (by decide)

/-- C8: for a key that `aes.NewCipher` accepts and well-formed base64 ciphertext, nonce
and tag, if the decoded nonce is not 12 bytes long then `decryptAESGCM` returns the
error `bad iv size` with the length and no plaintext, whatever the ciphertext, the
tag and the additional data are (`Open` is not reached). -/
theorem decryptAESGCM_bad_iv_size (dek : Bytes) (valueB64 ivB64 tagB64 : String)
    (aad ct iv tag : Bytes)
    (hk : dek.length = 16 ∨ dek.length = 24 ∨ dek.length = 32)
    (hct : b64Decode valueB64 = some ct) (hiv : b64Decode ivB64 = some iv)
    (htag : b64Decode tagB64 = some tag) (hlen : iv.length ≠ 12) :
    decryptAESGCM dek valueB64 ivB64 tagB64 aad =
      ([], some (.msg ("bad iv size: " ++ toString iv.length))) := by
  simp [decryptAESGCM, hct, hiv, htag, aesNewCipher_ok dek hk, cipherNewGCM_ok, gcmNonceSize, hlen]

/-- C8, witness: a nonce of three bytes. -/
theorem decryptAESGCM_bad_iv_size_witness :
    decryptAESGCM (List.replicate 32 0) "AA==" "AAAA" "AAAAAAAAAAAAAAAAAAAAAA==" [] =
      ([], some (.msg ("bad iv size: " ++ toString [0, 0, 0].length))) :=
  decryptAESGCM_bad_iv_size (List.replicate 32 0) "AA==" "AAAA" "AAAAAAAAAAAAAAAAAAAAAA==" []
    [0] [0, 0, 0] (List.replicate 16 0) (by decide) (by decide) (by decide) (by decide)
    (by decide)

/-- C9: whenever one of the three base64 strings is malformed, `decryptAESGCM` returns
no plaintext and the decode error that names the first malformed field in the order
ciphertext, nonce, tag; this holds for every key, one of invalid length included. -/
theorem decryptAESGCM_decode_error (dek : Bytes) (valueB64 ivB64 tagB64 : String) (aad : Bytes)
    (h : b64Decode valueB64 = none ∨ b64Decode ivB64 = none ∨ b64Decode tagB64 = none) :
    decryptAESGCM dek valueB64 ivB64 tagB64 aad =
      ([], some (.wrapped
        (if b64Decode valueB64 = none then "ciphertext base64: "
         else if b64Decode ivB64 = none then "iv base64: "
         else "tag base64: ") .corruptInputError)) := by
  unfold decryptAESGCM
  cases hct : b64Decode valueB64 with
  | none => simp
  | some ct =>
    cases hiv : b64Decode ivB64 with
    | none => simp
    | some iv =>
      cases htag : b64Decode tagB64 with
      | none => simp
      | some tag => simp [hct, hiv, htag] at h

/-- C9, witness: an empty key, a well-formed ciphertext and a malformed nonce. -/
theorem decryptAESGCM_decode_error_witness :
    decryptAESGCM [] "AA==" "!" "?" [] =
      ([], some (.wrapped
        (if b64Decode "AA==" = none then "ciphertext base64: "
         else if b64Decode "!" = none then "iv base64: "
         else "tag base64: ") .corruptInputError)) :=
  decryptAESGCM_decode_error [] "AA==" "!" "?" [] (by decide)

/-- C10: `MakeAADAndEncCtx(t, k)` returns as additional data the bytes of
`"tenant:" ++ t.String() ++ "|key:" ++ k`, that is the bytes of `tenant:`, of the
UUID text, of `|key:` and of `k` one after the other with nothing escaped, and a
non-nil map with exactly the two entries `tenant_id -> t.String()` and `key -> k`. -/
theorem MakeAADAndEncCtx_spec (t : UUID) (k : String) :
    (MakeAADAndEncCtx t k).1 = bytesOf ("tenant:" ++ t.String ++ "|key:" ++ k) ∧
    (MakeAADAndEncCtx t k).1 =
      [116, 101, 110, 97, 110, 116, 58] ++ bytesOf t.String ++ [124, 107, 101, 121, 58] ++
        bytesOf k ∧
    ∃ m, (MakeAADAndEncCtx t k).2 = some m ∧ m.length = 2 ∧
      mapGet m "tenant_id" = some t.String ∧ mapGet m "key" = some k ∧
      ∀ x, x ≠ "tenant_id" → x ≠ "key" → mapGet m x = none := by
  refine ⟨rfl, ?_, _, rfl, rfl, ?_, ?_, ?_⟩
  · simp only [MakeAADAndEncCtx, bytesOf_append]
    rfl
  · simp [mapGet]
  · have h : ¬ "tenant_id" = "key" := by decide
    simp [mapGet, h]
  · intro x h1 h2
    have h1' : ¬ "tenant_id" = x := fun h => h1 h.symm
    have h2' : ¬ "key" = x := fun h => h2 h.symm
    simp [mapGet, h1', h2']

/-! # The claims on the cache and on the unwrap provider -/

/-- C11: for every cache, whatever its capacity, contents and queue, with a TTL above
zero, `Set(k, v)` followed by `Get(k)` at the same clock reading returns `(v, true)`
and leaves the cache as `Set` left it. -/
theorem cache_set_then_get {T : Type} [Inhabited T] (c : TTLCache T) (now : Int) (k : String)
    (v : T) (httl : 0 < c.ttl) :
    (c.Set now k v).Get now k = ((v, true), c.Set now k v) := by
  have h := TTLCache.Get_live (c.Set now k v) now k _ (TTLCache.Set_data c now k v)
    (unixSec_mono (by omega))
  exact h

/-- C11, witness: the cache and the key of `TestCache_TTL`. -/
theorem cache_set_then_get_witness :
    ((NewTTLCache 1024 1000000000 : TTLCache String).Set 0 "abc" "test").Get 0 "abc" =
      (("test", true), (NewTTLCache 1024 1000000000 : TTLCache String).Set 0 "abc" "test") :=
  cache_set_then_get (NewTTLCache 1024 1000000000) 0 "abc" "test" (by decide)

/-- C12, counterexample: with a TTL of one second, `Set` at 0 s and `Get` at 1.5 s, more
than the TTL later, the entry is still returned: the expiry is the Unix second of
`s + t`, and `Get` misses only once the Unix second of the clock is after it. -/
theorem cache_hit_within_expiry_second :
    (0 : Int) < 1000000000 ∧ (1500000000 : Int) - 0 > 1000000000 ∧
    (((NewTTLCache 1024 1000000000 : TTLCache String).Set 0 "abc" "test").Get
      1500000000 "abc").1 = ("test", true) := by
  decide

/-- C12, as amended: if `Set(k, v)` happens at time `s` and `Get(k)` at a time `g` whose
Unix second is after the Unix second of `s + t`, which is so whenever
`g - s ≥ t + 1 second`, with any calls in between none of which is a `Set` of `k`,
then `Get(k)` returns `(zero value, false)`. -/
theorem cache_get_after_expiry {T : Type} [Inhabited T] (c : TTLCache T) (s : Int) (k : String)
    (v : T) (ops : List (CacheOp T)) (g : Int)
    (hops : ∀ op ∈ ops, op.isSetOf k = false)
    (hexp : unixSec (s + c.ttl) < unixSec g ∨ c.ttl + 1000000000 ≤ g - s) :
    (((c.Set s k v).run ops).Get g k).1 = (default, false) := by
  have hexp' : unixSec (s + c.ttl) < unixSec g := by
    rcases hexp with h | h
    · exact h
    · have h1 : unixSec (s + c.ttl + 1000000000) ≤ unixSec g := unixSec_mono (by omega)
      rw [unixSec_add_second] at h1
      omega
  have hinv := TTLCache.run_keeps_expiry k (unixSec (s + c.ttl)) ops hops (c.Set s k v)
    (by
      intro it hit
      rw [TTLCache.Set_data] at hit
      simp only [Option.some.injEq] at hit
      rw [← hit])
  unfold TTLCache.Get
  cases hg : mapGet ((c.Set s k v).run ops).data k with
  | none => rfl
  | some it =>
    have he : it.exp < unixSec g := by rw [hinv it hg]; exact hexp'
    simp [he]

/-- C12, witness: the cache of `TestCache_TTL`, read two seconds after the `Set`. -/
theorem cache_get_after_expiry_witness :
    ((((NewTTLCache 1024 1000000000 : TTLCache String).Set 0 "abc" "test").run
      [CacheOp.get 0 "abc", CacheOp.set 500000000 "def" "other"]).Get 2000000000 "abc").1 =
      (default, false) :=
  cache_get_after_expiry (NewTTLCache 1024 1000000000) 0 "abc" "test"
    [CacheOp.get 0 "abc", CacheOp.set 500000000 "def" "other"] 2000000000
    (by decide) (by decide)

/-- C13, the code at the failing input: in a cache made with a TTL of zero, `Set(k, v)`
followed by `Get(k)` within the same second returns `(v, true)`, and not
`(zero value, false)`. -/
theorem cache_zero_ttl_hit :
    (((NewTTLCache 1024 0 : TTLCache String).Set 0 "abc" "test").Get 0 "abc").1 =
      ("test", true) := by
  decide

/-- C14: for a capacity `N ≥ 1` and `N + 1` calls of `Set` with pairwise distinct keys on
a fresh cache, at a time `g` within the TTL of each stored entry `Get` of the first
key returns `(zero value, false)` and `Get` of each of the other `N` keys returns its
value and `true`; none of these calls of `Get` changes the cache. -/
theorem cache_fifo_eviction {T : Type} [Inhabited T] (N : Nat) (hN : 1 ≤ N) (ttl : Int)
    (first : Int × String × T) (rest : List (Int × String × T)) (hlen : rest.length = N)
    (hnd : ((first :: rest).map (fun x => x.2.1)).Nodup) (g : Int)
    (hlive : ∀ x ∈ rest, unixSec g ≤ unixSec (x.1 + ttl)) :
    ((NewTTLCache (N : Int) ttl : TTLCache T).setAll (first :: rest)).Get g first.2.1 =
      ((default, false), (NewTTLCache (N : Int) ttl : TTLCache T).setAll (first :: rest)) ∧
    ∀ x ∈ rest,
      ((NewTTLCache (N : Int) ttl : TTLCache T).setAll (first :: rest)).Get g x.2.1 =
        ((x.2.2, true), (NewTTLCache (N : Int) ttl : TTLCache T).setAll (first :: rest)) := by
  have hd := TTLCache.setAll_overflow N hN ttl first rest hlen hnd
  have hkeys : (rest.map (entryOf ttl)).map Prod.fst = rest.map (fun x => x.2.1) := by
    simp [entryOf, Function.comp_def]
  simp only [List.map_cons, List.nodup_cons] at hnd
  constructor
  · have hnone : mapGet ((NewTTLCache (N : Int) ttl : TTLCache T).setAll (first :: rest)).data
        first.2.1 = none := by
      rw [hd]
      exact mapGet_eq_none_of_not_mem _ _ (by rw [hkeys]; exact hnd.1)
    simp [TTLCache.Get, hnone]
  · intro x hx
    have hsome : mapGet ((NewTTLCache (N : Int) ttl : TTLCache T).setAll (first :: rest)).data
        x.2.1 = some { v := x.2.2, exp := unixSec (x.1 + ttl) } := by
      rw [hd]
      exact mapGet_of_mem _ _ _ (by rw [hkeys]; exact hnd.2)
        (List.mem_map.mpr ⟨x, hx, rfl⟩)
    exact TTLCache.Get_live _ g x.2.1 _ hsome (hlive x hx)

/-- C14, witness: capacity two and the keys `a`, `b`, `c`. -/
theorem cache_fifo_eviction_witness :
    ((NewTTLCache ((2 : Nat) : Int) Minute : TTLCache String).setAll
        [(0, "a", "1"), (0, "b", "2"), (0, "c", "3")]).Get 0 "a" =
      ((default, false), (NewTTLCache ((2 : Nat) : Int) Minute : TTLCache String).setAll
        [(0, "a", "1"), (0, "b", "2"), (0, "c", "3")]) ∧
    ∀ x ∈ [((0 : Int), "b", "2"), (0, "c", "3")],
      ((NewTTLCache ((2 : Nat) : Int) Minute : TTLCache String).setAll
        [(0, "a", "1"), (0, "b", "2"), (0, "c", "3")]).Get 0 x.2.1 =
        ((x.2.2, true), (NewTTLCache ((2 : Nat) : Int) Minute : TTLCache String).setAll
          [(0, "a", "1"), (0, "b", "2"), (0, "c", "3")]) :=
  cache_fifo_eviction 2 (by decide) Minute (0, "a", "1") [(0, "b", "2"), (0, "c", "3")]
    (by decide) (by decide) 0 (by decide)

/-- C15, the code at the failing input: a cache of capacity two holds the three entries
`b`, `c` and `d` after `Set` of `a`, `a`, `b`, `c`, `d`: the last `Set` pops a
second occurrence of `a` from the queue, deletes nothing, and inserts `d`. -/
theorem cache_exceeds_capacity :
    ((NewTTLCache 2 Minute : TTLCache String).run
      [CacheOp.set 0 "a" "1", CacheOp.set 0 "a" "2", CacheOp.set 0 "b" "3",
       CacheOp.set 0 "c" "4", CacheOp.set 0 "d" "5"]).data.map Prod.fst = ["b", "c", "d"] := by
  decide

/-- C16: if `DecryptDEK` returns a key with no error, then the cache holds that key
under the cache key of the three inputs with some expiry second `e` (the Unix second
of the time of the `Set` plus the TTL when the call missed the cache, and then not
before the second of the `Set` when the TTL is above zero), and every following
`DecryptDEK` with the same three inputs at a time whose Unix second is not after `e`
returns the same key with no error, leaves the provider as it is and leaves the
world untouched: the unwrap service is not invoked. -/
theorem decryptDEK_memoised {σ : Type} (E : Env σ) (p : KMSProvider) (w : World σ)
    (tGet tSet : Int) (wrappedB64 : String) (encCtx : StringMap) (keyID : String)
    (hok : (p.DecryptDEK E w tGet tSet wrappedB64 encCtx keyID).1.2 = none) :
    ∃ e : Int,
      mapGet (p.DecryptDEK E w tGet tSet wrappedB64 encCtx keyID).2.1.cache.data
        (cacheKey E.toQuoting wrappedB64 encCtx keyID) =
        some { v := (p.DecryptDEK E w tGet tSet wrappedB64 encCtx keyID).1.1, exp := e } ∧
      ((p.cache.Get tGet (cacheKey E.toQuoting wrappedB64 encCtx keyID)).1.2 = false →
        e = unixSec (tSet + p.cache.ttl) ∧ (0 < p.cache.ttl → unixSec tSet ≤ e)) ∧
      ((p.cache.Get tGet (cacheKey E.toQuoting wrappedB64 encCtx keyID)).1.2 = true →
        unixSec tGet ≤ e) ∧
      ∀ (w2 : World σ) (tGet2 tSet2 : Int), unixSec tGet2 ≤ e →
        (p.DecryptDEK E w tGet tSet wrappedB64 encCtx keyID).2.1.DecryptDEK E w2 tGet2 tSet2
            wrappedB64 encCtx keyID =
          (((p.DecryptDEK E w tGet tSet wrappedB64 encCtx keyID).1.1, none),
            (p.DecryptDEK E w tGet tSet wrappedB64 encCtx keyID).2.1, w2) := by
  obtain ⟨e, hent, hmiss, hhit⟩ :=
    KMSProvider.DecryptDEK_ok_entry E p w tGet tSet wrappedB64 encCtx keyID hok
  refine ⟨e, hent, ?_, hhit, ?_⟩
  · intro hm
    refine ⟨hmiss hm, fun httl => ?_⟩
    rw [hmiss hm]
    exact unixSec_mono (by omega)
  · intro w2 tGet2 tSet2 hle
    have hg := TTLCache.Get_live _ tGet2 _ _ hent hle
    have hh : ((p.DecryptDEK E w tGet tSet wrappedB64 encCtx keyID).2.1.cache.Get tGet2
        (cacheKey E.toQuoting wrappedB64 encCtx keyID)).1.2 = true := by rw [hg]
    rw [KMSProvider.DecryptDEK_hit E _ w2 tGet2 tSet2 wrappedB64 encCtx keyID hh, hg]

/-- C16, witness: two calls on the provider of the tests, 299 seconds apart. -/
theorem decryptDEK_memoised_witness :
    ∃ e : Int,
      mapGet (testKMS.DecryptDEK (fakeEnv kmsOnly) (World.start ⟨0, 0, 0⟩) 0 0 "V1JBUFBFRA=="
        none "").2.1.cache.data (cacheKey (fakeEnv kmsOnly).toQuoting "V1JBUFBFRA==" none "") =
        some { v := (testKMS.DecryptDEK (fakeEnv kmsOnly) (World.start ⟨0, 0, 0⟩) 0 0
          "V1JBUFBFRA==" none "").1.1, exp := e } :=
  (decryptDEK_memoised (fakeEnv kmsOnly) testKMS (World.start ⟨0, 0, 0⟩) 0 0 "V1JBUFBFRA=="
    none "" (by decide)).imp (fun _ h => h.1)

/-- C17: whenever `DecryptDEK` returns an error, it returns no key and the cache holds
no entry under the cache key of the inputs after the call; when the wrapped key is
not well-formed base64 the error is the decode error and the world is untouched (the
unwrap service is not invoked), and otherwise it is the wrapped error of the unwrap
service. -/
theorem decryptDEK_error_not_cached {σ : Type} (E : Env σ) (p : KMSProvider) (w : World σ)
    (tGet tSet : Int) (wrappedB64 : String) (encCtx : StringMap) (keyID : String)
    (herr : (p.DecryptDEK E w tGet tSet wrappedB64 encCtx keyID).1.2 ≠ none) :
    (p.DecryptDEK E w tGet tSet wrappedB64 encCtx keyID).1.1 = [] ∧
    mapGet (p.DecryptDEK E w tGet tSet wrappedB64 encCtx keyID).2.1.cache.data
      (cacheKey E.toQuoting wrappedB64 encCtx keyID) = none ∧
    (b64Decode wrappedB64 = none →
      (p.DecryptDEK E w tGet tSet wrappedB64 encCtx keyID).1.2 =
        some (.wrapped "wrapped_dek base64: " .corruptInputError) ∧
      (p.DecryptDEK E w tGet tSet wrappedB64 encCtx keyID).2.2 = w) ∧
    (∀ blob, b64Decode wrappedB64 = some blob →
      ∃ err, (E.kmsDecrypt w.ext
          { CiphertextBlob := blob, EncryptionContext := encCtx,
            KeyId := if keyID = "" then none else some keyID }).1 = .error err ∧
        (p.DecryptDEK E w tGet tSet wrappedB64 encCtx keyID).1.2 =
          some (.wrapped "KMS Decrypt: " err)) := by
  cases hb : (p.cache.Get tGet (cacheKey E.toQuoting wrappedB64 encCtx keyID)).1.2 with
  | true =>
    rw [KMSProvider.DecryptDEK_hit E p w tGet tSet wrappedB64 encCtx keyID hb] at herr
    exact absurd rfl herr
  | false =>
    have hnone := TTLCache.Get_miss p.cache tGet _ hb
    rw [KMSProvider.DecryptDEK_miss E p w tGet tSet wrappedB64 encCtx keyID hb] at herr ⊢
    cases hd : b64Decode wrappedB64 with
    | none => simp [hnone]
    | some blob =>
      simp only [hd] at herr ⊢
      cases hk : (E.kmsDecrypt w.ext
        { CiphertextBlob := blob, EncryptionContext := encCtx,
          KeyId := if keyID = "" then none else some keyID }).1 with
      | error err => simp [hnone, hk]
      | ok plaintext => simp [hk] at herr

/-- C17, witness: a wrapped key that is not base64. -/
theorem decryptDEK_error_not_cached_witness :
    (testKMS.DecryptDEK (fakeEnv kmsOnly) (World.start ⟨0, 0, 0⟩) 0 0 "!" none "").1.1 = [] ∧
    mapGet (testKMS.DecryptDEK (fakeEnv kmsOnly) (World.start ⟨0, 0, 0⟩) 0 0 "!" none
      "").2.1.cache.data (cacheKey (fakeEnv kmsOnly).toQuoting "!" none "") = none := by
  have h := decryptDEK_error_not_cached (fakeEnv kmsOnly) testKMS (World.start ⟨0, 0, 0⟩) 0 0
    "!" none "" (by decide)
  exact ⟨h.1, h.2.1⟩

/-- C18: two contexts with the same key/value pairs, in whatever order the pairs are
listed, have the same serialisation and so the same cache key for every wrapped key
and key id; the serialisation of a map is the list of its entries in the ascending
order of the keys, separated by commas, between braces. -/
theorem encCtxJSON_canonical (q : Quoting) (c1 c2 : StringMap)
    (h1 : ctxValid c1) (h2 : ctxValid c2) (hsame : ∀ k, ctxGet c1 k = ctxGet c2 k) :
    encCtxJSON q c1 = encCtxJSON q c2 ∧
    (∀ wrappedB64 keyID, cacheKey q wrappedB64 c1 keyID = cacheKey q wrappedB64 c2 keyID) ∧
    (∀ m, c1 = some m →
      (sortStrings (m.map Prod.fst)).Sorted (fun a b => a ≤ b) ∧
      (sortStrings (m.map Prod.fst)).Perm (m.map Prod.fst) ∧
      encCtxJSON q c1 =
        "\x7b" ++ String.intercalate "," ((sortStrings (m.map Prod.fst)).map (ctxItem q m)) ++
          "\x7d") := by
  have h := encCtxJSON_congr q c1 c2 h1 h2 hsame
  refine ⟨h, ?_, ?_⟩
  · intro w k
    simp only [cacheKey, h]
  · rintro m rfl
    exact ⟨sortStrings_sorted _, sortStrings_perm _, encCtxJSON_some q m⟩

/-- C18, witness: the two entries of the client's context in both orders. -/
theorem encCtxJSON_canonical_witness :
    encCtxJSON plainQuoting (some [("tenant_id", "t"), ("key", "k")]) =
      encCtxJSON plainQuoting (some [("key", "k"), ("tenant_id", "t")]) :=
  (encCtxJSON_canonical plainQuoting (some [("tenant_id", "t"), ("key", "k")])
    (some [("key", "k"), ("tenant_id", "t")]) (by decide) (by decide)
    (by
      intro k
      simp only [ctxGet, mapGet]
      by_cases h1 : "tenant_id" = k
      · subst h1; decide
      · by_cases h2 : "key" = k
        · subst h2; decide
        · simp [h1, h2])).1

/-- C19, counterexample: for an empty map that is not nil the request carries the empty
map, not nil. -/
theorem decryptDEK_empty_context_sent :
    (testKMS.DecryptDEK (fakeEnv kmsOnly) (World.start ⟨0, 0, 0⟩) 0 0 "V1JBUFBFRA==" (some [])
      "").2.2.kmsCalls =
      [{ CiphertextBlob := [87, 82, 65, 80, 80, 69, 68], EncryptionContext := some [],
         KeyId := none }] ∧
    (some [] : StringMap) ≠ none := by
  decide

/-- C19, as amended: on a cache miss with a well-formed wrapped key, the unwrap service
receives exactly one request, with the decoded blob, with the supplied context as it
is (nil when it is nil, the supplied map otherwise, an empty map included) and with
the key id exactly when it is not the empty string. -/
theorem decryptDEK_request {σ : Type} (E : Env σ) (p : KMSProvider) (w : World σ)
    (tGet tSet : Int) (wrappedB64 : String) (encCtx : StringMap) (keyID : String) (blob : Bytes)
    (hmiss : (p.cache.Get tGet (cacheKey E.toQuoting wrappedB64 encCtx keyID)).1.2 = false)
    (hblob : b64Decode wrappedB64 = some blob) :
    (p.DecryptDEK E w tGet tSet wrappedB64 encCtx keyID).2.2.kmsCalls =
      w.kmsCalls ++
        [{ CiphertextBlob := blob, EncryptionContext := encCtx,
           KeyId := if keyID = "" then none else some keyID }] := by
  rw [KMSProvider.DecryptDEK_miss E p w tGet tSet wrappedB64 encCtx keyID hmiss]
  simp only [hblob]
  split <;> rfl

/-- C19, witness: the provider of the tests, no context and a key id. -/
theorem decryptDEK_request_witness :
    (testKMS.DecryptDEK (fakeEnv kmsOnly) (World.start ⟨0, 0, 0⟩) 0 0 "V1JBUFBFRA==" none
      "arn").2.2.kmsCalls =
      (World.start (⟨0, 0, 0⟩ : FakeCalls)).kmsCalls ++
        [{ CiphertextBlob := [87, 82, 65, 80, 80, 69, 68], EncryptionContext := none,
           KeyId := if "arn" = "" then none else some "arn" }] :=
  decryptDEK_request (fakeEnv kmsOnly) testKMS (World.start ⟨0, 0, 0⟩) 0 0 "V1JBUFBFRA==" none
    "arn" [87, 82, 65, 80, 80, 69, 68] (by decide) (by decide)

/-- C20, counterexample: the wrapped key `V1JBUFBFRA==|{}|k` with the key id `x` and
the wrapped key `V1JBUFBFRA==` with the key id `k|{}|x`, both without context, have
the same cache key; after `DecryptDEK` on the second tuple, `DecryptDEK` on the first,
whose wrapped key is not even base64, returns the key cached for the second and the
unwrap service receives no further request. -/
theorem cacheKey_collision :
    cacheKey (fakeEnv kmsOnly).toQuoting "V1JBUFBFRA==|\x7b\x7d|k" none "x" =
      cacheKey (fakeEnv kmsOnly).toQuoting "V1JBUFBFRA==" none "k|\x7b\x7d|x" ∧
    "V1JBUFBFRA==|\x7b\x7d|k" ≠ "V1JBUFBFRA==" ∧
    b64Decode "V1JBUFBFRA==|\x7b\x7d|k" = none ∧
    (testKMS.DecryptDEK (fakeEnv kmsOnly) (World.start ⟨0, 0, 0⟩) 0 0 "V1JBUFBFRA==" none
      "k|\x7b\x7d|x").1 = ([1, 2, 3], none) ∧
    ((testKMS.DecryptDEK (fakeEnv kmsOnly) (World.start ⟨0, 0, 0⟩) 0 0 "V1JBUFBFRA==" none
      "k|\x7b\x7d|x").2.1.DecryptDEK (fakeEnv kmsOnly)
        (testKMS.DecryptDEK (fakeEnv kmsOnly) (World.start ⟨0, 0, 0⟩) 0 0 "V1JBUFBFRA==" none
          "k|\x7b\x7d|x").2.2 1000000000 1000000000 "V1JBUFBFRA==|\x7b\x7d|k" none "x").1 =
      ([1, 2, 3], none) ∧
    ((testKMS.DecryptDEK (fakeEnv kmsOnly) (World.start ⟨0, 0, 0⟩) 0 0 "V1JBUFBFRA==" none
      "k|\x7b\x7d|x").2.1.DecryptDEK (fakeEnv kmsOnly)
        (testKMS.DecryptDEK (fakeEnv kmsOnly) (World.start ⟨0, 0, 0⟩) 0 0 "V1JBUFBFRA==" none
          "k|\x7b\x7d|x").2.2 1000000000 1000000000 "V1JBUFBFRA==|\x7b\x7d|k" none
            "x").2.2.kmsCalls.length = 1 := by
  decide

/-- C20, as amended: for wrapped keys that are well-formed base64 (or, more generally,
contain no `|`), all key ids and all contexts, and a quoting of keys and values that
can be read back, as that of the standard library is: if the cache keys of two
tuples are equal then the wrapped keys are equal, the key ids are equal and the
contexts contain the same key/value pairs, a nil map and an empty map counting as
the same. -/
theorem cacheKey_identifies_request (q : Quoting) (hq : q.Decodable) (w1 w2 k1 k2 : String)
    (c1 c2 : StringMap)
    (hw1 : b64Decode w1 ≠ none ∨ '|' ∉ w1.data) (hw2 : b64Decode w2 ≠ none ∨ '|' ∉ w2.data)
    (h : cacheKey q w1 c1 k1 = cacheKey q w2 c2 k2) :
    w1 = w2 ∧ k1 = k2 ∧ ∀ x, ctxGet c1 x = ctxGet c2 x := by
  have h1 : '|' ∉ w1.data := hw1.elim (b64Decode_no_bar w1) id
  have h2 : '|' ∉ w2.data := hw2.elim (b64Decode_no_bar w2) id
  obtain ⟨hw, hk, hp⟩ := cacheKey_inj q hq w1 w2 k1 k2 c1 c2 h1 h2 h
  exact ⟨hw, hk, ctxGet_eq_of_ctxPairs_eq c1 c2 hp⟩

/-- C20, witness: one tuple with the two entries of its context listed in both orders. -/
theorem cacheKey_identifies_request_witness :
    "V1JBUFBFRA==" = "V1JBUFBFRA==" ∧ "arn" = "arn" ∧
    ∀ x, ctxGet (some [("tenant_id", "t"), ("key", "k\"|")]) x =
      ctxGet (some [("key", "k\"|"), ("tenant_id", "t")]) x :=
  cacheKey_identifies_request escQuoting escQuoting_decodable "V1JBUFBFRA==" "V1JBUFBFRA=="
    "arn" "arn" (some [("tenant_id", "t"), ("key", "k\"|")])
    (some [("key", "k\"|"), ("tenant_id", "t")]) (Or.inl (by decide)) (Or.inl (by decide))
    (by decide!)

/-! # The claims on the composite key, the default TTL and the frame of the cache -/

/-- C21: for all secret and tenant ids and all strings `store`, `env`, `domain` and
`service`, `MakeKey` returns `/d/s/store/secretID/tenantID/env`, where `d` is the
domain, or `ds` when the domain is empty, and `s` is the service, or `vault` when
the service is empty, the two ids in the text form of a UUID; so `MakeKey` with an
empty domain and an empty service equals `MakeKey` with `ds` and `vault`. The last
part is the key of the example program. -/
theorem MakeKey_format (secretID tenantID : UUID) (store env domain service : String) :
    MakeKey secretID tenantID store env domain service =
      "/" ++ (if domain = "" then "ds" else domain) ++ "/" ++
        (if service = "" then "vault" else service) ++ "/" ++ store ++ "/" ++
        secretID.String ++ "/" ++ tenantID.String ++ "/" ++ env ∧
    MakeKey secretID tenantID store env "" "" =
      "/ds/vault/" ++ store ++ "/" ++ secretID.String ++ "/" ++ tenantID.String ++ "/" ++ env ∧
    MakeKey secretID tenantID store env "" "" = MakeKey secretID tenantID store env "ds" "vault" ∧
    MakeKey secretID tenantID store env "" service =
      MakeKey secretID tenantID store env "ds" service ∧
    MakeKey secretID tenantID store env domain "" =
      MakeKey secretID tenantID store env domain "vault" ∧
    MakeKey (constUUID 0xaa) (constUUID 0xbb) StoreAWSSSM "prod" "ds" "vault" =
      "/ds/vault/aws_ssm/aaaaaaaa-aaaa-aaaa-aaaa-aaaaaaaaaaaa/bbbbbbbb-bbbb-bbbb-bbbb-bbbbbbbbbbbb/prod" := by
  refine ⟨rfl, ?_, rfl, ?_, ?_, by decide⟩
  · simp only [MakeKey, if_true, String.append_assoc]
    rfl
  · simp [MakeKey]
  · simp [MakeKey]

/-- C22: for every `ptCacheTTL ≤ 0`, `NewClient` returns what it returns for one minute:
with both providers given, a client whose plaintext cache is fresh, has a TTL of 60
seconds and the capacity 4096. After any calls of `GetSecret` on that client, a
plaintext that a call stored, its `Set` reading the clock at `t.ptSet`, is returned
by the next call for the same key at any time up to `t.ptSet` + 59 seconds, with no
error, and that call leaves the client and the world untouched. -/
theorem newClient_default_ttl (kms : Option KMSProvider) (ssm : Option SSMProvider)
    (ptCacheTTL : Int) (h : ptCacheTTL ≤ 0) :
    NewClient kms ssm ptCacheTTL = NewClient kms ssm Minute ∧
    (∀ k s, kms = some k → ssm = some s →
      NewClient kms ssm ptCacheTTL =
        some { kms := k, ssm := s, plaintextCache := NewTTLCache 4096 (60 * 1000000000) }) ∧
    ∀ c0, NewClient kms ssm ptCacheTTL = some c0 →
      c0.plaintextCache.ttl = 60 * 1000000000 ∧ c0.plaintextCache.size = 4096 ∧
      ∀ {σ : Type} (E : Env σ) (calls : List (World σ × Clock × String)) (w : World σ)
        (t : Clock) (key : String),
        ((c0.after E calls).plaintextCache.Get t.ptGet key).1.2 = false →
        ((c0.after E calls).GetSecret E w t key).1.2 = none →
        ∀ (w2 : World σ) (t2 : Clock), t2.ptGet ≤ t.ptSet + 59 * 1000000000 →
          ((c0.after E calls).GetSecret E w t key).2.1.GetSecret E w2 t2 key =
            ((((c0.after E calls).GetSecret E w t key).1.1, none),
              ((c0.after E calls).GetSecret E w t key).2.1, w2) := by
  have h0 : NewClient kms ssm ptCacheTTL = NewClient kms ssm Minute := by
    cases kms with
    | none => rfl
    | some k =>
      cases ssm with
      | none => rfl
      | some s => simp [NewClient, h, Minute]
  have h1 : ∀ k s, kms = some k → ssm = some s → NewClient kms ssm ptCacheTTL =
      some { kms := k, ssm := s, plaintextCache := NewTTLCache 4096 (60 * 1000000000) } := by
    intro k s hk hs
    subst hk hs
    simp [NewClient, h, Minute]
  refine ⟨h0, h1, ?_⟩
  intro c0 hc0
  cases kms with
  | none => simp [NewClient] at hc0
  | some k =>
    cases ssm with
    | none => simp [NewClient] at hc0
    | some s =>
      rw [h1 k s rfl rfl] at hc0
      have hc := (Option.some.inj hc0).symm
      refine ⟨by rw [hc]; rfl, by rw [hc]; rfl, ?_⟩
      intro σ E calls w t key hmiss hok w2 t2 ht
      apply Client.GetSecret_served E _ w t key hmiss hok w2 t2
      rw [(Client.after_ttl E calls c0).1, hc]
      apply unixSec_mono
      show t2.ptGet ≤ t.ptSet + 60 * 1000000000
      omega

/-- C22, witness: the providers of the example program and a TTL of minus one
nanosecond. -/
theorem newClient_default_ttl_witness :
    NewClient (some testKMS) (some (NewSSMProvider 1024 (5 * Minute))) (-1) =
      NewClient (some testKMS) (some (NewSSMProvider 1024 (5 * Minute))) Minute :=
  (newClient_default_ttl (some testKMS) (some (NewSSMProvider 1024 (5 * Minute))) (-1)
    (by decide)).1

/-- C23: there are a capacity, a sequence of calls of `Set` all within the TTL of the
time `g` of the lookups, and keys `a` and `b` such that the last `Set` of `a` comes
after the last `Set` of `b`, and yet `Get(a)` misses while `Get(b)` hits. The example
is the capacity 3 with `Set` of `a`, `b`, `a`, `c`, `d`: the last `Set` pops the first
occurrence of `a` from the queue and deletes the entry that the third call wrote. -/
theorem cache_early_eviction :
    (∃ (N ttl g : Int) (ops : List (CacheOp String)) (a b : String) (ia ib : Nat) (v : String),
      (∀ op ∈ ops, op.time ≤ g ∧ g - op.time < ttl) ∧
      lastSetOf ops a = some ia ∧ lastSetOf ops b = some ib ∧ ib < ia ∧
      (((NewTTLCache N ttl).run ops).Get g a).1 = (default, false) ∧
      (((NewTTLCache N ttl).run ops).Get g b).1 = (v, true)) ∧
    lastSetOf [CacheOp.set 0 "a" "1", .set 0 "b" "2", .set 0 "a" "3", .set 0 "c" "4",
      .set 0 "d" "5"] "a" = some 2 ∧
    lastSetOf [CacheOp.set 0 "a" "1", .set 0 "b" "2", .set 0 "a" "3", .set 0 "c" "4",
      .set 0 "d" "5"] "b" = some 1 ∧
    (((NewTTLCache 3 Minute).run [CacheOp.set 0 "a" "1", .set 0 "b" "2", .set 0 "a" "3",
      .set 0 "c" "4", .set 0 "d" "5"]).Get 0 "a").1 = ("", false) ∧
    (((NewTTLCache 3 Minute).run [CacheOp.set 0 "a" "1", .set 0 "b" "2", .set 0 "a" "3",
      .set 0 "c" "4", .set 0 "d" "5"]).Get 0 "b").1 = ("2", true) := by
  refine ⟨⟨3, Minute, 0, [CacheOp.set 0 "a" "1", .set 0 "b" "2", .set 0 "a" "3", .set 0 "c" "4",
    .set 0 "d" "5"], "a", "b", 2, 1, "2", by decide, by decide, by decide, by decide, by decide,
    by decide⟩, by decide, by decide, by decide, by decide⟩

/-- C24: for every cache, key `k` and time `now`, `Get(k)` returns `found = true` exactly
when an entry is stored under `k` whose expiry second is not before the Unix second
of `now`, and then returns the value of that entry (and the zero value otherwise);
the entry under `k` is removed exactly when it exists and its expiry second is
before the Unix second of `now`, and otherwise the cache is unchanged; in every case
the entries under the other keys, the queue, the TTL and the capacity are
unchanged. -/
theorem cache_get_frame {T : Type} [Inhabited T] (c : TTLCache T) (now : Int) (k : String) :
    ((c.Get now k).1.2 = true ↔ ∃ it, mapGet c.data k = some it ∧ unixSec now ≤ it.exp) ∧
    (∀ it, mapGet c.data k = some it → unixSec now ≤ it.exp → (c.Get now k).1.1 = it.v) ∧
    ((c.Get now k).1.2 = false → (c.Get now k).1.1 = default) ∧
    (((mapGet c.data k).isSome ∧ mapGet (c.Get now k).2.data k = none) ↔
      ∃ it, mapGet c.data k = some it ∧ it.exp < unixSec now) ∧
    ((∃ it, mapGet c.data k = some it ∧ it.exp < unixSec now) →
      (c.Get now k).2.data = mapDelete c.data k) ∧
    ((¬ ∃ it, mapGet c.data k = some it ∧ it.exp < unixSec now) → (c.Get now k).2 = c) ∧
    (∀ k2, k2 ≠ k → mapGet (c.Get now k).2.data k2 = mapGet c.data k2) ∧
    (c.Get now k).2.keys = c.keys ∧ (c.Get now k).2.ttl = c.ttl ∧
    (c.Get now k).2.size = c.size := by
  unfold TTLCache.Get
  cases hg : mapGet c.data k with
  | none => simp
  | some it =>
    by_cases he : it.exp < unixSec now
    · have he2 : ¬ unixSec now ≤ it.exp := by omega
      simp only [he, if_true]
      refine ⟨by simp [he2], ?_, by simp, by simp [mapGet_mapDelete_self, he], by simp,
        by simp [he], ?_, by trivial, by trivial, by trivial⟩
      · intro it2 h2 h3
        simp only [Option.some.injEq] at h2
        subst h2
        exact absurd h3 he2
      · intro k2 hk
        exact mapGet_mapDelete_ne _ _ _ hk
    · have he2 : unixSec now ≤ it.exp := by omega
      simp only [he, if_false]
      refine ⟨by simp [he2], ?_, by simp, by simp [hg, he], by simp [he], by simp, by simp,
        by trivial, by trivial, by trivial⟩
      intro it2 h2 _
      simp only [Option.some.injEq] at h2
      subst h2
      rfl

/-- C25: in every cache reached from `NewTTLCache` by calls of `Set` and `Get`, every
key with an entry in the store occurs in the queue; so when the store is at or
above a capacity of at least one, the queue is not empty, and `Set` pops exactly its
first element, deletes the entry under it, stores the new entry and appends the new
key to the queue. -/
theorem cache_queue_covers_store {T : Type} [Inhabited T] (size ttl : Int)
    (ops : List (CacheOp T)) :
    (∀ k, (mapGet ((NewTTLCache size ttl : TTLCache T).run ops).data k).isSome →
      k ∈ ((NewTTLCache size ttl : TTLCache T).run ops).keys) ∧
    (1 ≤ size →
      (((NewTTLCache size ttl : TTLCache T).run ops).data.length : Int) ≥ size →
      ∃ old rest, ((NewTTLCache size ttl : TTLCache T).run ops).keys = old :: rest ∧
        ∀ now k v,
          (((NewTTLCache size ttl : TTLCache T).run ops).Set now k v).keys = rest ++ [k] ∧
          (((NewTTLCache size ttl : TTLCache T).run ops).Set now k v).data =
            mapSet (mapDelete ((NewTTLCache size ttl : TTLCache T).run ops).data old) k
              { v := v, exp := unixSec (now + ttl) }) := by
  have hcov : ((NewTTLCache size ttl : TTLCache T).run ops).Covered :=
    TTLCache.run_covered ops _ (by intro p hp; simp [NewTTLCache] at hp)
  have hsz := TTLCache.run_size ops (NewTTLCache size ttl : TTLCache T)
  generalize (NewTTLCache size ttl : TTLCache T).run ops = c at hcov hsz
  have hs : c.size = size := hsz.1
  have ht : c.ttl = ttl := hsz.2
  constructor
  · intro k hk
    obtain ⟨it, hit⟩ := Option.isSome_iff_exists.1 hk
    exact hcov (k, it) (mem_keys_of_mapGet c.data k it hit)
  · intro h1 hlen
    have hne : c.data ≠ [] := by
      intro h0
      rw [h0] at hlen
      simp at hlen
      omega
    obtain ⟨p, hp⟩ := List.exists_mem_of_ne_nil _ hne
    have hpk := hcov p hp
    have hge : (c.data.length : Int) ≥ c.size := by rw [hs]; exact hlen
    cases hq : c.keys with
    | nil => rw [hq] at hpk; simp at hpk
    | cons old rest =>
      refine ⟨old, rest, rfl, ?_⟩
      intro now k v
      unfold TTLCache.Set
      simp only [hge, if_true, hq, ht]
      exact ⟨trivial, trivial⟩

/-- C26: for all tenant ids and keys, whatever characters the keys contain, if
`MakeAADAndEncCtx` returns the same additional data for `(t1, k1)` and `(t2, k2)`
then `t1 = t2` and `k1 = k2`; the text of a tenant id always has 36 characters, which
is what makes the concatenation unambiguous. -/
theorem aad_injective (t1 t2 : UUID) (k1 k2 : String)
    (h : (MakeAADAndEncCtx t1 k1).1 = (MakeAADAndEncCtx t2 k2).1) :
    t1 = t2 ∧ k1 = k2 ∧ t1.String.length = 36 ∧ t2.String.length = 36 := by
  have hs := bytesOf_inj _ _ h
  have hd := congrArg String.data hs
  simp only [String.data_append, List.append_assoc] at hd
  have h1 := List.append_cancel_left hd
  have h2 := List.append_inj h1 (by rw [UUID.String_length, UUID.String_length])
  have h3 := List.append_cancel_left h2.2
  exact ⟨UUID.String_inj t1 t2 (String.ext h2.1), String.ext h3, UUID.String_length t1,
    UUID.String_length t2⟩

/-- C26, witness: a key that contains the separator of the additional data. -/
theorem aad_injective_witness :
    testUUID 1 = testUUID 1 ∧ "a|key:b" = "a|key:b" ∧ (testUUID 1).String.length = 36 ∧
      (testUUID 1).String.length = 36 :=
  aad_injective (testUUID 1) (testUUID 1) "a|key:b" "a|key:b" rfl

end Vault
